import Mathlib

/-!
# Pawn-and-barrier game: state model, move generation, evaluators

A shallow embedding of the game core found in `m2.cpp`, `m3.cpp` and
`treeV/tree.cpp`.  The three files share the state model and the move
generator verbatim; they differ in the evaluator (`M2.eval` is the 3-term
evaluator of `m2.cpp` and `tree.cpp`, `M3.eval` the 5-term phase-blended
evaluator of `m3.cpp`), in the constant the search uses as infinity, and in
the trace recorder that `tree.cpp` adds to the search (`Tree`).

Modelling conventions:
* C++ `int` is modelled by `Int`.  The values computed from the board of a
  well-formed state are far inside the 32-bit range; the one score that can
  leave it, the depth-offset terminal score of `m3.cpp`, is reduced to the
  32-bit range with `wrap32`.
* An `N×N` array is modelled by a function on index pairs; only the index
  pairs accepted by `inBounds` are cells of the array.
* A `for` loop that pushes onto a vector is modelled by the list it builds.
* Loops whose trip count is not fixed (the breadth-first scans) and the search
  recursion carry a fuel argument and return `none` when the fuel is exhausted;
  the theorems show that the fuel suffices on well-formed states.
* Mutable globals (`turns`, `currentTurnNodes`, `gameLog`) are passed as
  arguments and returned.
* Array subscripts are total in the main model; the section `Checked` repeats
  `m3.cpp` with subscripts that fail outside the array, for the memory-safety
  statement.
-/

set_option autoImplicit false

/-! ## Constants and data model -/

/-- Board dimension: `const int N = 7;` -/
def N : Int := 7

/-- Cell state `EMPTY = 0` of `enum Cell`. -/
def EMPTY : Int := 0
/-- Cell state `AI_PAWN = 1` (the MAX pawn). -/
def AI_PAWN : Int := 1
/-- Cell state `HU_PAWN = 2` (the MIN pawn). -/
def HU_PAWN : Int := 2
/-- Cell state `BLOCKED = -1`. -/
def BLOCKED : Int := -1

/-- Row offsets of the eight neighbours: `int dx[8]`. -/
def dx : List Int := [-1, -1, -1, 0, 0, 1, 1, 1]
/-- Column offsets of the eight neighbours: `int dy[8]`. -/
def dy : List Int := [-1, 0, 1, -1, 1, -1, 0, 1]

/-- The `struct State`: board, both pawn positions and the active-player flag. -/
structure State where
  board : Int → Int → Int
  aiX : Int
  aiY : Int
  huX : Int
  huY : Int
  isMaxTurn : Bool

/-- The `struct Move`: step destination and barrier target. -/
structure Move where
  moveX : Int
  moveY : Int
  removeX : Int
  removeY : Int
  deriving DecidableEq, Repr

/-- Array write `a[x][y] = v`. -/
def setCell {α : Type} (a : Int → Int → α) (x y : Int) (v : α) : Int → Int → α :=
  fun i j => if i = x ∧ j = y then v else a i j

/-- The values taken by a loop counter `for (int i = 0; i < N; i++)`. -/
def indices : List Int := [0, 1, 2, 3, 4, 5, 6]

/-- The index pairs visited by `for i in 0..N-1, for j in 0..N-1`, in row-major order. -/
def allCells : List (Int × Int) :=
  indices.flatMap (fun i => indices.map (fun j => (i, j)))

/-- The cells `(x + dx[k], y + dy[k])` for `k = 0..7`, in loop order. -/
def neighbours (x y : Int) : List (Int × Int) :=
  (List.zip dx dy).map (fun d => (x + d.1, y + d.2))

/-! ## Helper functions -/

/-- Grid membership test `inBounds`. -/
def inBounds (x y : Int) : Bool :=
  decide (x ≥ 0) && decide (x < N) && decide (y ≥ 0) && decide (y < N)

/-- Step legality test `isLegitMove`. -/
def isLegitMove (s : State) (fx fy tx ty : Int) : Bool :=
  if !inBounds tx ty then false
  else
    let dx_ := tx - fx
    let dy_ := ty - fy
    if |dx_| > 1 ∨ |dy_| > 1 then false
    else if dx_ = 0 ∧ dy_ = 0 then false
    else if s.board tx ty = BLOCKED then false
    else if s.board tx ty = AI_PAWN ∨ s.board tx ty = HU_PAWN then false
    else true

/-- Position of the active player's pawn: `getCurrentPlayerPos`. -/
def getCurrentPlayerPos (s : State) : Int × Int :=
  if s.isMaxTurn then (s.aiX, s.aiY) else (s.huX, s.huY)

/-- Legal one-step destinations of the active pawn: `getLegalStepMoves`. -/
def getLegalStepMoves (s : State) : List (Int × Int) :=
  let p := getCurrentPlayerPos s
  (neighbours p.1 p.2).filter (fun t => isLegitMove s p.1 p.2 t.1 t.2)

/-- Barrier placement `placeBarrier`: the success flag and the updated state. -/
def placeBarrier (s : State) (x y : Int) : Bool × State :=
  if !inBounds x y then (false, s)
  else if s.board x y ≠ EMPTY then (false, s)
  else (true, { s with board := setCell s.board x y BLOCKED })

/-- Pawn relocation `applyStepMove`. -/
def applyStepMove (s : State) (toX toY : Int) : State :=
  let p := getCurrentPlayerPos s
  let pawn := if s.isMaxTurn then AI_PAWN else HU_PAWN
  let b1 := setCell s.board p.1 p.2 EMPTY
  let b2 := setCell b1 toX toY pawn
  if s.isMaxTurn then { s with board := b2, aiX := toX, aiY := toY }
  else { s with board := b2, huX := toX, huY := toY }

/-- Full move `applyMove`: step, barrier (its success flag is dropped), turn flip. -/
def applyMove (s : State) (m : Move) : State :=
  let ns := applyStepMove s m.moveX m.moveY
  let ns := (placeBarrier ns m.removeX m.removeY).2
  { ns with isMaxTurn := !s.isMaxTurn }

/-- Terminal test `hasNoMoves`. -/
def hasNoMoves (s : State) : Bool :=
  (getLegalStepMoves s).isEmpty

/-- Number of legal steps of the chosen player: `countMovesForPlayer`. -/
def countMovesForPlayer (s : State) (forAI : Bool) : Int :=
  let tmp := { s with isMaxTurn := forAI }
  ((getLegalStepMoves tmp).length : Int)

/-- Successor generation `generateAllMoves`: every legal step paired with every
cell that is `EMPTY` after the step, in row-major order. -/
def generateAllMoves (s : State) : List Move :=
  (getLegalStepMoves s).flatMap (fun p =>
    let after := applyStepMove s p.1 p.2
    (allCells.filter (fun c => after.board c.1 c.2 = EMPTY)).map
      (fun c => Move.mk p.1 p.2 c.1 c.2))

/-- Initial position `initializeGame`. -/
def initializeGame (s : State) : State :=
  let b0 : Int → Int → Int := fun _ _ => EMPTY
  let s1 := { s with board := b0, aiX := 0, aiY := 3, huX := 6, huY := 3 }
  let s2 := { s1 with board := setCell s1.board s1.aiX s1.aiY AI_PAWN }
  let s3 := { s2 with board := setCell s2.board s2.huX s2.huY HU_PAWN }
  { s3 with isMaxTurn := false }

/-- Value the mutable global `int turns = 1;` of `m3.cpp` has when the game starts;
`initializeGame` does not assign it. -/
def initialTurns : Int := 1

/-- Some state to initialise: an all-zero `State` object. -/
def zeroState : State :=
  { board := fun _ _ => 0, aiX := 0, aiY := 0, huX := 0, huY := 0, isMaxTurn := false }

/-- The state the game starts from. -/
def initialState : State := initializeGame zeroState

/-- Number of board cells holding value `v`. -/
def countCells (b : Int → Int → Int) (v : Int) : Nat :=
  allCells.countP (fun c => b c.1 c.2 = v)

/-- Well-formed state (the pawn invariants of the data model): both stored
positions are in bounds and each pawn value occurs on the board at exactly its
stored position. -/
def WellFormed (s : State) : Prop :=
  inBounds s.aiX s.aiY = true ∧ inBounds s.huX s.huY = true ∧
  (∀ c ∈ allCells, (s.board c.1 c.2 = AI_PAWN ↔ c = (s.aiX, s.aiY))) ∧
  (∀ c ∈ allCells, (s.board c.1 c.2 = HU_PAWN ↔ c = (s.huX, s.huY)))

instance (s : State) : Decidable (WellFormed s) := by
  unfold WellFormed; infer_instance

/-- Cell domain of the data model: every cell holds one of the four cell states
of `enum Cell`. -/
def CellsValid (s : State) : Prop :=
  ∀ c ∈ allCells, s.board c.1 c.2 = EMPTY ∨ s.board c.1 c.2 = AI_PAWN ∨
    s.board c.1 c.2 = HU_PAWN ∨ s.board c.1 c.2 = BLOCKED

instance (s : State) : Decidable (CellsValid s) := by
  unfold CellsValid; infer_instance

/-- Rank of cell `(x, y)` in the row-major scan of the board. -/
def rowMajor (x y : Int) : Int := N * x + y

/-- One generated move leads from `s` to `t`. -/
def Step (s t : State) : Prop :=
  ∃ m ∈ generateAllMoves s, t = applyMove s m

/-- States reachable from `s` by sequences of generated moves. -/
inductive Reachable (s : State) : State → Prop where
  | refl : Reachable s s
  | step {t u : State} : Reachable s t → Step t u → Reachable s u

/-! ## Evaluator terms shared by all three files -/

/-- Mobility term `calculateMobility`: MAX's legal steps minus MIN's. -/
def calculateMobility (s : State) : Int :=
  let aiM := countMovesForPlayer s true
  let huM := countMovesForPlayer s false
  aiM - huM

/-- The counting loop of `calculateBarriers`: in-bounds `BLOCKED` cells among the
eight neighbours of `(x, y)`. -/
def blockedAround (s : State) (x y : Int) : Int :=
  ((neighbours x y).countP (fun c => inBounds c.1 c.2 && decide (s.board c.1 c.2 = BLOCKED)) : Nat)

/-- Barrier term `calculateBarriers`: barriers around MIN minus barriers around MAX. -/
def calculateBarriers (s : State) : Int :=
  let a := getCurrentPlayerPos { s with isMaxTurn := true }
  let blockedAroundAI := blockedAround s a.1 a.2
  let h := getCurrentPlayerPos { s with isMaxTurn := false }
  let blockedAroundHU := blockedAround s h.1 h.2
  blockedAroundHU - blockedAroundAI

/-! ## The 3-term evaluator of `m2.cpp` and `treeV/tree.cpp` -/

namespace M2

/-- Terminal score for a MAX win: `const int WIN_SCORE = 1000000;` -/
def WIN_SCORE : Int := 1000000
/-- Terminal score for a MAX loss: `const int LOSE_SCORE = -1000000;` -/
def LOSE_SCORE : Int := -1000000

/-- The neighbour loop inside `countReachable`: marks and enqueues every in-bounds,
unvisited, non-`BLOCKED` neighbour of `(x, y)` other than the other pawn's cell. -/
def visitNeighbours (s : State) (otherX otherY x y : Int)
    (visited : Int → Int → Bool) (q : List (Int × Int)) :
    (Int → Int → Bool) × List (Int × Int) :=
  (neighbours x y).foldl (fun acc c =>
    if !inBounds c.1 c.2 then acc
    else if acc.1 c.1 c.2 then acc
    else if s.board c.1 c.2 = BLOCKED then acc
    else if c.1 = otherX ∧ c.2 = otherY then acc
    else (setCell acc.1 c.1 c.2 true, acc.2 ++ [c])) (visited, q)

/-- The queue loop `for (qi = 0; qi < q.size(); ++qi)` of `countReachable`. -/
def countReachableLoop (s : State) (otherX otherY : Int) :
    Nat → List (Int × Int) → Nat → (Int → Int → Bool) → Int → Option Int
  | 0, _, _, _, _ => none
  | fuel + 1, q, qi, visited, reachableCount =>
    match q[qi]? with
    | none => some reachableCount
    | some c =>
      let r := visitNeighbours s otherX otherY c.1 c.2 visited q
      countReachableLoop s otherX otherY fuel r.2 (qi + 1) r.1 (reachableCount + 1)

/-- Fuel for the queue loop of `countReachable`: every cell is enqueued at most once. -/
def reachFuel : Nat := 7 * 7 + 1

/-- Flood fill `countReachable`: number of cells dequeued. -/
def countReachable (s : State) (forAI : Bool) : Option Int :=
  let sx := if forAI then s.aiX else s.huX
  let sy := if forAI then s.aiY else s.huY
  let otherX := if forAI then s.huX else s.aiX
  let otherY := if forAI then s.huY else s.aiY
  let visited : Int → Int → Bool := fun _ _ => false
  countReachableLoop s otherX otherY reachFuel [(sx, sy)] 0 (setCell visited sx sy true) 0

/-- Area term `calculateAreaControl`. -/
def calculateAreaControl (s : State) : Option Int := do
  let aiArea ← countReachable s true
  let huArea ← countReachable s false
  pure (aiArea - huArea)

/-- The 3-term evaluator `eval`. -/
def eval (s : State) : Option Int :=
  if hasNoMoves s then
    some (if s.isMaxTurn then LOSE_SCORE else WIN_SCORE)
  else do
    let a := calculateMobility s * 5
    let b := calculateBarriers s * 2
    let c ← calculateAreaControl s
    pure (a + b + c * 10)

end M2

/-! ## The 5-term phase-blended evaluator of `m3.cpp`

`double` sub-scores are modelled by exact rationals.  The terminal score is an
`int` sum of a score base and the `int` depth, which leaves the 32-bit range
for large depths; it is reduced with `wrap32`. -/

/-- Result of a 32-bit two's-complement `int` computation whose exact value is
`x`: the representative of `x` modulo `2^32` in the range `-2^31 .. 2^31 - 1`. -/
def wrap32 (x : Int) : Int := (x + 2147483648) % 4294967296 - 2147483648

namespace M3

/-- Terminal score base for a MAX win: `const int WIN_SCORE = 1000000000;` -/
def WIN_SCORE : Int := 1000000000
/-- Terminal score base for a MAX loss: `const int LOSE_SCORE = -1000000000;` -/
def LOSE_SCORE : Int := -1000000000

/-- The neighbour loop inside `bfsDistances`: lowers the distance of, and enqueues,
every in-bounds non-`BLOCKED` neighbour whose distance exceeds `currentDist + 1`. -/
def relaxNeighbours (s : State) (cx cy currentDist : Int)
    (distMap : Int → Int → Int) (q : List (Int × Int)) :
    (Int → Int → Int) × List (Int × Int) :=
  (neighbours cx cy).foldl (fun acc c =>
    if !inBounds c.1 c.2 then acc
    else if s.board c.1 c.2 = BLOCKED then acc
    else if acc.1 c.1 c.2 > currentDist + 1 then
      (setCell acc.1 c.1 c.2 (currentDist + 1), acc.2 ++ [c])
    else acc) (distMap, q)

/-- The body of the neighbour loop of `relaxNeighbours`, named for the proofs. -/
def relaxStep (s : State) (currentDist : Int)
    (acc : (Int → Int → Int) × List (Int × Int)) (c : Int × Int) :
    (Int → Int → Int) × List (Int × Int) :=
  if !inBounds c.1 c.2 then acc
  else if s.board c.1 c.2 = BLOCKED then acc
  else if acc.1 c.1 c.2 > currentDist + 1 then
    (setCell acc.1 c.1 c.2 (currentDist + 1), acc.2 ++ [c])
  else acc

/-- The queue loop `while (head < q.size())` of `bfsDistances`. -/
def bfsLoop (s : State) :
    Nat → List (Int × Int) → Nat → (Int → Int → Int) → Option (Int → Int → Int)
  | 0, _, _, _ => none
  | fuel + 1, q, head, distMap =>
    match q[head]? with
    | none => some distMap
    | some c =>
      let currentDist := distMap c.1 c.2
      let r := relaxNeighbours s c.1 c.2 currentDist distMap q
      bfsLoop s fuel r.2 (head + 1) r.1

/-- Fuel for the queue loop of `bfsDistances`: every push lowers one of the 49
entries, each of which starts at 999 and stays non-negative. -/
def bfsFuel : Nat := 49 * 999 + 2

/-- Distance map `bfsDistances`; the out-parameter `distMap` is the result. -/
def bfsDistances (s : State) (startX startY : Int) : Option (Int → Int → Int) :=
  let distMap : Int → Int → Int := fun _ _ => 999
  bfsLoop s bfsFuel [(startX, startY)] 0 (setCell distMap startX startY 0)

/-- Territory term `calculateVoronoi`. -/
def calculateVoronoi (s : State) : Option Int := do
  let distAI ← bfsDistances s s.aiX s.aiY
  let distHU ← bfsDistances s s.huX s.huY
  pure (allCells.foldl (fun score c =>
    if s.board c.1 c.2 = BLOCKED then score
    else if distAI c.1 c.2 = 999 ∧ distHU c.1 c.2 = 999 then score
    else if distAI c.1 c.2 < distHU c.1 c.2 then score + 1
    else if distHU c.1 c.2 < distAI c.1 c.2 then score - 1
    else score) 0)

/-- Positional term `calculatePositional`. -/
def calculatePositional (s : State) : Int :=
  let mid := (N - 1) / 2
  let aiDist := |s.aiX - mid| + |s.aiY - mid|
  let huDist := |s.huX - mid| + |s.huY - mid|
  let centerWeight := 3
  let centerScore := centerWeight * (huDist - aiDist)
  let edgePenalty : Int → Int → Int := fun x y =>
    if x = 0 ∨ x = N - 1 ∨ y = 0 ∨ y = N - 1 then 1 else 0
  let aiEdge := edgePenalty s.aiX s.aiY
  let huEdge := edgePenalty s.huX s.huY
  let edgeWeight := 4
  let edgeScore := edgeWeight * (huEdge - aiEdge)
  centerScore + edgeScore

/-- The local `struct Node` of `countLocalSpaceAround`. -/
structure Node where
  x : Int
  y : Int
  dist : Int

/-- The neighbour loop inside `countLocalSpaceAround`. -/
def spreadNeighbours (s : State) (x y dist : Int)
    (visited : Int → Int → Bool) (q : List Node) : (Int → Int → Bool) × List Node :=
  (neighbours x y).foldl (fun acc c =>
    if !inBounds c.1 c.2 then acc
    else if acc.1 c.1 c.2 then acc
    else if s.board c.1 c.2 = BLOCKED then acc
    else (setCell acc.1 c.1 c.2 true, acc.2 ++ [Node.mk c.1 c.2 (dist + 1)])) (visited, q)

/-- The queue loop `for (i = 0; i < q.size(); ++i)` of `countLocalSpaceAround`. -/
def localSpaceLoop (s : State) (sx sy maxDist : Int) :
    Nat → List Node → Nat → (Int → Int → Bool) → Int → Option Int
  | 0, _, _, _, _ => none
  | fuel + 1, q, i, visited, count =>
    match q[i]? with
    | none => some count
    | some n =>
      let count := if ¬ (n.x = sx ∧ n.y = sy) then count + 1 else count
      if n.dist = maxDist then
        localSpaceLoop s sx sy maxDist fuel q (i + 1) visited count
      else
        let r := spreadNeighbours s n.x n.y n.dist visited q
        localSpaceLoop s sx sy maxDist fuel r.2 (i + 1) r.1 count

/-- Fuel for the queue loop of `countLocalSpaceAround`: every cell is enqueued at most once. -/
def localFuel : Nat := 7 * 7 + 1

/-- Bounded flood fill `countLocalSpaceAround`. -/
def countLocalSpaceAround (s : State) (sx sy maxDist : Int) : Option Int :=
  let visited : Int → Int → Bool := fun _ _ => false
  localSpaceLoop s sx sy maxDist localFuel [Node.mk sx sy 0] 0 (setCell visited sx sy true) 0

/-- Local-space term `calculateLocalSpace`. -/
def calculateLocalSpace (s : State) : Option Int := do
  let maxDist := 2
  let aiSpace ← countLocalSpaceAround s s.aiX s.aiY maxDist
  let huSpace ← countLocalSpaceAround s s.huX s.huY maxDist
  pure (aiSpace - huSpace)

/-- Normalising constant `MAX_MOBILITY_DIFF = 8.0`. -/
def MAX_MOBILITY_DIFF : ℚ := 8
/-- Normalising constant `MAX_BARRIER_DIFF = 8.0`. -/
def MAX_BARRIER_DIFF : ℚ := 8
/-- Normalising constant `MAX_VORONOI_DIFF = 49.0`. -/
def MAX_VORONOI_DIFF : ℚ := 49
/-- Normalising constant `MAX_POSITIONAL_ABS = 22.0`. -/
def MAX_POSITIONAL_ABS : ℚ := 22
/-- Normalising constant `MAX_LOCAL_SPACE_DIFF = 24.0`. -/
def MAX_LOCAL_SPACE_DIFF : ℚ := 24

/-- The lambda `clamp` of `eval`: restriction to `[-1, 1]`. -/
def clamp (v : ℚ) : ℚ :=
  if v > 1 then 1 else if v < -1 then -1 else v

/-- Conversion `static_cast<int>`: truncation toward zero. -/
def toInt (v : ℚ) : Int :=
  if 0 ≤ v then ⌊v⌋ else ⌈v⌉

/-- The 5-term evaluator `eval`; the global `turns` it reads is the last argument. -/
def eval (s : State) (depth : Int) (turns : Int) : Option Int :=
  if hasNoMoves s then
    if s.isMaxTurn then some (wrap32 (LOSE_SCORE - depth))
    else some (wrap32 (WIN_SCORE + depth))
  else
    let blockedApprox := 2 * turns - 1
    let a := calculateMobility s
    let b := calculateBarriers s
    let d := calculatePositional s
    let na := clamp ((a : ℚ) / MAX_MOBILITY_DIFF)
    let nb := clamp ((b : ℚ) / MAX_BARRIER_DIFF)
    let nd := clamp ((d : ℚ) / MAX_POSITIONAL_ABS)
    if blockedApprox < 5 then
      some (toInt ((4 * na + 2 * nb + 3 * nd) * 1000))
    else do
      let c ← calculateVoronoi s
      let e ← calculateLocalSpace s
      let nc := clamp ((c : ℚ) / MAX_VORONOI_DIFF)
      let ne := clamp ((e : ℚ) / MAX_LOCAL_SPACE_DIFF)
      pure (toInt ((5 * na + 2 * nb + 7 * nc + 3 * nd + 10 * ne) * 1000))

end M3

/-! ## Search engine

`minimax` and `findBestMove` are the same code in `m2.cpp` and `m3.cpp` up to the
evaluator they call and the constant used as infinity (`1000000000` in `m2.cpp`,
`2000000000` in `m3.cpp`); both are parameters here.  The recursion carries a
fuel argument: every ply adds a barrier, so a line of play has fewer than
`N * N` plies. -/

/-- The `for` loop of the MAX branch of `minimax`; `search` is the recursive
call on a child state with the current window. -/
def maxLoop (search : State → Int → Int → Option Int) (s : State) :
    List Move → Int → Int → Int → Option Int
  | [], best, _, _ => some best
  | m :: ms, best, alpha, beta =>
    match search (applyMove s m) alpha beta with
    | none => none
    | some val =>
      let best := max best val
      let alpha := max alpha val
      if beta ≤ alpha then some best else maxLoop search s ms best alpha beta

/-- The `for` loop of the MIN branch of `minimax`. -/
def minLoop (search : State → Int → Int → Option Int) (s : State) :
    List Move → Int → Int → Int → Option Int
  | [], best, _, _ => some best
  | m :: ms, best, alpha, beta =>
    match search (applyMove s m) alpha beta with
    | none => none
    | some val =>
      let best := min best val
      let beta := min beta val
      if beta ≤ alpha then some best else minLoop search s ms best alpha beta

/-- Depth-limited alpha-beta search `minimax`, for evaluator `evalFn` and
infinity constant `inf`. -/
def minimaxWith (evalFn : State → Int → Option Int) (inf : Int) :
    Nat → State → Int → Int → Int → Option Int
  | 0, _, _, _, _ => none
  | fuel + 1, s, depth, alpha, beta =>
    if depth = 0 ∨ hasNoMoves s then evalFn s depth
    else
      let moves := generateAllMoves s
      if moves.isEmpty then evalFn s depth
      else if s.isMaxTurn then
        maxLoop (fun child a b => minimaxWith evalFn inf fuel child (depth - 1) a b)
          s moves (-inf) alpha beta
      else
        minLoop (fun child a b => minimaxWith evalFn inf fuel child (depth - 1) a b)
          s moves inf alpha beta

/-- The `for` loop of `findBestMove`. -/
def bestLoop (search : State → Int → Int → Option Int) (s : State) :
    List Move → Move → Int → Int → Int → Option Move
  | [], best, _, _, _ => some best
  | m :: ms, best, bestVal, alpha, beta =>
    match search (applyMove s m) alpha beta with
    | none => none
    | some val =>
      bestLoop search s ms (if val > bestVal then m else best)
        (if val > bestVal then val else bestVal) (max alpha val) beta

/-- Root move selection `findBestMove`, for evaluator `evalFn` and infinity
constant `inf`; `Move best{}` is the all-zero move. -/
def findBestMoveWith (evalFn : State → Int → Option Int) (inf : Int) (fuel : Nat)
    (s : State) (depth : Int) : Option Move :=
  bestLoop (fun child a b => minimaxWith evalFn inf fuel child (depth - 1) a b)
    s (generateAllMoves s) (Move.mk 0 0 0 0) (-inf) (-inf) inf

/-- Fuel for the search recursion: at most `N * N - 2` barriers fit on the board. -/
def searchFuel : Nat := 7 * 7

/-- Greatest element of a non-empty list, given as head and tail. -/
def listMax : Int → List Int → Int
  | v, [] => v
  | v, w :: ws => max v (listMax w ws)

/-- Least element of a non-empty list, given as head and tail. -/
def listMin : Int → List Int → Int
  | v, [] => v
  | v, w :: ws => min v (listMin w ws)

/-- Values of all children, in move order; `none` if one of them has none. -/
def childValues (f : Move → Option Int) : List Move → Option (List Int)
  | [] => some []
  | m :: ms =>
    match f m with
    | none => none
    | some v =>
      match childValues f ms with
      | none => none
      | some vs => some (v :: vs)

/-- Plain depth-limited minimax without pruning, the reference for the pruning
claims: the evaluator at depth 0 or at a terminal state, otherwise the maximum
over all children when MAX is active and the minimum when MIN is active. -/
def plainMinimax (evalFn : State → Int → Option Int) : Nat → State → Int → Option Int
  | 0, _, _ => none
  | fuel + 1, s, depth =>
    if depth = 0 ∨ hasNoMoves s then evalFn s depth
    else
      match childValues (fun m => plainMinimax evalFn fuel (applyMove s m) (depth - 1))
          (generateAllMoves s) with
      | none => none
      | some [] => evalFn s depth
      | some (v :: vs) => some (if s.isMaxTurn then listMax v vs else listMin v vs)

namespace M2

/-- Search `minimax` of `m2.cpp`. -/
def minimax (s : State) (depth alpha beta : Int) : Option Int :=
  minimaxWith (fun t _ => eval t) 1000000000 searchFuel s depth alpha beta

/-- Root move selection `findBestMove` of `m2.cpp`. -/
def findBestMove (s : State) (depth : Int) : Option Move :=
  findBestMoveWith (fun t _ => eval t) 1000000000 searchFuel s depth

/-- Unpruned minimax value with the evaluator of `m2.cpp`. -/
def plain (s : State) (depth : Int) : Option Int :=
  plainMinimax (fun t _ => eval t) searchFuel s depth

end M2

namespace M3

/-- Search `minimax` of `m3.cpp`; the global `turns` is the last argument. -/
def minimax (s : State) (depth alpha beta : Int) (turns : Int) : Option Int :=
  minimaxWith (fun t d => eval t d turns) 2000000000 searchFuel s depth alpha beta

/-- Root move selection `findBestMove` of `m3.cpp`; the global `turns` is the last argument. -/
def findBestMove (s : State) (depth : Int) (turns : Int) : Option Move :=
  findBestMoveWith (fun t d => eval t d turns) 2000000000 searchFuel s depth

/-- Unpruned minimax value with the evaluator of `m3.cpp`. -/
def plain (s : State) (depth : Int) (turns : Int) : Option Int :=
  plainMinimax (fun t d => eval t d turns) searchFuel s depth

end M3

/-! ## The trace recorder of `treeV/tree.cpp`

The globals `currentTurnNodes` and `gameLog` are passed in and returned. -/

namespace Tree

/-- Depth budget `const int DEPTH_LIMIT = 3;` -/
def DEPTH_LIMIT : Int := 3

/-- The `struct LogNode`. -/
structure LogNode where
  id : Int
  parentId : Int
  score : Int
  depth : Int
  type : String
  info : String
  deriving DecidableEq, Repr

/-- The `struct LogTurn`. -/
structure LogTurn where
  turnNumber : Int
  nodes : List LogNode
  bestMoveScore : Int
  boardState : Int → Int → Int

/-- The two globals of the recorder: `currentTurnNodes` and `gameLog`. -/
structure Trace where
  currentTurnNodes : List LogNode
  gameLog : List LogTurn

/-- Assignment `currentTurnNodes[i].score = v`. -/
def setScore (nodes : List LogNode) (i : Nat) (v : Int) : List LogNode :=
  nodes.modify (fun n => { n with score := v }) i

/-- Assignment `currentTurnNodes[i].info = t`. -/
def setInfo (nodes : List LogNode) (i : Nat) (t : String) : List LogNode :=
  nodes.modify (fun n => { n with info := t }) i

/-- The `for` loop of the MAX branch of the logging `minimax`. -/
def maxLoop (search : State → Int → Int → List LogNode → Option (Int × List LogNode))
    (s : State) (myId : Nat) :
    List Move → Int → Int → Int → List LogNode → Option (Int × List LogNode)
  | [], best, _, _, nodes => some (best, nodes)
  | m :: ms, best, alpha, beta, nodes =>
    match search (applyMove s m) alpha beta nodes with
    | none => none
    | some (val, nodes) =>
      let best := max best val
      let alpha := max alpha val
      if beta ≤ alpha then some (best, setInfo nodes myId "Pruned (Beta)")
      else maxLoop search s myId ms best alpha beta nodes

/-- The `for` loop of the MIN branch of the logging `minimax`. -/
def minLoop (search : State → Int → Int → List LogNode → Option (Int × List LogNode))
    (s : State) (myId : Nat) :
    List Move → Int → Int → Int → List LogNode → Option (Int × List LogNode)
  | [], best, _, _, nodes => some (best, nodes)
  | m :: ms, best, alpha, beta, nodes =>
    match search (applyMove s m) alpha beta nodes with
    | none => none
    | some (val, nodes) =>
      let best := min best val
      let beta := min beta val
      if beta ≤ alpha then some (best, setInfo nodes myId "Pruned (Alpha)")
      else minLoop search s myId ms best alpha beta nodes

/-- The logging `minimax` of `tree.cpp`; its `eval` is the 3-term evaluator. -/
def minimax : Nat → State → Int → Int → Int → Int → List LogNode →
    Option (Int × List LogNode)
  | 0, _, _, _, _, _, _ => none
  | fuel + 1, s, depth, alpha, beta, parentId, nodes =>
    let myId := nodes.length
    let nodes := nodes ++ [LogNode.mk (myId : Int) parentId 0 (DEPTH_LIMIT - depth)
      (if s.isMaxTurn then "MAX" else "MIN") ""]
    if depth = 0 ∨ hasNoMoves s then
      match M2.eval s with
      | none => none
      | some v => some (v, setInfo (setScore nodes myId v) myId "Leaf")
    else
      let moves := generateAllMoves s
      if moves.isEmpty then
        match M2.eval s with
        | none => none
        | some v => some (v, setScore nodes myId v)
      else if s.isMaxTurn then
        match maxLoop (fun child a b ns => minimax fuel child (depth - 1) a b (myId : Int) ns)
            s myId moves (-1000000000) alpha beta nodes with
        | none => none
        | some (best, nodes) => some (best, setScore nodes myId best)
      else
        match minLoop (fun child a b ns => minimax fuel child (depth - 1) a b (myId : Int) ns)
            s myId moves 1000000000 alpha beta nodes with
        | none => none
        | some (best, nodes) => some (best, setScore nodes myId best)

/-- The `for` loop of the logging `findBestMove`. -/
def bestLoop (search : State → Int → Int → List LogNode → Option (Int × List LogNode))
    (s : State) :
    List Move → Move → Int → Int → Int → List LogNode → Option (Move × Int × List LogNode)
  | [], best, bestVal, _, _, nodes => some (best, bestVal, nodes)
  | m :: ms, best, bestVal, alpha, beta, nodes =>
    match search (applyMove s m) alpha beta nodes with
    | none => none
    | some (val, nodes) =>
      bestLoop search s ms (if val > bestVal then m else best)
        (if val > bestVal then val else bestVal) (max alpha val) beta nodes

/-- The logging `findBestMove` of `tree.cpp`: the chosen move and the updated globals. -/
def findBestMove (s : State) (depth : Int) (tr : Trace) : Option (Move × Trace) :=
  let cleared : List LogNode := []
  let rootId : Int := 0
  let nodes := cleared ++ [LogNode.mk rootId (-1) 0 0 "ROOT" "Start"]
  let moves := generateAllMoves s
  match bestLoop (fun child a b ns => minimax searchFuel child (depth - 1) a b rootId ns)
      s moves (Move.mk 0 0 0 0) (-1000000000) (-1000000000) 1000000000 nodes with
  | none => none
  | some (best, bestVal, nodes) =>
    let nodes := if !nodes.isEmpty then setScore nodes 0 bestVal else nodes
    let turnLog : LogTurn :=
      { turnNumber := (tr.gameLog.length : Int) + 1, nodes := nodes,
        bestMoveScore := bestVal, boardState := s.board }
    some (best, { currentTurnNodes := nodes, gameLog := tr.gameLog ++ [turnLog] })

end Tree

/-! ## Bounds-checked reading of `m3.cpp`

The same code as above with every subscript `a[x][y]` on an `N×N` array routed
through `rd` or `wr`, which fail when the index pair is outside the array.  A
function of this section returns `none` as soon as one of its array accesses is
out of bounds. -/

namespace Checked

/-- Array read `a[x][y]`; fails outside the array. -/
def rd {α : Type} (a : Int → Int → α) (x y : Int) : Option α :=
  if inBounds x y then some (a x y) else none

/-- Array write `a[x][y] = v`; fails outside the array. -/
def wr {α : Type} (a : Int → Int → α) (x y : Int) (v : α) : Option (Int → Int → α) :=
  if inBounds x y then some (setCell a x y v) else none

/-- Bounds-checked `isLegitMove`. -/
def isLegitMove (s : State) (fx fy tx ty : Int) : Option Bool :=
  if !inBounds tx ty then some false
  else
    let dx_ := tx - fx
    let dy_ := ty - fy
    if |dx_| > 1 ∨ |dy_| > 1 then some false
    else if dx_ = 0 ∧ dy_ = 0 then some false
    else do
      let v ← rd s.board tx ty
      if v = BLOCKED then pure false
      else do
        let w ← rd s.board tx ty
        if w = AI_PAWN ∨ w = HU_PAWN then pure false else pure true

/-- Bounds-checked `getLegalStepMoves`; the accumulator is the vector `out`. -/
def getLegalStepMoves (s : State) : Option (List (Int × Int)) :=
  let p := getCurrentPlayerPos s
  (neighbours p.1 p.2).foldlM (fun out t => do
    let ok ← isLegitMove s p.1 p.2 t.1 t.2
    pure (if ok then out ++ [t] else out)) []

/-- Bounds-checked `placeBarrier`. -/
def placeBarrier (s : State) (x y : Int) : Option (Bool × State) :=
  if !inBounds x y then some (false, s)
  else do
    let v ← rd s.board x y
    if v ≠ EMPTY then pure (false, s)
    else do
      let b ← wr s.board x y BLOCKED
      pure (true, { s with board := b })

/-- Bounds-checked `applyStepMove`. -/
def applyStepMove (s : State) (toX toY : Int) : Option State := do
  let p := getCurrentPlayerPos s
  let pawn := if s.isMaxTurn then AI_PAWN else HU_PAWN
  let b1 ← wr s.board p.1 p.2 EMPTY
  let b2 ← wr b1 toX toY pawn
  pure (if s.isMaxTurn then { s with board := b2, aiX := toX, aiY := toY }
    else { s with board := b2, huX := toX, huY := toY })

/-- Bounds-checked `applyMove`. -/
def applyMove (s : State) (m : Move) : Option State := do
  let ns ← applyStepMove s m.moveX m.moveY
  let r ← placeBarrier ns m.removeX m.removeY
  pure { r.2 with isMaxTurn := !s.isMaxTurn }

/-- Bounds-checked `hasNoMoves`. -/
def hasNoMoves (s : State) : Option Bool := do
  let l ← getLegalStepMoves s
  pure l.isEmpty

/-- Bounds-checked `countMovesForPlayer`. -/
def countMovesForPlayer (s : State) (forAI : Bool) : Option Int := do
  let mv ← getLegalStepMoves { s with isMaxTurn := forAI }
  pure (mv.length : Int)

/-- Bounds-checked `calculateMobility`. -/
def calculateMobility (s : State) : Option Int := do
  let aiM ← countMovesForPlayer s true
  let huM ← countMovesForPlayer s false
  pure (aiM - huM)

/-- The counting loop of the bounds-checked `calculateBarriers`; the board is read
only after `inBounds` has succeeded. -/
def blockedAround (s : State) (x y : Int) : Option Int :=
  (neighbours x y).foldlM (fun cnt c =>
    if inBounds c.1 c.2 then do
      let v ← rd s.board c.1 c.2
      pure (if v = BLOCKED then cnt + 1 else cnt)
    else pure cnt) (0 : Int)

/-- Bounds-checked `calculateBarriers`. -/
def calculateBarriers (s : State) : Option Int := do
  let a := getCurrentPlayerPos { s with isMaxTurn := true }
  let blockedAroundAI ← blockedAround s a.1 a.2
  let h := getCurrentPlayerPos { s with isMaxTurn := false }
  let blockedAroundHU ← blockedAround s h.1 h.2
  pure (blockedAroundHU - blockedAroundAI)

/-- Body of the neighbour loop of the bounds-checked `bfsDistances`. -/
def relaxStep (s : State) (currentDist : Int)
    (acc : (Int → Int → Int) × List (Int × Int)) (c : Int × Int) :
    Option ((Int → Int → Int) × List (Int × Int)) :=
  if !inBounds c.1 c.2 then some acc
  else do
    let b ← rd s.board c.1 c.2
    if b = BLOCKED then pure acc
    else do
      let dv ← rd acc.1 c.1 c.2
      if dv > currentDist + 1 then do
        let d2 ← wr acc.1 c.1 c.2 (currentDist + 1)
        pure (d2, acc.2 ++ [c])
      else pure acc

/-- The queue loop of the bounds-checked `bfsDistances`. -/
def bfsLoop (s : State) :
    Nat → List (Int × Int) → Nat → (Int → Int → Int) → Option (Int → Int → Int)
  | 0, _, _, _ => none
  | fuel + 1, q, head, distMap =>
    match q[head]? with
    | none => some distMap
    | some c => do
      let currentDist ← rd distMap c.1 c.2
      let r ← (neighbours c.1 c.2).foldlM (relaxStep s currentDist) (distMap, q)
      bfsLoop s fuel r.2 (head + 1) r.1

/-- Bounds-checked `bfsDistances`: the initialising double loop, the write at the
start cell and the queue loop. -/
def bfsDistances (s : State) (startX startY : Int) : Option (Int → Int → Int) := do
  let distMap ← allCells.foldlM (fun d c => wr d c.1 c.2 (999 : Int)) (fun _ _ => 999)
  let distMap ← wr distMap startX startY 0
  bfsLoop s M3.bfsFuel [(startX, startY)] 0 distMap

/-- Bounds-checked `calculateVoronoi`. -/
def calculateVoronoi (s : State) : Option Int := do
  let distAI ← bfsDistances s s.aiX s.aiY
  let distHU ← bfsDistances s s.huX s.huY
  allCells.foldlM (fun score c => do
    let b ← rd s.board c.1 c.2
    if b = BLOCKED then pure score
    else do
      let a ← rd distAI c.1 c.2
      let h ← rd distHU c.1 c.2
      if a = 999 ∧ h = 999 then pure score
      else if a < h then pure (score + 1)
      else if h < a then pure (score - 1)
      else pure score) (0 : Int)

/-- Body of the neighbour loop of the bounds-checked `countLocalSpaceAround`. -/
def spreadStep (s : State) (dist : Int)
    (acc : (Int → Int → Bool) × List M3.Node) (c : Int × Int) :
    Option ((Int → Int → Bool) × List M3.Node) :=
  if !inBounds c.1 c.2 then some acc
  else do
    let seen ← rd acc.1 c.1 c.2
    if seen then pure acc
    else do
      let b ← rd s.board c.1 c.2
      if b = BLOCKED then pure acc
      else do
        let v2 ← wr acc.1 c.1 c.2 true
        pure (v2, acc.2 ++ [M3.Node.mk c.1 c.2 (dist + 1)])

/-- The queue loop of the bounds-checked `countLocalSpaceAround`. -/
def localSpaceLoop (s : State) (sx sy maxDist : Int) :
    Nat → List M3.Node → Nat → (Int → Int → Bool) → Int → Option Int
  | 0, _, _, _, _ => none
  | fuel + 1, q, i, visited, count =>
    match q[i]? with
    | none => some count
    | some n =>
      let count := if ¬ (n.x = sx ∧ n.y = sy) then count + 1 else count
      if n.dist = maxDist then
        localSpaceLoop s sx sy maxDist fuel q (i + 1) visited count
      else do
        let r ← (neighbours n.x n.y).foldlM (spreadStep s n.dist) (visited, q)
        localSpaceLoop s sx sy maxDist fuel r.2 (i + 1) r.1 count

/-- Bounds-checked `countLocalSpaceAround`. -/
def countLocalSpaceAround (s : State) (sx sy maxDist : Int) : Option Int := do
  let visited : Int → Int → Bool := fun _ _ => false
  let visited ← wr visited sx sy true
  localSpaceLoop s sx sy maxDist M3.localFuel [M3.Node.mk sx sy 0] 0 visited 0

/-- Bounds-checked `calculateLocalSpace`. -/
def calculateLocalSpace (s : State) : Option Int := do
  let maxDist := 2
  let aiSpace ← countLocalSpaceAround s s.aiX s.aiY maxDist
  let huSpace ← countLocalSpaceAround s s.huX s.huY maxDist
  pure (aiSpace - huSpace)

/-- Bounds-checked `eval` of `m3.cpp`. -/
def eval (s : State) (depth : Int) (turns : Int) : Option Int := do
  let stuck ← hasNoMoves s
  if stuck then
    if s.isMaxTurn then pure (wrap32 (M3.LOSE_SCORE - depth))
    else pure (wrap32 (M3.WIN_SCORE + depth))
  else do
    let blockedApprox := 2 * turns - 1
    let a ← calculateMobility s
    let b ← calculateBarriers s
    let d := M3.calculatePositional s
    let na := M3.clamp ((a : ℚ) / M3.MAX_MOBILITY_DIFF)
    let nb := M3.clamp ((b : ℚ) / M3.MAX_BARRIER_DIFF)
    let nd := M3.clamp ((d : ℚ) / M3.MAX_POSITIONAL_ABS)
    if blockedApprox < 5 then
      pure (M3.toInt ((4 * na + 2 * nb + 3 * nd) * 1000))
    else do
      let c ← calculateVoronoi s
      let e ← calculateLocalSpace s
      let nc := M3.clamp ((c : ℚ) / M3.MAX_VORONOI_DIFF)
      let ne := M3.clamp ((e : ℚ) / M3.MAX_LOCAL_SPACE_DIFF)
      pure (M3.toInt ((5 * na + 2 * nb + 7 * nc + 3 * nd + 10 * ne) * 1000))

/-- Bounds-checked `generateAllMoves`; the accumulator is the vector `res`. -/
def generateAllMoves (s : State) : Option (List Move) := do
  let steps ← getLegalStepMoves s
  steps.foldlM (fun res p => do
    let after ← applyStepMove s p.1 p.2
    allCells.foldlM (fun res c => do
      let v ← rd after.board c.1 c.2
      pure (if v = EMPTY then res ++ [Move.mk p.1 p.2 c.1 c.2] else res)) res) []

/-- The `for` loop of the MAX branch of the bounds-checked `minimax`. -/
def maxLoop (search : State → Int → Int → Option Int) (s : State) :
    List Move → Int → Int → Int → Option Int
  | [], best, _, _ => some best
  | m :: ms, best, alpha, beta =>
    match applyMove s m with
    | none => none
    | some child =>
      match search child alpha beta with
      | none => none
      | some val =>
        let best := max best val
        let alpha := max alpha val
        if beta ≤ alpha then some best else maxLoop search s ms best alpha beta

/-- The `for` loop of the MIN branch of the bounds-checked `minimax`. -/
def minLoop (search : State → Int → Int → Option Int) (s : State) :
    List Move → Int → Int → Int → Option Int
  | [], best, _, _ => some best
  | m :: ms, best, alpha, beta =>
    match applyMove s m with
    | none => none
    | some child =>
      match search child alpha beta with
      | none => none
      | some val =>
        let best := min best val
        let beta := min beta val
        if beta ≤ alpha then some best else minLoop search s ms best alpha beta

/-- Bounds-checked `minimax` of `m3.cpp`; `hasNoMoves` is evaluated only when
`depth == 0` is false. -/
def minimax (turns : Int) : Nat → State → Int → Int → Int → Option Int
  | 0, _, _, _, _ => none
  | fuel + 1, s, depth, alpha, beta =>
    match (if depth = 0 then some true else hasNoMoves s) with
    | none => none
    | some stop =>
      if stop then eval s depth turns
      else
        match generateAllMoves s with
        | none => none
        | some moves =>
          if moves.isEmpty then eval s depth turns
          else if s.isMaxTurn then
            maxLoop (fun child a b => minimax turns fuel child (depth - 1) a b)
              s moves (-2000000000) alpha beta
          else
            minLoop (fun child a b => minimax turns fuel child (depth - 1) a b)
              s moves 2000000000 alpha beta

/-- The `for` loop of the bounds-checked `findBestMove`. -/
def bestLoop (search : State → Int → Int → Option Int) (s : State) :
    List Move → Move → Int → Int → Int → Option Move
  | [], best, _, _, _ => some best
  | m :: ms, best, bestVal, alpha, beta =>
    match applyMove s m with
    | none => none
    | some child =>
      match search child alpha beta with
      | none => none
      | some val =>
        bestLoop search s ms (if val > bestVal then m else best)
          (if val > bestVal then val else bestVal) (max alpha val) beta

/-- Bounds-checked `findBestMove` of `m3.cpp`. -/
def findBestMove (s : State) (depth : Int) (turns : Int) : Option Move :=
  match generateAllMoves s with
  | none => none
  | some moves =>
    bestLoop (fun child a b => minimax turns searchFuel child (depth - 1) a b)
      s moves (Move.mk 0 0 0 0) (-2000000000) (-2000000000) 2000000000

end Checked

/-! ## Specification vocabulary for the trace recorder -/

namespace Tree

/-- Player tag written by the logging `minimax`: `s.isMaxTurn ? "MAX" : "MIN"`. -/
def tag (s : State) : String := if s.isMaxTurn then "MAX" else "MIN"

/-- `Recorded k pid d ts vals seg`: the node segment `seg`, whose first node sits at
index `k` of the node list, is the record of consecutive invocations of the
logging `minimax` on the states `ts`, each with remaining depth `d` and caller
node `pid`, returning the values `vals`.  The invocation on `t` contributes its
own node (id `k`, parent `pid`, depth field `DEPTH_LIMIT - d`, the player tag
of `t`, its returned value as score) followed by the records of the invocations
it makes, which have caller node `k`, remaining depth `d - 1` and run on an
initial part of the children of `t` in generation order. -/
inductive Recorded : Nat → Int → Int → List State → List Int → List LogNode → Prop where
  | nil (k : Nat) (pid d : Int) : Recorded k pid d [] [] []
  | leaf (k : Nat) (pid d : Int) (t : State) (ts : List State) (vals : List Int)
      (seg2 : List LogNode) (v : Int) (info : String) :
      M2.eval t = some v →
      info = (if d = 0 ∨ hasNoMoves t then "Leaf" else "") →
      (¬ (d = 0 ∨ hasNoMoves t) → generateAllMoves t = []) →
      Recorded (k + 1) pid d ts vals seg2 →
      Recorded k pid d (t :: ts) (v :: vals)
        (LogNode.mk k pid v (DEPTH_LIMIT - d) (tag t) info :: seg2)
  | inner (k : Nat) (pid d : Int) (t : State) (ts : List State) (vals : List Int)
      (seg2 : List LogNode) (cs : List State) (cvals : List Int) (seg1 : List LogNode)
      (info : String) :
      ¬ (d = 0 ∨ hasNoMoves t) → cs ≠ [] →
      cs <+: (generateAllMoves t).map (applyMove t) →
      Recorded (k + 1) (k : Int) (d - 1) cs cvals seg1 →
      (info = "" ∨ info = (if t.isMaxTurn then "Pruned (Beta)" else "Pruned (Alpha)")) →
      Recorded (k + 1 + seg1.length) pid d ts vals seg2 →
      Recorded k pid d (t :: ts)
        ((if t.isMaxTurn then cvals.foldl max (-1000000000)
          else cvals.foldl min 1000000000) :: vals)
        (LogNode.mk k pid
          (if t.isMaxTurn then cvals.foldl max (-1000000000) else cvals.foldl min 1000000000)
          (DEPTH_LIMIT - d) (tag t) info :: (seg1 ++ seg2))

end Tree

/-! ## Specification vocabulary for the search -/

/-- Fail-soft relation between the unpruned value `v` of a node and the value `r`
returned by the alpha-beta search with window `(alpha, beta)`: a result at or
below `alpha` is an upper bound of `v`, a result at or above `beta` is a lower
bound, and a result strictly inside the window is exact. -/
def FailSoft (alpha beta v r : Int) : Prop :=
  (r ≤ alpha → v ≤ r) ∧ (beta ≤ r → r ≤ v) ∧ (alpha < r → r < beta → r = v)

/-- The evaluator returns a score of magnitude at most `V` on every well-formed
state at every depth from `0` to `D`. -/
def EvalBounded (evalFn : State → Int → Option Int) (V D : Int) : Prop :=
  ∀ (s : State) (d : Int), WellFormed s → 0 ≤ d → d ≤ D →
    ∃ v, evalFn s d = some v ∧ -V ≤ v ∧ v ≤ V

/-- Move `m` is the first element of `ms` whose value under `pv` is the greatest:
everything before it is strictly smaller, nothing after it is greater. -/
def IsFirstMax (pv : Move → Int) (ms : List Move) (m : Move) : Prop :=
  ∃ l1 l2 : List Move, ms = l1 ++ m :: l2 ∧ (∀ x ∈ l1, pv x < pv m) ∧ (∀ x ∈ l2, pv x ≤ pv m)

/-! ## Specification vocabulary for the distance scan -/

/-- Chebyshev distance between two cells. -/
def cheb (a b : Int × Int) : Int := max |a.1 - b.1| |a.2 - b.2|

/-- Invariant of the queue loop of `bfsDistances` started at `(sx, sy)`, where
`pending` is the part of the queue not yet dequeued: the start has distance 0,
entries range over `0..999`, every reached cell other than the start is a
passable in-bounds cell with an in-bounds neighbour at least one step closer,
pending cells are in bounds, and every reached cell that is not pending has
all its passable neighbours within one step. -/
structure BfsInv (s : State) (sx sy : Int) (pending : List (Int × Int))
    (dist : Int → Int → Int) : Prop where
  start : dist sx sy = 0
  range : ∀ i j : Int, 0 ≤ dist i j ∧ dist i j ≤ 999
  pred : ∀ i j : Int, ¬ (i = sx ∧ j = sy) → dist i j ≠ 999 →
    inBounds i j = true ∧ s.board i j ≠ BLOCKED ∧
    ∃ p : Int × Int, (i, j) ∈ neighbours p.1 p.2 ∧ inBounds p.1 p.2 = true ∧
      dist p.1 p.2 + 1 ≤ dist i j
  queued : ∀ c ∈ pending, inBounds c.1 c.2 = true
  relaxed : ∀ i j : Int, inBounds i j = true → dist i j ≠ 999 →
    (i, j) ∈ pending ∨
    ∀ n ∈ neighbours i j, inBounds n.1 n.2 = true → s.board n.1 n.2 ≠ BLOCKED →
      dist n.1 n.2 ≤ dist i j + 1

/-- Point reflection of a cell about the centre of the grid. -/
def mirror (c : Int × Int) : Int × Int := (N - 1 - c.1, N - 1 - c.2)

/-- Contribution of one cell to `calculateVoronoi`: the body of its double loop
as an increment of `score`. -/
def voronoiTerm (s : State) (distAI distHU : Int → Int → Int) (c : Int × Int) : Int :=
  if s.board c.1 c.2 = BLOCKED then 0
  else if distAI c.1 c.2 = 999 ∧ distHU c.1 c.2 = 999 then 0
  else if distAI c.1 c.2 < distHU c.1 c.2 then 1
  else if distHU c.1 c.2 < distAI c.1 c.2 then -1
  else 0

/-! ## Example positions -/

/-- A board that is `BLOCKED` except for row 0, which reads: `left` pawn, `EMPTY`,
`BLOCKED`, `EMPTY`, `right` pawn, `EMPTY`, `BLOCKED`. -/
def corridorBoard (left right : Int) : Int → Int → Int := fun i j =>
  if i = 0 ∧ j = 0 then left
  else if i = 0 ∧ j = 4 then right
  else if i = 0 ∧ (j = 1 ∨ j = 3 ∨ j = 5) then EMPTY
  else BLOCKED

/-- The corridor position with MIN on the left, to move. -/
def corridorMinState : State :=
  { board := corridorBoard HU_PAWN AI_PAWN, aiX := 0, aiY := 4, huX := 0, huY := 0,
    isMaxTurn := false }

/-- The corridor position with MAX on the left, to move. -/
def corridorMaxState : State :=
  { board := corridorBoard AI_PAWN HU_PAWN, aiX := 0, aiY := 0, huX := 0, huY := 4,
    isMaxTurn := true }

/-- A position whose active pawn (MIN, in the corner) has only `BLOCKED` neighbours. -/
def trappedState : State :=
  { board := fun i j =>
      if i = 0 ∧ j = 0 then HU_PAWN else if i = 6 ∧ j = 6 then AI_PAWN else BLOCKED,
    aiX := 6, aiY := 6, huX := 0, huY := 0, isMaxTurn := false }

/-! ## Specification vocabulary for the flood fills -/

/-- There is an 8-directional unit-step path of the given length from the start
`(sx, sy)` to a cell, each step entering an in-bounds cell that is not `BLOCKED`. -/
inductive PathLen (s : State) (sx sy : Int) : Int × Int → Nat → Prop where
  | start : PathLen s sx sy (sx, sy) 0
  | step {p n : Int × Int} {k : Nat} : PathLen s sx sy p k → n ∈ neighbours p.1 p.2 →
      inBounds n.1 n.2 = true → s.board n.1 n.2 ≠ BLOCKED → PathLen s sx sy n (k + 1)

/-- Offsets `-2..2` along one axis. -/
def offsets2 : List Int := [-2, -1, 0, 1, 2]

/-- The 5×5 window of index pairs centred on `(x, y)`. -/
def window (x y : Int) : List (Int × Int) :=
  offsets2.flatMap (fun a => offsets2.map (fun b => (x + a, y + b)))

/-- Invariant of the queue loop of `countLocalSpaceAround` started at `(sx, sy)`:
no cell is queued twice, every queued cell is marked visited, and the recorded
distance of a queued cell is at most `maxDist` and at least its Chebyshev
distance from the start. -/
structure LocalInv (sx sy maxDist : Int) (q : List M3.Node) (visited : Int → Int → Bool) :
    Prop where
  nodup : (q.map (fun n => (n.x, n.y))).Nodup
  seen : ∀ n ∈ q, visited n.x n.y = true
  near : ∀ n ∈ q, n.dist ≤ maxDist ∧ cheb (sx, sy) (n.x, n.y) ≤ n.dist

/-- A well-formed position with MAX on the centre and MIN on a corner. -/
def centreCornerState : State :=
  { board := fun i j =>
      if i = 3 ∧ j = 3 then AI_PAWN else if i = 0 ∧ j = 0 then HU_PAWN else EMPTY,
    aiX := 3, aiY := 3, huX := 0, huY := 0, isMaxTurn := true }

/-! ## Termination measures for the breadth-first scans -/

/-- Number of board cells not yet marked in a `visited` array. -/
def unvisited (visited : Int → Int → Bool) : Nat :=
  allCells.countP (fun c => decide (visited c.1 c.2 = false))

/-- Sum of the entries of a distance map over the board. -/
def distSum (distMap : Int → Int → Int) : Nat :=
  (allCells.map (fun c => (distMap c.1 c.2).toNat)).sum

/-! ## Specification vocabulary for the recorded values -/

/-- Recorded children of the node with id `p`: the nodes whose `parentId` is `p`,
in recording order. -/
def Tree.childrenOf (nodes : List Tree.LogNode) (p : Int) : List Tree.LogNode :=
  nodes.filter (fun n => decide (n.parentId = p))

/-- Consistency of the recorded node `n` with the tree, where `st` gives the state
each node id was created for: the state is well formed and carries the node's
player tag; the states of the recorded children are an initial part of the
successors of the node's state, in generation order; a node annotated `Leaf` has
no recorded child and the evaluation of its state as score; any other `MAX` node
has the maximum of its recorded children's scores as score, any other `MIN` node
their minimum. -/
def Tree.NodeOk (nodes : List Tree.LogNode) (st : Int → State) (n : Tree.LogNode) : Prop :=
  WellFormed (st n.id) ∧ n.type = Tree.tag (st n.id) ∧
  (Tree.childrenOf nodes n.id).map (fun c => st c.id) <+:
    (generateAllMoves (st n.id)).map (applyMove (st n.id)) ∧
  (n.info = "Leaf" → Tree.childrenOf nodes n.id = [] ∧ M2.eval (st n.id) = some n.score) ∧
  (n.info ≠ "Leaf" → n.type = "MAX" →
    ∃ c cs, (Tree.childrenOf nodes n.id).map (fun c => c.score) = c :: cs ∧
      n.score = listMax c cs) ∧
  (n.info ≠ "Leaf" → n.type = "MIN" →
    ∃ c cs, (Tree.childrenOf nodes n.id).map (fun c => c.score) = c :: cs ∧
      n.score = listMin c cs)

/-! ## Specification vocabulary for the exchange of the players -/

/-- Exchange of the two pawn values in a cell; other cell values are kept. -/
def swapCell (v : Int) : Int :=
  if v = AI_PAWN then HU_PAWN else if v = HU_PAWN then AI_PAWN else v

/-- The state with the players exchanged: the `AI_PAWN` and `HU_PAWN` cells and the
stored coordinates are exchanged and `isMaxTurn` is negated. -/
def swapPlayers (s : State) : State :=
  { board := fun i j => swapCell (s.board i j),
    aiX := s.huX, aiY := s.huY, huX := s.aiX, huY := s.aiY,
    isMaxTurn := !s.isMaxTurn }

/-! ## Specification vocabulary for the reachable area -/

/-- The cells the flood fill of `countReachable` is to count, for the start
`(sx, sy)` and the other pawn on `(ox, oy)`: the start itself and every cell
reachable from it by 8-directional steps that enter only in-bounds cells which
are neither `BLOCKED` nor the other pawn's cell. -/
inductive AreaReach (s : State) (sx sy ox oy : Int) : Int × Int → Prop where
  | start : AreaReach s sx sy ox oy (sx, sy)
  | step {p n : Int × Int} : AreaReach s sx sy ox oy p → n ∈ neighbours p.1 p.2 →
      inBounds n.1 n.2 = true → s.board n.1 n.2 ≠ BLOCKED → ¬ (n.1 = ox ∧ n.2 = oy) →
      AreaReach s sx sy ox oy n

/-- Invariant of the queue loop of `countReachable`: the queue has no repetition,
holds the start, holds exactly the cells marked visited, and holds only cells
the flood fill is to count. -/
structure AreaInv (s : State) (sx sy ox oy : Int) (q : List (Int × Int))
    (visited : Int → Int → Bool) : Prop where
  nodup : q.Nodup
  hasStart : (sx, sy) ∈ q
  seen : ∀ c : Int × Int, visited c.1 c.2 = true ↔ c ∈ q
  reach : ∀ c ∈ q, AreaReach s sx sy ox oy c

/-! ## Basic facts -/

theorem mem_indices (i : Int) : i ∈ indices ↔ 0 ≤ i ∧ i < 7 := by
  simp only [indices, List.mem_cons, List.mem_singleton, List.not_mem_nil, or_false]
  omega

theorem mem_allCells (i j : Int) : (i, j) ∈ allCells ↔ inBounds i j = true := by
  simp only [allCells, List.mem_flatMap, List.mem_map, inBounds, N,
    Bool.and_eq_true, decide_eq_true_eq, Prod.mk.injEq, mem_indices]
  constructor
  · rintro ⟨a, ha, b, hb, h1, h2⟩
    omega
  · rintro ⟨⟨⟨h1, h2⟩, h3⟩, h4⟩
    exact ⟨i, ⟨h1, h2⟩, j, ⟨h3, h4⟩, rfl, rfl⟩

theorem nodup_allCells : allCells.Nodup := by decide

theorem inBounds_iff (x y : Int) : inBounds x y = true ↔ 0 ≤ x ∧ x < 7 ∧ 0 ≤ y ∧ y < 7 := by
  simp only [inBounds, N, Bool.and_eq_true, decide_eq_true_eq]
  omega

theorem mem_neighbours (px py x y : Int) :
    (x, y) ∈ neighbours px py ↔ max |x - px| |y - py| ≤ 1 ∧ (x, y) ≠ (px, py) := by
  simp only [neighbours, dx, dy, List.zip_cons_cons, List.zip_nil_right, List.map_cons,
    List.map_nil, List.mem_cons, List.not_mem_nil, or_false, Prod.mk.injEq, max_le_iff,
    abs_le, ne_eq, not_and]
  omega

theorem isLegitMove_iff (s : State) (fx fy tx ty : Int) :
    isLegitMove s fx fy tx ty = true ↔
      inBounds tx ty = true ∧ max |tx - fx| |ty - fy| ≤ 1 ∧ (tx, ty) ≠ (fx, fy) ∧
      s.board tx ty ≠ BLOCKED ∧ s.board tx ty ≠ AI_PAWN ∧ s.board tx ty ≠ HU_PAWN := by
  unfold isLegitMove
  cases hb : inBounds tx ty
  · simp
  · simp only [Bool.not_true, Bool.false_eq_true, if_false, true_and, max_le_iff, abs_le,
      ne_eq, Prod.mk.injEq, gt_iff_lt, lt_abs]
    by_cases h1 : s.board tx ty = BLOCKED
    · simp [h1]
    · by_cases h2 : s.board tx ty = AI_PAWN
      · simp [h2]
      · by_cases h3 : s.board tx ty = HU_PAWN
        · simp [h3]
        · simp only [h1, h2, h3, or_self, if_false, not_false_eq_true, and_true]
          split_ifs <;> simp <;> omega

theorem mem_getLegalStepMoves (s : State) (x y : Int) :
    (x, y) ∈ getLegalStepMoves s ↔
      inBounds x y = true ∧
      max |x - (getCurrentPlayerPos s).1| |y - (getCurrentPlayerPos s).2| ≤ 1 ∧
      (x, y) ≠ getCurrentPlayerPos s ∧
      s.board x y ≠ BLOCKED ∧ s.board x y ≠ AI_PAWN ∧ s.board x y ≠ HU_PAWN := by
  unfold getLegalStepMoves
  simp only [List.mem_filter, mem_neighbours, isLegitMove_iff]
  tauto

theorem nodup_neighbours (x y : Int) : (neighbours x y).Nodup := by
  unfold neighbours
  refine List.Nodup.map ?_ (by decide)
  intro a b h
  simp only [Prod.mk.injEq] at h
  ext <;> omega

theorem nodup_getLegalStepMoves (s : State) : (getLegalStepMoves s).Nodup := by
  unfold getLegalStepMoves
  exact (nodup_neighbours _ _).filter _

theorem length_getLegalStepMoves_le (s : State) : (getLegalStepMoves s).length ≤ 8 := by
  unfold getLegalStepMoves
  refine le_trans (List.length_filter_le _ _) ?_
  simp [neighbours, dx, dy]

theorem setCell_apply {α : Type} (a : Int → Int → α) (x y : Int) (v : α) (i j : Int) :
    setCell a x y v i j = if i = x ∧ j = y then v else a i j := rfl

theorem applyStepMove_board (s : State) (x y : Int) :
    (applyStepMove s x y).board =
      setCell (setCell s.board (getCurrentPlayerPos s).1 (getCurrentPlayerPos s).2 EMPTY) x y
        (if s.isMaxTurn then AI_PAWN else HU_PAWN) := by
  unfold applyStepMove
  split <;> rfl

theorem applyStepMove_isMaxTurn (s : State) (x y : Int) :
    (applyStepMove s x y).isMaxTurn = s.isMaxTurn := by
  unfold applyStepMove
  split <;> rfl

theorem applyStepMove_pos (s : State) (x y : Int) :
    getCurrentPlayerPos (applyStepMove s x y) = (x, y) := by
  unfold applyStepMove getCurrentPlayerPos
  cases h : s.isMaxTurn <;> simp

theorem WellFormed.ai_iff {s : State} (h : WellFormed s) {i j : Int}
    (hb : inBounds i j = true) : s.board i j = AI_PAWN ↔ (i = s.aiX ∧ j = s.aiY) := by
  have := h.2.2.1 (i, j) ((mem_allCells i j).2 hb)
  simpa using this

theorem WellFormed.hu_iff {s : State} (h : WellFormed s) {i j : Int}
    (hb : inBounds i j = true) : s.board i j = HU_PAWN ↔ (i = s.huX ∧ j = s.huY) := by
  have := h.2.2.2 (i, j) ((mem_allCells i j).2 hb)
  simpa using this

theorem WellFormed.board_ai {s : State} (h : WellFormed s) :
    s.board s.aiX s.aiY = AI_PAWN := (h.ai_iff h.1).2 ⟨rfl, rfl⟩

theorem WellFormed.board_hu {s : State} (h : WellFormed s) :
    s.board s.huX s.huY = HU_PAWN := (h.hu_iff h.2.1).2 ⟨rfl, rfl⟩

theorem WellFormed.cur_inBounds {s : State} (h : WellFormed s) :
    inBounds (getCurrentPlayerPos s).1 (getCurrentPlayerPos s).2 = true := by
  unfold getCurrentPlayerPos
  cases s.isMaxTurn
  · simpa using h.2.1
  · simpa using h.1

theorem WellFormed.board_cur {s : State} (h : WellFormed s) :
    s.board (getCurrentPlayerPos s).1 (getCurrentPlayerPos s).2 =
      (if s.isMaxTurn then AI_PAWN else HU_PAWN) := by
  unfold getCurrentPlayerPos
  cases s.isMaxTurn
  · simpa using h.board_hu
  · simpa using h.board_ai

theorem mem_generateAllMoves (s : State) (m : Move) :
    m ∈ generateAllMoves s ↔
      ((m.moveX, m.moveY) ∈ getLegalStepMoves s ∧ inBounds m.removeX m.removeY = true ∧
        (applyStepMove s m.moveX m.moveY).board m.removeX m.removeY = EMPTY) := by
  unfold generateAllMoves
  simp only [List.mem_flatMap, List.mem_map, List.mem_filter, decide_eq_true_eq]
  constructor
  · rintro ⟨p, hp, c, ⟨hc, he⟩, rfl⟩
    exact ⟨hp, (mem_allCells _ _).1 hc, he⟩
  · rintro ⟨hp, hb, he⟩
    exact ⟨(m.moveX, m.moveY), hp, (m.removeX, m.removeY), ⟨(mem_allCells _ _).2 hb, he⟩, rfl⟩

theorem vacated_empty_after_step (s : State) (x y : Int)
    (hne : (x, y) ≠ getCurrentPlayerPos s) :
    (applyStepMove s x y).board (getCurrentPlayerPos s).1 (getCurrentPlayerPos s).2 = EMPTY := by
  rw [applyStepMove_board, setCell_apply, setCell_apply]
  have : ¬ ((getCurrentPlayerPos s).1 = x ∧ (getCurrentPlayerPos s).2 = y) := by
    rintro ⟨h1, h2⟩
    exact hne (by rw [← h1, ← h2])
  simp [this]

theorem countP_setCell_of_not_mem {α : Type} [DecidableEq α] (a : Int → Int → α) (x y : Int)
    (w v : α) (l : List (Int × Int)) (h : (x, y) ∉ l) :
    l.countP (fun c => decide (setCell a x y w c.1 c.2 = v))
      = l.countP (fun c => decide (a c.1 c.2 = v)) := by
  apply List.countP_congr
  intro c hc
  have hne : ¬ (c.1 = x ∧ c.2 = y) := by
    rintro ⟨h1, h2⟩
    exact h (by rw [← h1, ← h2]; exact hc)
  simp [setCell_apply, hne]

theorem countP_setCell_of_mem {α : Type} [DecidableEq α] (a : Int → Int → α) (x y : Int)
    (w v : α) (l : List (Int × Int)) (hn : l.Nodup) (h : (x, y) ∈ l) :
    l.countP (fun c => decide (setCell a x y w c.1 c.2 = v)) + (if a x y = v then 1 else 0)
      = l.countP (fun c => decide (a c.1 c.2 = v)) + (if w = v then 1 else 0) := by
  induction l with
  | nil => simp at h
  | cons c t ih =>
    rw [List.nodup_cons] at hn
    by_cases hc : c = (x, y)
    · subst hc
      rw [List.countP_cons, List.countP_cons, countP_setCell_of_not_mem a x y w v t hn.1]
      simp only [setCell_apply, and_self, if_true, decide_eq_true_eq]
      omega
    · have ht : (x, y) ∈ t := by
        rcases List.mem_cons.1 h with h1 | h1
        · exact absurd h1.symm hc
        · exact h1
      have hne : ¬ (c.1 = x ∧ c.2 = y) := by
        rintro ⟨h1, h2⟩
        exact hc (by rw [← h1, ← h2])
      have := ih hn.2 ht
      have hd : decide (setCell a x y w c.1 c.2 = v) = decide (a c.1 c.2 = v) := by
        simp [setCell_apply, hne]
      rw [List.countP_cons, List.countP_cons, hd]
      omega

theorem countCells_setCell (b : Int → Int → Int) (x y w v : Int) (h : inBounds x y = true) :
    countCells (setCell b x y w) v + (if b x y = v then 1 else 0)
      = countCells b v + (if w = v then 1 else 0) :=
  countP_setCell_of_mem b x y w v allCells nodup_allCells ((mem_allCells x y).2 h)

theorem placeBarrier_of_empty (s : State) (x y : Int) (hb : inBounds x y = true)
    (he : s.board x y = EMPTY) :
    placeBarrier s x y = (true, { s with board := setCell s.board x y BLOCKED }) := by
  simp [placeBarrier, hb, he]

theorem applyMove_board_of_mem (s : State) (m : Move) (hm : m ∈ generateAllMoves s) :
    (applyMove s m).board =
      setCell (setCell (setCell s.board (getCurrentPlayerPos s).1 (getCurrentPlayerPos s).2 EMPTY)
        m.moveX m.moveY (if s.isMaxTurn then AI_PAWN else HU_PAWN))
        m.removeX m.removeY BLOCKED := by
  obtain ⟨_, hb, he⟩ := (mem_generateAllMoves s m).1 hm
  unfold applyMove
  simp only [placeBarrier_of_empty _ _ _ hb he]
  rw [applyStepMove_board]

theorem applyMove_isMaxTurn (s : State) (m : Move) :
    (applyMove s m).isMaxTurn = !s.isMaxTurn := rfl

theorem placeBarrier_coords (s : State) (x y : Int) :
    (placeBarrier s x y).2.aiX = s.aiX ∧ (placeBarrier s x y).2.aiY = s.aiY ∧
    (placeBarrier s x y).2.huX = s.huX ∧ (placeBarrier s x y).2.huY = s.huY := by
  unfold placeBarrier
  split_ifs <;> simp

theorem applyMove_coords (s : State) (m : Move) :
    ((applyMove s m).aiX, (applyMove s m).aiY, (applyMove s m).huX, (applyMove s m).huY) =
      (if s.isMaxTurn then (m.moveX, m.moveY, s.huX, s.huY)
        else (s.aiX, s.aiY, m.moveX, m.moveY)) := by
  have h := placeBarrier_coords (applyStepMove s m.moveX m.moveY) m.removeX m.removeY
  unfold applyMove
  simp only [h.1, h.2.1, h.2.2.1, h.2.2.2]
  unfold applyStepMove
  cases s.isMaxTurn <;> simp

theorem pairwise_rowMajor_allCells :
    allCells.Pairwise (fun c d => rowMajor c.1 c.2 < rowMajor d.1 d.2) := by decide

theorem pairwise_indexOf_lt {α : Type} [BEq α] [LawfulBEq α] (l : List α) (h : l.Nodup) :
    l.Pairwise (fun a b => l.indexOf a < l.indexOf b) := by
  induction l with
  | nil => exact List.Pairwise.nil
  | cons x t ih =>
    rw [List.nodup_cons] at h
    rw [List.pairwise_cons]
    constructor
    · intro b hb
      have hxb : (x == b) = false := by
        rw [beq_eq_false_iff_ne]
        rintro rfl
        exact h.1 hb
      simp [List.indexOf_cons, hxb]
    · refine List.Pairwise.imp_of_mem ?_ (ih h.2)
      intro a b ha hb hab
      have hxa : (x == a) = false := by
        rw [beq_eq_false_iff_ne]
        rintro rfl
        exact h.1 ha
      have hxb : (x == b) = false := by
        rw [beq_eq_false_iff_ne]
        rintro rfl
        exact h.1 hb
      simp only [List.indexOf_cons, hxa, hxb, cond_false]
      omega

theorem length_flatMap_const {α β : Type} (l : List α) (f : α → List β) (k : Nat)
    (h : ∀ a ∈ l, (f a).length = k) : (l.flatMap f).length = l.length * k := by
  induction l with
  | nil => simp
  | cons a t ih =>
    rw [List.flatMap_cons, List.length_append, h a (List.mem_cons_self a t),
      ih (fun b hb => h b (List.mem_cons_of_mem a hb)), List.length_cons]
    ring

/-! ## Legal steps -/

/-- C1: on a state whose pawn coordinates are in bounds, `getLegalStepMoves`
lists exactly the in-bounds cells other than the active pawn's cell that lie
within Chebyshev distance 1 of the active pawn and hold neither a barrier nor a
pawn; the list has no duplicates and at most 8 entries. -/
theorem getLegalStepMoves_spec (s : State)
    (_hai : inBounds s.aiX s.aiY = true) (_hhu : inBounds s.huX s.huY = true) :
    (∀ x y : Int, (x, y) ∈ getLegalStepMoves s ↔
      (inBounds x y = true ∧ (x, y) ≠ getCurrentPlayerPos s ∧
        max |x - (getCurrentPlayerPos s).1| |y - (getCurrentPlayerPos s).2| ≤ 1 ∧
        s.board x y ≠ BLOCKED ∧ s.board x y ≠ AI_PAWN ∧ s.board x y ≠ HU_PAWN)) ∧
    (getLegalStepMoves s).Nodup ∧ (getLegalStepMoves s).length ≤ 8 := by
  refine ⟨fun x y => ?_, nodup_getLegalStepMoves s, length_getLegalStepMoves_le s⟩
  rw [mem_getLegalStepMoves]
  tauto

theorem getLegalStepMoves_spec_witness :
    inBounds initialState.aiX initialState.aiY = true ∧
    inBounds initialState.huX initialState.huY = true ∧
    (getLegalStepMoves initialState).Nodup ∧ (getLegalStepMoves initialState).length ≤ 8 :=
  ⟨by decide, by decide, (getLegalStepMoves_spec initialState (by decide) (by decide)).2⟩

/-! ## Move generation -/

/-- C2: on a well-formed state a move is generated exactly when its step is a
legal step and its barrier target is a cell that is `EMPTY` on the board after
that step alone; the cell just vacated by the mover is always such a target;
no move is generated twice; and the moves are listed by step in
`getLegalStepMoves` order, then by barrier cell in row-major order. -/
theorem generateAllMoves_spec (s : State) (h : WellFormed s) :
    (∀ m : Move, m ∈ generateAllMoves s ↔
      ((m.moveX, m.moveY) ∈ getLegalStepMoves s ∧ inBounds m.removeX m.removeY = true ∧
        (applyStepMove s m.moveX m.moveY).board m.removeX m.removeY = EMPTY)) ∧
    (∀ p ∈ getLegalStepMoves s,
      Move.mk p.1 p.2 (getCurrentPlayerPos s).1 (getCurrentPlayerPos s).2
        ∈ generateAllMoves s) ∧
    (generateAllMoves s).Nodup ∧
    (generateAllMoves s).Pairwise (fun m1 m2 =>
      (getLegalStepMoves s).indexOf (m1.moveX, m1.moveY)
          < (getLegalStepMoves s).indexOf (m2.moveX, m2.moveY) ∨
        ((m1.moveX, m1.moveY) = (m2.moveX, m2.moveY) ∧
          rowMajor m1.removeX m1.removeY < rowMajor m2.removeX m2.removeY)) := by
  have hpw : (generateAllMoves s).Pairwise (fun m1 m2 =>
      (getLegalStepMoves s).indexOf (m1.moveX, m1.moveY)
          < (getLegalStepMoves s).indexOf (m2.moveX, m2.moveY) ∨
        ((m1.moveX, m1.moveY) = (m2.moveX, m2.moveY) ∧
          rowMajor m1.removeX m1.removeY < rowMajor m2.removeX m2.removeY)) := by
    unfold generateAllMoves
    rw [List.pairwise_flatMap]
    constructor
    · intro p _
      rw [List.pairwise_map]
      refine List.Pairwise.imp ?_ (pairwise_rowMajor_allCells.filter _)
      intro c d hcd
      exact Or.inr ⟨rfl, hcd⟩
    · refine List.Pairwise.imp ?_ (pairwise_indexOf_lt _ (nodup_getLegalStepMoves s))
      intro p q hpq m1 hm1 m2 hm2
      simp only [List.mem_map] at hm1 hm2
      obtain ⟨c, _, rfl⟩ := hm1
      obtain ⟨d, _, rfl⟩ := hm2
      exact Or.inl hpq
  refine ⟨mem_generateAllMoves s, ?_, ?_, hpw⟩
  · intro p hp
    rw [mem_generateAllMoves]
    refine ⟨hp, h.cur_inBounds, ?_⟩
    have hne : (p.1, p.2) ≠ getCurrentPlayerPos s :=
      ((mem_getLegalStepMoves s p.1 p.2).1 hp).2.2.1
    exact vacated_empty_after_step s p.1 p.2 hne
  · refine List.Pairwise.imp ?_ hpw
    intro m1 m2 h12 heq
    subst heq
    rcases h12 with h | ⟨_, h⟩
    · exact lt_irrefl _ h
    · exact lt_irrefl _ h

theorem generateAllMoves_spec_witness :
    WellFormed initialState ∧ (generateAllMoves initialState).Nodup :=
  ⟨by decide, (generateAllMoves_spec initialState (by decide)).2.2.1⟩

theorem gen_facts {s : State} (h : WellFormed s) {m : Move} (hm : m ∈ generateAllMoves s) :
    inBounds (getCurrentPlayerPos s).1 (getCurrentPlayerPos s).2 = true ∧
    inBounds m.moveX m.moveY = true ∧ inBounds m.removeX m.removeY = true ∧
    ¬ (m.moveX = (getCurrentPlayerPos s).1 ∧ m.moveY = (getCurrentPlayerPos s).2) ∧
    ¬ (m.removeX = m.moveX ∧ m.removeY = m.moveY) ∧
    s.board m.moveX m.moveY ≠ BLOCKED ∧ s.board m.moveX m.moveY ≠ AI_PAWN ∧
    s.board m.moveX m.moveY ≠ HU_PAWN ∧
    ((m.removeX = (getCurrentPlayerPos s).1 ∧ m.removeY = (getCurrentPlayerPos s).2) ∨
      s.board m.removeX m.removeY = EMPTY) := by
  obtain ⟨hstep, hb, he⟩ := (mem_generateAllMoves s m).1 hm
  obtain ⟨hmb, _, hne, h1, h2, h3⟩ := (mem_getLegalStepMoves s _ _).1 hstep
  rw [applyStepMove_board, setCell_apply, setCell_apply] at he
  refine ⟨h.cur_inBounds, hmb, hb, ?_, ?_, h1, h2, h3, ?_⟩
  · rintro ⟨e1, e2⟩
    exact hne (by rw [e1, e2])
  · intro hc
    rw [if_pos hc] at he
    cases hs : s.isMaxTurn <;> simp [hs, AI_PAWN, HU_PAWN, EMPTY] at he
  · by_cases hc : m.removeX = m.moveX ∧ m.removeY = m.moveY
    · rw [if_pos hc] at he
      cases hs : s.isMaxTurn <;> simp [hs, AI_PAWN, HU_PAWN, EMPTY] at he
    · rw [if_neg hc] at he
      by_cases hp : m.removeX = (getCurrentPlayerPos s).1 ∧ m.removeY = (getCurrentPlayerPos s).2
      · exact Or.inl hp
      · rw [if_neg hp] at he
        exact Or.inr he

theorem wellFormed_applyMove {s : State} (h : WellFormed s) {m : Move}
    (hm : m ∈ generateAllMoves s) : WellFormed (applyMove s m) := by
  obtain ⟨hpb, hmb, hbb, hmp, hbm, hm1, hm2, hm3, hbe⟩ := gen_facts h hm
  have hco := applyMove_coords s m
  have hbd := applyMove_board_of_mem s m hm
  have hai := h.board_ai
  have hhu := h.board_hu
  cases hs : s.isMaxTurn
  · -- MIN moves
    simp only [hs, Bool.false_eq_true, if_false, Prod.mk.injEq] at hco
    obtain ⟨e1, e2, e3, e4⟩ := hco
    simp only [getCurrentPlayerPos, hs, Bool.false_eq_true, if_false] at hmp hbe hbd
    refine ⟨by rw [e1, e2]; exact h.1, by rw [e3, e4]; exact hmb, ?_, ?_⟩
    · rintro ⟨i, j⟩ hc
      have hib := (mem_allCells i j).1 hc
      have hiff := h.ai_iff hib
      have hiff2 := h.hu_iff hib
      simp only [hbd, setCell_apply, e1, e2, Prod.mk.injEq]
      by_cases c1 : i = m.removeX ∧ j = m.removeY
      · simp only [c1, and_self, if_true]
        obtain ⟨rfl, rfl⟩ := c1
        constructor
        · intro hh; simp [BLOCKED, AI_PAWN] at hh
        · rintro ⟨r1, r2⟩
          rcases hbe with ⟨b1, b2⟩ | b
          · rw [b1, b2, hhu] at hiff
            simp [r1, r2, HU_PAWN, AI_PAWN] at hiff
            exact absurd (b2.symm.trans r2) (hiff (b1.symm.trans r1))
          · rw [b] at hiff
            simp [r1, r2, EMPTY, AI_PAWN] at hiff
      · simp only [c1, if_false]
        by_cases c2 : i = m.moveX ∧ j = m.moveY
        · simp only [c2, and_self, if_true]
          obtain ⟨rfl, rfl⟩ := c2
          constructor
          · intro hh; simp [HU_PAWN, AI_PAWN] at hh
          · intro r
            exact absurd (hiff.2 r) hm2
        · simp only [c2, if_false]
          by_cases c3 : i = s.huX ∧ j = s.huY
          · simp only [c3, and_self, if_true]
            obtain ⟨rfl, rfl⟩ := c3
            constructor
            · intro hh; simp [EMPTY, AI_PAWN] at hh
            · intro r
              rw [hiff.2 r] at hhu
              simp [HU_PAWN, AI_PAWN] at hhu
          · simp only [c3, if_false]
            exact hiff
    · rintro ⟨i, j⟩ hc
      have hib := (mem_allCells i j).1 hc
      have hiff2 := h.hu_iff hib
      simp only [hbd, setCell_apply, e3, e4, Prod.mk.injEq]
      by_cases c1 : i = m.removeX ∧ j = m.removeY
      · simp only [c1, and_self, if_true]
        obtain ⟨rfl, rfl⟩ := c1
        constructor
        · intro hh; simp [BLOCKED, HU_PAWN] at hh
        · intro r
          exact absurd r hbm
      · simp only [c1, if_false]
        by_cases c2 : i = m.moveX ∧ j = m.moveY
        · simp only [c2, and_self, if_true]
        · simp only [c2, if_false, iff_false]
          by_cases c3 : i = s.huX ∧ j = s.huY
          · simp only [c3, and_self, if_true]
            simp [EMPTY, HU_PAWN]
          · simp only [c3, if_false]
            exact fun hh => c3 (hiff2.1 hh)
  · -- MAX moves
    simp only [hs, if_true, Prod.mk.injEq] at hco
    obtain ⟨e1, e2, e3, e4⟩ := hco
    simp only [getCurrentPlayerPos, hs, if_true] at hmp hbe hbd
    refine ⟨by rw [e1, e2]; exact hmb, by rw [e3, e4]; exact h.2.1, ?_, ?_⟩
    · rintro ⟨i, j⟩ hc
      have hib := (mem_allCells i j).1 hc
      have hiff := h.ai_iff hib
      simp only [hbd, setCell_apply, e1, e2, Prod.mk.injEq]
      by_cases c1 : i = m.removeX ∧ j = m.removeY
      · simp only [c1, and_self, if_true]
        obtain ⟨rfl, rfl⟩ := c1
        constructor
        · intro hh; simp [BLOCKED, AI_PAWN] at hh
        · intro r
          exact absurd r hbm
      · simp only [c1, if_false]
        by_cases c2 : i = m.moveX ∧ j = m.moveY
        · simp only [c2, and_self, if_true]
        · simp only [c2, if_false, iff_false]
          by_cases c3 : i = s.aiX ∧ j = s.aiY
          · simp only [c3, and_self, if_true]
            simp [EMPTY, AI_PAWN]
          · simp only [c3, if_false]
            exact fun hh => c3 (hiff.1 hh)
    · rintro ⟨i, j⟩ hc
      have hib := (mem_allCells i j).1 hc
      have hiff := h.hu_iff hib
      simp only [hbd, setCell_apply, e3, e4, Prod.mk.injEq]
      by_cases c1 : i = m.removeX ∧ j = m.removeY
      · simp only [c1, and_self, if_true]
        obtain ⟨rfl, rfl⟩ := c1
        constructor
        · intro hh; simp [BLOCKED, HU_PAWN] at hh
        · rintro ⟨r1, r2⟩
          rcases hbe with ⟨b1, b2⟩ | b
          · rw [b1, b2, hai] at hiff
            simp [r1, r2, HU_PAWN, AI_PAWN] at hiff
            exact absurd (b2.symm.trans r2) (hiff (b1.symm.trans r1))
          · rw [b] at hiff
            simp [r1, r2, EMPTY, HU_PAWN] at hiff
      · simp only [c1, if_false]
        by_cases c2 : i = m.moveX ∧ j = m.moveY
        · simp only [c2, and_self, if_true]
          obtain ⟨rfl, rfl⟩ := c2
          constructor
          · intro hh; simp [HU_PAWN, AI_PAWN] at hh
          · intro r
            exact absurd (hiff.2 r) hm3
        · simp only [c2, if_false]
          by_cases c3 : i = s.aiX ∧ j = s.aiY
          · simp only [c3, and_self, if_true]
            obtain ⟨rfl, rfl⟩ := c3
            constructor
            · intro hh; simp [EMPTY, HU_PAWN] at hh
            · intro r
              rw [hiff.2 r] at hai
              simp [HU_PAWN, AI_PAWN] at hai
          · simp only [c3, if_false]
            exact hiff

theorem board_cur_ne {s : State} (h : WellFormed s) :
    s.board (getCurrentPlayerPos s).1 (getCurrentPlayerPos s).2 ≠ EMPTY ∧
    s.board (getCurrentPlayerPos s).1 (getCurrentPlayerPos s).2 ≠ BLOCKED := by
  rw [h.board_cur]
  cases s.isMaxTurn <;> simp [AI_PAWN, HU_PAWN, EMPTY, BLOCKED]

theorem pawn_ne (b : Bool) :
    (if b = true then AI_PAWN else HU_PAWN) ≠ EMPTY ∧
    (if b = true then AI_PAWN else HU_PAWN) ≠ BLOCKED := by
  cases b <;> simp [AI_PAWN, HU_PAWN, EMPTY, BLOCKED]

theorem countEmpty_applyStepMove {s : State} (h : WellFormed s) (hv : CellsValid s)
    {p : Int × Int} (hp : p ∈ getLegalStepMoves s) :
    countCells (applyStepMove s p.1 p.2).board EMPTY = countCells s.board EMPTY := by
  obtain ⟨hpb, _, hne, h1, h2, h3⟩ := (mem_getLegalStepMoves s p.1 p.2).1 hp
  have hpe : s.board p.1 p.2 = EMPTY := by
    rcases hv (p.1, p.2) ((mem_allCells _ _).2 hpb) with e | e | e | e
    · exact e
    · exact absurd e h2
    · exact absurd e h3
    · exact absurd e h1
  have hcur : ¬ (p.1 = (getCurrentPlayerPos s).1 ∧ p.2 = (getCurrentPlayerPos s).2) := by
    rintro ⟨e1, e2⟩
    exact hne (by rw [e1, e2])
  have c1 := countCells_setCell s.board (getCurrentPlayerPos s).1 (getCurrentPlayerPos s).2
    EMPTY EMPTY h.cur_inBounds
  have c2 := countCells_setCell
    (setCell s.board (getCurrentPlayerPos s).1 (getCurrentPlayerPos s).2 EMPTY) p.1 p.2
    (if s.isMaxTurn then AI_PAWN else HU_PAWN) EMPTY hpb
  rw [if_neg (board_cur_ne h).1, if_pos rfl] at c1
  rw [setCell_apply, if_neg hcur, if_pos hpe, if_neg (pawn_ne s.isMaxTurn).1] at c2
  rw [applyStepMove_board]
  omega

theorem countBlocked_applyMove {s : State} (h : WellFormed s) {m : Move}
    (hm : m ∈ generateAllMoves s) :
    countCells (applyMove s m).board BLOCKED = countCells s.board BLOCKED + 1 := by
  obtain ⟨hpb, hmb, hbb, hmp, hbm, hm1, _, _, _⟩ := gen_facts h hm
  have hE : EMPTY ≠ BLOCKED := by simp [EMPTY, BLOCKED]
  have c1 := countCells_setCell s.board (getCurrentPlayerPos s).1 (getCurrentPlayerPos s).2
    EMPTY BLOCKED hpb
  have c2 := countCells_setCell
    (setCell s.board (getCurrentPlayerPos s).1 (getCurrentPlayerPos s).2 EMPTY)
    m.moveX m.moveY (if s.isMaxTurn then AI_PAWN else HU_PAWN) BLOCKED hmb
  have c3 := countCells_setCell
    (setCell (setCell s.board (getCurrentPlayerPos s).1 (getCurrentPlayerPos s).2 EMPTY)
      m.moveX m.moveY (if s.isMaxTurn then AI_PAWN else HU_PAWN))
    m.removeX m.removeY BLOCKED BLOCKED hbb
  rw [if_neg (board_cur_ne h).2, if_neg hE] at c1
  rw [setCell_apply, if_neg hmp, if_neg hm1, if_neg (pawn_ne s.isMaxTurn).2] at c2
  have he := ((mem_generateAllMoves s m).1 hm).2.2
  rw [applyStepMove_board] at he
  rw [he, if_neg hE, if_pos rfl] at c3
  rw [applyMove_board_of_mem s m hm]
  omega

theorem countBlocked_le {s : State} (h : WellFormed s) : countCells s.board BLOCKED ≤ 47 := by
  have hA : AI_PAWN ≠ BLOCKED := by simp [AI_PAWN, BLOCKED]
  have hH : HU_PAWN ≠ BLOCKED := by simp [HU_PAWN, BLOCKED]
  have hne : ¬ (s.huX = s.aiX ∧ s.huY = s.aiY) := by
    rintro ⟨e1, e2⟩
    have := h.board_hu
    rw [e1, e2, h.board_ai] at this
    simp [AI_PAWN, HU_PAWN] at this
  have c1 := countCells_setCell s.board s.aiX s.aiY BLOCKED BLOCKED h.1
  have c2 := countCells_setCell (setCell s.board s.aiX s.aiY BLOCKED) s.huX s.huY
    BLOCKED BLOCKED h.2.1
  rw [h.board_ai, if_neg hA, if_pos rfl] at c1
  rw [setCell_apply, if_neg hne, h.board_hu, if_neg hH, if_pos rfl] at c2
  have c3 : countCells (setCell (setCell s.board s.aiX s.aiY BLOCKED) s.huX s.huY BLOCKED)
      BLOCKED ≤ 49 := by
    unfold countCells
    exact le_trans (List.countP_le_length _) (by decide)
  omega

theorem countPawn_eq_one (b : Int → Int → Int) (v x y : Int) (hb : inBounds x y = true)
    (h : ∀ c ∈ allCells, (b c.1 c.2 = v ↔ c = (x, y))) : countCells b v = 1 := by
  have c1 := countCells_setCell b x y (v + 1) v hb
  have hx : b x y = v := (h (x, y) ((mem_allCells x y).2 hb)).2 rfl
  have hz : countCells (setCell b x y (v + 1)) v = 0 := by
    unfold countCells
    rw [List.countP_eq_zero]
    rintro ⟨i, j⟩ hc
    simp only [setCell_apply, decide_eq_true_eq]
    split_ifs with c
    · omega
    · intro hv
      have := (h (i, j) hc).1 hv
      simp only [Prod.mk.injEq] at this
      exact c this
  rw [if_pos hx, hz, if_neg (by omega)] at c1
  omega

theorem initializeGame_eq (s0 : State) :
    initializeGame s0 =
      { board := setCell (setCell (fun _ _ => EMPTY) 0 3 AI_PAWN) 6 3 HU_PAWN,
        aiX := 0, aiY := 3, huX := 6, huY := 3, isMaxTurn := false } := rfl

theorem wellFormed_initializeGame (s0 : State) : WellFormed (initializeGame s0) := by
  rw [initializeGame_eq]
  refine ⟨by decide, by decide, ?_, ?_⟩
  · rintro ⟨i, j⟩ _
    simp only [setCell_apply, Prod.mk.injEq, AI_PAWN, HU_PAWN, EMPTY]
    split_ifs <;> simp_all
  · rintro ⟨i, j⟩ _
    simp only [setCell_apply, Prod.mk.injEq, AI_PAWN, HU_PAWN, EMPTY]
    split_ifs <;> simp_all

theorem Reachable.wellFormed {s t : State} (h : WellFormed s) (r : Reachable s t) :
    WellFormed t := by
  induction r with
  | refl => exact h
  | step _ hs ih =>
    obtain ⟨m, hm, rfl⟩ := hs
    exact wellFormed_applyMove ih hm

theorem blocked_applyMove {s : State} (h : WellFormed s) {m : Move}
    (hm : m ∈ generateAllMoves s) (i j : Int) (hb : s.board i j = BLOCKED) :
    (applyMove s m).board i j = BLOCKED := by
  obtain ⟨_, _, _, _, _, hm1, _, _, _⟩ := gen_facts h hm
  rw [applyMove_board_of_mem s m hm, setCell_apply, setCell_apply, setCell_apply]
  by_cases c1 : i = m.removeX ∧ j = m.removeY
  · rw [if_pos c1]
  · have c2 : ¬ (i = m.moveX ∧ j = m.moveY) := by
      rintro ⟨e1, e2⟩
      rw [e1, e2] at hb
      exact hm1 hb
    have c3 : ¬ (i = (getCurrentPlayerPos s).1 ∧ j = (getCurrentPlayerPos s).2) := by
      rintro ⟨e1, e2⟩
      rw [e1, e2] at hb
      exact (board_cur_ne h).2 hb
    rw [if_neg c1, if_neg c2, if_neg c3]
    exact hb

/-- C3: on a state satisfying the data-model invariants (well-formed pawns, every
cell in one of the four cell states) the number of generated moves is the number
of legal steps times the number of `EMPTY` cells of the original board. -/
theorem length_generateAllMoves (s : State) (h : WellFormed s) (hv : CellsValid s) :
    (generateAllMoves s).length
      = (getLegalStepMoves s).length * countCells s.board EMPTY := by
  unfold generateAllMoves
  apply length_flatMap_const
  intro p hp
  rw [List.length_map, ← List.countP_eq_length_filter]
  exact countEmpty_applyStepMove h hv hp

theorem length_generateAllMoves_witness :
    WellFormed initialState ∧ CellsValid initialState ∧
    (generateAllMoves initialState).length
      = (getLegalStepMoves initialState).length * countCells initialState.board EMPTY :=
  ⟨by decide, by decide, length_generateAllMoves initialState (by decide) (by decide)⟩

/-! ## Applying a move -/

/-- C4 fails as stated: from the initial position the generated move that steps
to `(5,3)` and puts the barrier on the vacated cell `(6,3)` leaves the mover's
old cell `BLOCKED`, not `EMPTY`. -/
theorem applyMove_vacated_cell_not_empty :
    WellFormed initialState ∧ Move.mk 5 3 6 3 ∈ generateAllMoves initialState ∧
    getCurrentPlayerPos initialState = (6, 3) ∧
    (applyMove initialState (Move.mk 5 3 6 3)).board 6 3 = BLOCKED ∧
    (applyMove initialState (Move.mk 5 3 6 3)).board 6 3 ≠ EMPTY := by
  decide

/-- C4 (amended): `applyMove` is a function of its two arguments, and after a
generated move on a well-formed state the mover's old cell is `EMPTY` unless it
was chosen as the barrier cell (then it is `BLOCKED`), the destination holds the
mover's pawn and is the mover's stored position, the barrier cell is `BLOCKED`,
and the active-player flag is negated. -/
theorem applyMove_effect (s : State) (m : Move) (h : WellFormed s)
    (hm : m ∈ generateAllMoves s) :
    (∀ s2 m2, s2 = s → m2 = m → applyMove s2 m2 = applyMove s m) ∧
    (applyMove s m).board (getCurrentPlayerPos s).1 (getCurrentPlayerPos s).2 =
      (if m.removeX = (getCurrentPlayerPos s).1 ∧ m.removeY = (getCurrentPlayerPos s).2
        then BLOCKED else EMPTY) ∧
    (applyMove s m).board m.moveX m.moveY = (if s.isMaxTurn then AI_PAWN else HU_PAWN) ∧
    (if s.isMaxTurn then ((applyMove s m).aiX, (applyMove s m).aiY)
      else ((applyMove s m).huX, (applyMove s m).huY)) = (m.moveX, m.moveY) ∧
    (applyMove s m).board m.removeX m.removeY = BLOCKED ∧
    (applyMove s m).isMaxTurn = !s.isMaxTurn := by
  obtain ⟨_, _, _, hmp, hbm, _, _, _, _⟩ := gen_facts h hm
  have hpm : ¬ ((getCurrentPlayerPos s).1 = m.moveX ∧ (getCurrentPlayerPos s).2 = m.moveY) :=
    fun e => hmp ⟨e.1.symm, e.2.symm⟩
  have hmb : ¬ (m.moveX = m.removeX ∧ m.moveY = m.removeY) :=
    fun e => hbm ⟨e.1.symm, e.2.symm⟩
  have hco := applyMove_coords s m
  refine ⟨?_, ?_, ?_, ?_, ?_, rfl⟩
  · rintro s2 m2 rfl rfl
    rfl
  · rw [applyMove_board_of_mem s m hm, setCell_apply, setCell_apply, setCell_apply]
    by_cases c : m.removeX = (getCurrentPlayerPos s).1 ∧ m.removeY = (getCurrentPlayerPos s).2
    · rw [if_pos c, if_pos ⟨c.1.symm, c.2.symm⟩]
    · rw [if_neg c, if_neg (fun e => c ⟨e.1.symm, e.2.symm⟩), if_neg hpm, if_pos ⟨rfl, rfl⟩]
  · rw [applyMove_board_of_mem s m hm, setCell_apply, setCell_apply, if_neg hmb,
      if_pos ⟨rfl, rfl⟩]
  · cases hs : s.isMaxTurn <;> simp only [hs, Bool.false_eq_true, if_false, if_true,
      Prod.mk.injEq] at hco ⊢
    · exact ⟨hco.2.2.1, hco.2.2.2⟩
    · exact ⟨hco.1, hco.2.1⟩
  · rw [applyMove_board_of_mem s m hm, setCell_apply, if_pos ⟨rfl, rfl⟩]

theorem applyMove_effect_witness :
    WellFormed initialState ∧ Move.mk 5 3 6 3 ∈ generateAllMoves initialState ∧
    (applyMove initialState (Move.mk 5 3 6 3)).isMaxTurn = !initialState.isMaxTurn :=
  ⟨by decide, by decide,
    (applyMove_effect initialState (Move.mk 5 3 6 3) (by decide) (by decide)).2.2.2.2.2⟩

/-- C5: well-formedness is an invariant of play.  The state produced by
`initializeGame` is well-formed and has exactly one `AI_PAWN` cell and exactly
one `HU_PAWN` cell; and every generated move applied to a well-formed state
yields a well-formed state, again with exactly one cell per pawn. -/
theorem wellFormed_invariant :
    (∀ s0 : State, WellFormed (initializeGame s0) ∧
      countCells (initializeGame s0).board AI_PAWN = 1 ∧
      countCells (initializeGame s0).board HU_PAWN = 1) ∧
    (∀ (s : State) (m : Move), WellFormed s → m ∈ generateAllMoves s →
      WellFormed (applyMove s m) ∧
      countCells (applyMove s m).board AI_PAWN = 1 ∧
      countCells (applyMove s m).board HU_PAWN = 1) := by
  have key : ∀ t : State, WellFormed t →
      WellFormed t ∧ countCells t.board AI_PAWN = 1 ∧ countCells t.board HU_PAWN = 1 :=
    fun t ht => ⟨ht, countPawn_eq_one _ _ _ _ ht.1 ht.2.2.1,
      countPawn_eq_one _ _ _ _ ht.2.1 ht.2.2.2⟩
  exact ⟨fun s0 => key _ (wellFormed_initializeGame s0),
    fun s m h hm => key _ (wellFormed_applyMove h hm)⟩

theorem wellFormed_invariant_witness :
    WellFormed initialState ∧ Move.mk 5 3 6 3 ∈ generateAllMoves initialState ∧
    WellFormed (applyMove initialState (Move.mk 5 3 6 3)) :=
  ⟨by decide, by decide,
    (wellFormed_invariant.2 initialState (Move.mk 5 3 6 3) (by decide) (by decide)).1⟩

/-- C6: a `BLOCKED` cell never changes again: a generated move applied to a
well-formed state leaves every `BLOCKED` cell `BLOCKED`, and so does every
sequence of generated moves. -/
theorem blocked_stays_blocked (s : State) (h : WellFormed s) :
    (∀ m ∈ generateAllMoves s, ∀ i j : Int,
      s.board i j = BLOCKED → (applyMove s m).board i j = BLOCKED) ∧
    (∀ t : State, Reachable s t → ∀ i j : Int,
      s.board i j = BLOCKED → t.board i j = BLOCKED) := by
  refine ⟨fun m hm i j hb => blocked_applyMove h hm i j hb, ?_⟩
  intro t r
  induction r with
  | refl => exact fun _ _ hb => hb
  | step r1 hs ih =>
    obtain ⟨m, hm, rfl⟩ := hs
    exact fun i j hb => blocked_applyMove (r1.wellFormed h) hm i j (ih i j hb)

theorem blocked_stays_blocked_witness :
    WellFormed (applyMove initialState (Move.mk 5 3 6 3)) ∧
    (applyMove initialState (Move.mk 5 3 6 3)).board 6 3 = BLOCKED ∧
    (∀ t : State, Reachable (applyMove initialState (Move.mk 5 3 6 3)) t →
      t.board 6 3 = BLOCKED) :=
  ⟨by decide, by decide, fun t r =>
    (blocked_stays_blocked (applyMove initialState (Move.mk 5 3 6 3)) (by decide)).2 t r 6 3
      (by decide)⟩

/-- C7: along every sequence of generated moves from the `initializeGame` state
the number of `BLOCKED` cells never decreases from one state to the next and
never exceeds `N * N - 2 = 47`. -/
theorem countBlocked_monotone_bounded (s0 s : State)
    (hr : Reachable (initializeGame s0) s) :
    N * N - 2 = 47 ∧ countCells s.board BLOCKED ≤ 47 ∧
    (∀ t : State, Step s t → countCells s.board BLOCKED ≤ countCells t.board BLOCKED) := by
  have hw : WellFormed s := hr.wellFormed (wellFormed_initializeGame s0)
  refine ⟨by decide, countBlocked_le hw, ?_⟩
  rintro t ⟨m, hm, rfl⟩
  rw [countBlocked_applyMove hw hm]
  exact Nat.le_succ _

theorem countBlocked_monotone_bounded_witness :
    Reachable (initializeGame zeroState) (applyMove initialState (Move.mk 5 3 6 3)) ∧
    countCells (applyMove initialState (Move.mk 5 3 6 3)).board BLOCKED ≤ 47 :=
  ⟨Reachable.step Reachable.refl ⟨Move.mk 5 3 6 3, by decide, rfl⟩,
    (countBlocked_monotone_bounded zeroState (applyMove initialState (Move.mk 5 3 6 3))
      (Reachable.step Reachable.refl ⟨Move.mk 5 3 6 3, by decide, rfl⟩)).2.1⟩

/-! ## Initial position -/

/-- C8 fails as stated: the configuration is as described, but the turn counter
the game starts with is not zero. -/
theorem initial_turn_counter_not_zero :
    ¬ ((initializeGame zeroState).aiX = 0 ∧ (initializeGame zeroState).aiY = 3 ∧
      (initializeGame zeroState).huX = 6 ∧ (initializeGame zeroState).huY = 3 ∧
      (initializeGame zeroState).isMaxTurn = false ∧ initialTurns = 0) := by
  decide

/-- C8 (amended): `initializeGame` puts the MAX pawn on `(0,3)` and the MIN pawn
on `(6,3)`, stores exactly these coordinates, leaves every other cell `EMPTY`
and no cell `BLOCKED`, makes MIN the active player, and does not touch the
turn counter, whose value at the start of the game is one. -/
theorem initializeGame_spec (s0 : State) :
    ((initializeGame s0).aiX, (initializeGame s0).aiY) = (0, 3) ∧
    ((initializeGame s0).huX, (initializeGame s0).huY) = (6, 3) ∧
    (initializeGame s0).board 0 3 = AI_PAWN ∧
    (initializeGame s0).board 6 3 = HU_PAWN ∧
    (∀ i j : Int, (i, j) ≠ (0, 3) → (i, j) ≠ (6, 3) →
      (initializeGame s0).board i j = EMPTY) ∧
    (∀ i j : Int, (initializeGame s0).board i j ≠ BLOCKED) ∧
    (initializeGame s0).isMaxTurn = false ∧ initialTurns = 1 := by
  rw [initializeGame_eq]
  refine ⟨rfl, rfl, by decide, by decide, ?_, ?_, rfl, rfl⟩
  · intro i j h1 h2
    simp only [ne_eq, Prod.mk.injEq] at h1 h2
    simp only [setCell_apply, if_neg h1, if_neg h2]
  · intro i j
    simp only [setCell_apply, AI_PAWN, HU_PAWN, EMPTY, BLOCKED]
    split_ifs <;> decide

theorem initializeGame_spec_witness : (initializeGame zeroState).board 2 2 = EMPTY :=
  (initializeGame_spec zeroState).2.2.2.2.1 2 2 (by decide) (by decide)

/-! ## Termination of the flood fills -/

theorem unvisited_setCell (vis : Int → Int → Bool) (x y : Int) (hb : inBounds x y = true)
    (hv : vis x y = false) : unvisited (setCell vis x y true) + 1 = unvisited vis := by
  have := countP_setCell_of_mem vis x y true false allCells nodup_allCells
    ((mem_allCells x y).2 hb)
  rw [if_pos hv, if_neg (by decide)] at this
  exact this

theorem unvisited_start (x y : Int) (hb : inBounds x y = true) :
    unvisited (setCell (fun _ _ => false) x y true) = 48 := by
  have h := unvisited_setCell (fun _ _ => false) x y hb rfl
  have h49 : unvisited (fun _ _ => false) = 49 := by decide
  omega

theorem foldl_visit_measure {β : Type}
    (f : ((Int → Int → Bool) × List β) → (Int × Int) → ((Int → Int → Bool) × List β))
    (hf : ∀ acc c, f acc c = acc ∨ (inBounds c.1 c.2 = true ∧ acc.1 c.1 c.2 = false ∧
      (f acc c).1 = setCell acc.1 c.1 c.2 true ∧ (f acc c).2.length = acc.2.length + 1))
    (l : List (Int × Int)) (acc : (Int → Int → Bool) × List β) :
    (l.foldl f acc).2.length + unvisited (l.foldl f acc).1 = acc.2.length + unvisited acc.1 ∧
    acc.2.length ≤ (l.foldl f acc).2.length := by
  induction l generalizing acc with
  | nil => exact ⟨rfl, le_refl _⟩
  | cons c t ih =>
    rw [List.foldl_cons]
    rcases hf acc c with e | ⟨hb, hv, e1, e2⟩
    · rw [e]
      exact ih acc
    · obtain ⟨h1, h2⟩ := ih (f acc c)
      have := unvisited_setCell acc.1 c.1 c.2 hb hv
      rw [e1, e2] at h1
      rw [e2] at h2
      exact ⟨by omega, by omega⟩

theorem M2_visitNeighbours_measure (s : State) (ox oy x y : Int)
    (vis : Int → Int → Bool) (q : List (Int × Int)) :
    (M2.visitNeighbours s ox oy x y vis q).2.length
        + unvisited (M2.visitNeighbours s ox oy x y vis q).1 = q.length + unvisited vis ∧
    q.length ≤ (M2.visitNeighbours s ox oy x y vis q).2.length := by
  unfold M2.visitNeighbours
  apply foldl_visit_measure
  intro acc c
  by_cases h1 : inBounds c.1 c.2 = true
  · by_cases h2 : acc.1 c.1 c.2 = true
    · simp [h1, h2]
    · by_cases h3 : s.board c.1 c.2 = BLOCKED
      · simp [h1, h2, h3]
      · by_cases h4 : c.1 = ox ∧ c.2 = oy
        · simp [h1, h2, h3, h4]
        · right
          simp only [Bool.not_eq_true] at h2
          simp [h1, h2, h3, h4]
  · simp [h1]

theorem M2_countReachableLoop_terminates (s : State) (ox oy : Int) :
    ∀ (fuel : Nat) (q : List (Int × Int)) (qi : Nat) (vis : Int → Int → Bool) (cnt : Int),
      qi ≤ q.length → (q.length - qi) + unvisited vis < fuel →
      ∃ r, M2.countReachableLoop s ox oy fuel q qi vis cnt = some r ∧
        cnt ≤ r ∧ r ≤ cnt + (((q.length - qi) + unvisited vis : Nat) : Int) := by
  intro fuel
  induction fuel with
  | zero => intro q qi vis cnt _ h; omega
  | succ n ih =>
    intro q qi vis cnt hq hm
    unfold M2.countReachableLoop
    cases hc : q[qi]? with
    | none => exact ⟨cnt, rfl, le_refl _, by omega⟩
    | some c =>
      have hlt : qi < q.length := by
        by_contra hge
        rw [List.getElem?_eq_none (by omega)] at hc
        exact Option.noConfusion hc
      obtain ⟨e1, e2⟩ := M2_visitNeighbours_measure s ox oy c.1 c.2 vis q
      obtain ⟨r, hr, hr1, hr2⟩ := ih (M2.visitNeighbours s ox oy c.1 c.2 vis q).2 (qi + 1)
        (M2.visitNeighbours s ox oy c.1 c.2 vis q).1 (cnt + 1) (by omega) (by omega)
      exact ⟨r, hr, by omega, by omega⟩

theorem M2_countReachable_bounds (s : State) (h : WellFormed s) (forAI : Bool) :
    ∃ r, M2.countReachable s forAI = some r ∧ 0 ≤ r ∧ r ≤ 49 := by
  have hb : inBounds (if forAI = true then s.aiX else s.huX)
      (if forAI = true then s.aiY else s.huY) = true := by
    cases forAI
    · simpa using h.2.1
    · simpa using h.1
  obtain ⟨r, hr, h1, h2⟩ := M2_countReachableLoop_terminates s
    (if forAI = true then s.huX else s.aiX) (if forAI = true then s.huY else s.aiY)
    M2.reachFuel [(if forAI = true then s.aiX else s.huX, if forAI = true then s.aiY else s.huY)]
    0 (setCell (fun _ _ => false) (if forAI = true then s.aiX else s.huX)
      (if forAI = true then s.aiY else s.huY) true) 0 (Nat.zero_le _)
    (by rw [unvisited_start _ _ hb]; simp [M2.reachFuel])
  rw [unvisited_start _ _ hb] at h2
  refine ⟨r, hr, h1, ?_⟩
  simp only [List.length_singleton] at h2
  omega

/-! ## Bounds on the shared evaluator terms -/

theorem countMovesForPlayer_bounds (s : State) (forAI : Bool) :
    0 ≤ countMovesForPlayer s forAI ∧ countMovesForPlayer s forAI ≤ 8 := by
  dsimp only [countMovesForPlayer]
  have := length_getLegalStepMoves_le { s with isMaxTurn := forAI }
  constructor <;> omega

theorem calculateMobility_bounds (s : State) :
    -8 ≤ calculateMobility s ∧ calculateMobility s ≤ 8 := by
  dsimp only [calculateMobility]
  have h1 := countMovesForPlayer_bounds s true
  have h2 := countMovesForPlayer_bounds s false
  constructor <;> omega

theorem blockedAround_bounds (s : State) (x y : Int) :
    0 ≤ blockedAround s x y ∧ blockedAround s x y ≤ 8 := by
  unfold blockedAround
  have h1 : (neighbours x y).length = 8 := by simp [neighbours, dx, dy]
  have h2 := List.countP_le_length
    (fun c : Int × Int => inBounds c.1 c.2 && decide (s.board c.1 c.2 = BLOCKED))
    (l := neighbours x y)
  constructor <;> omega

theorem calculateBarriers_bounds (s : State) :
    -8 ≤ calculateBarriers s ∧ calculateBarriers s ≤ 8 := by
  dsimp only [calculateBarriers]
  have h1 := blockedAround_bounds s (getCurrentPlayerPos { s with isMaxTurn := true }).1
    (getCurrentPlayerPos { s with isMaxTurn := true }).2
  have h2 := blockedAround_bounds s (getCurrentPlayerPos { s with isMaxTurn := false }).1
    (getCurrentPlayerPos { s with isMaxTurn := false }).2
  constructor <;> omega

/-! ## The 3-term evaluator -/

theorem M2_calculateAreaControl_bounds (s : State) (h : WellFormed s) :
    ∃ c, M2.calculateAreaControl s = some c ∧ -49 ≤ c ∧ c ≤ 49 := by
  obtain ⟨a, ha, a0, a1⟩ := M2_countReachable_bounds s h true
  obtain ⟨b, hb, b0, b1⟩ := M2_countReachable_bounds s h false
  refine ⟨a - b, ?_, by omega, by omega⟩
  simp [M2.calculateAreaControl, ha, hb]

theorem M2_eval_nonterminal (s : State) (h : WellFormed s) (hnt : hasNoMoves s = false) :
    ∃ v, M2.eval s = some v ∧ -546 ≤ v ∧ v ≤ 546 := by
  obtain ⟨c, hc, c0, c1⟩ := M2_calculateAreaControl_bounds s h
  have ha := calculateMobility_bounds s
  have hb := calculateBarriers_bounds s
  refine ⟨calculateMobility s * 5 + calculateBarriers s * 2 + c * 10, ?_, by omega, by omega⟩
  simp [M2.eval, hnt, hc]

/-- C9: for the 3-term evaluator of `m2.cpp` and `tree.cpp` on a well-formed
state, `eval` returns `LOSE_SCORE = -1000000` exactly when the state is terminal
with MAX active, returns `WIN_SCORE = 1000000` exactly when it is terminal with
MIN active, and on a non-terminal state returns a score of magnitude strictly
below 1000000. -/
theorem M2_eval_extremes (s : State) (h : WellFormed s) :
    M2.LOSE_SCORE = -1000000 ∧ M2.WIN_SCORE = 1000000 ∧
    (M2.eval s = some M2.LOSE_SCORE ↔ (hasNoMoves s = true ∧ s.isMaxTurn = true)) ∧
    (M2.eval s = some M2.WIN_SCORE ↔ (hasNoMoves s = true ∧ s.isMaxTurn = false)) ∧
    (hasNoMoves s = false → ∃ v, M2.eval s = some v ∧ |v| < 1000000) := by
  refine ⟨rfl, rfl, ?_, ?_, ?_⟩
  · cases ht : hasNoMoves s
    · obtain ⟨v, hv, v0, v1⟩ := M2_eval_nonterminal s h ht
      rw [hv]
      simp only [Option.some.injEq, M2.LOSE_SCORE, Bool.false_eq_true, false_and, iff_false]
      omega
    · cases hm : s.isMaxTurn <;> simp [M2.eval, ht, hm, M2.LOSE_SCORE, M2.WIN_SCORE]
  · cases ht : hasNoMoves s
    · obtain ⟨v, hv, v0, v1⟩ := M2_eval_nonterminal s h ht
      rw [hv]
      simp only [Option.some.injEq, M2.WIN_SCORE, Bool.false_eq_true, false_and, iff_false]
      omega
    · cases hm : s.isMaxTurn <;> simp [M2.eval, ht, hm, M2.LOSE_SCORE, M2.WIN_SCORE]
  · intro ht
    obtain ⟨v, hv, v0, v1⟩ := M2_eval_nonterminal s h ht
    exact ⟨v, hv, by rw [abs_lt]; constructor <;> omega⟩

theorem M2_eval_extremes_witness :
    WellFormed initialState ∧ hasNoMoves initialState = false ∧
    ∃ v, M2.eval initialState = some v ∧ |v| < 1000000 :=
  ⟨by decide, by decide, (M2_eval_extremes initialState (by decide)).2.2.2.2 (by decide)⟩

/-! ## Termination of the scans of the 5-term evaluator -/

theorem sum_map_setCell_of_not_mem (g : Int → Nat) (a : Int → Int → Int) (x y w : Int)
    (l : List (Int × Int)) (h : (x, y) ∉ l) :
    (l.map (fun c => g (setCell a x y w c.1 c.2))).sum = (l.map (fun c => g (a c.1 c.2))).sum := by
  congr 1
  apply List.map_congr_left
  intro c hc
  have hne : ¬ (c.1 = x ∧ c.2 = y) := by
    rintro ⟨h1, h2⟩
    exact h (by rw [← h1, ← h2]; exact hc)
  simp [setCell_apply, hne]

theorem sum_map_setCell_of_mem (g : Int → Nat) (a : Int → Int → Int) (x y w : Int)
    (l : List (Int × Int)) (hn : l.Nodup) (h : (x, y) ∈ l) :
    (l.map (fun c => g (setCell a x y w c.1 c.2))).sum + g (a x y)
      = (l.map (fun c => g (a c.1 c.2))).sum + g w := by
  induction l with
  | nil => simp at h
  | cons c t ih =>
    rw [List.nodup_cons] at hn
    rw [List.map_cons, List.map_cons, List.sum_cons, List.sum_cons]
    by_cases hc : c = (x, y)
    · subst hc
      rw [sum_map_setCell_of_not_mem g a x y w t hn.1]
      simp only [setCell_apply, and_self, if_true]
      omega
    · have ht : (x, y) ∈ t := by
        rcases List.mem_cons.1 h with h1 | h1
        · exact absurd h1.symm hc
        · exact h1
      have hne : ¬ (c.1 = x ∧ c.2 = y) := by
        rintro ⟨h1, h2⟩
        exact hc (by rw [← h1, ← h2])
      have := ih hn.2 ht
      have hd : g (setCell a x y w c.1 c.2) = g (a c.1 c.2) := by
        simp [setCell_apply, hne]
      rw [hd]
      omega

theorem distSum_setCell_lt (dist : Int → Int → Int) (x y w : Int) (hb : inBounds x y = true)
    (hw : 0 ≤ w) (hlt : w < dist x y) : distSum (setCell dist x y w) + 1 ≤ distSum dist := by
  have := sum_map_setCell_of_mem Int.toNat dist x y w allCells nodup_allCells
    ((mem_allCells x y).2 hb)
  unfold distSum
  omega

theorem distSum_le (dist : Int → Int → Int) (h : ∀ i j, dist i j ≤ 999) :
    distSum dist ≤ 49 * 999 := by
  unfold distSum
  have h1 : ∀ l : List (Int × Int),
      (l.map (fun c => (dist c.1 c.2).toNat)).sum ≤ l.length * 999 := by
    intro l
    induction l with
    | nil => simp
    | cons c t ih =>
      rw [List.map_cons, List.sum_cons, List.length_cons]
      have := h c.1 c.2
      omega
  exact le_trans (h1 allCells) (by decide)

theorem M3_relaxNeighbours_measure (s : State) (cx cy cd : Int) (hcd : 0 ≤ cd)
    (dist : Int → Int → Int) (q : List (Int × Int)) (hd : ∀ i j, 0 ≤ dist i j) :
    (M3.relaxNeighbours s cx cy cd dist q).2.length
        + distSum (M3.relaxNeighbours s cx cy cd dist q).1 ≤ q.length + distSum dist ∧
    q.length ≤ (M3.relaxNeighbours s cx cy cd dist q).2.length ∧
    (∀ i j, 0 ≤ (M3.relaxNeighbours s cx cy cd dist q).1 i j) := by
  unfold M3.relaxNeighbours
  generalize neighbours cx cy = l
  suffices H : ∀ acc : (Int → Int → Int) × List (Int × Int), (∀ i j, 0 ≤ acc.1 i j) →
      (l.foldl (fun acc c =>
        if (!inBounds c.1 c.2) = true then acc
        else if s.board c.1 c.2 = BLOCKED then acc
        else if acc.1 c.1 c.2 > cd + 1 then
          (setCell acc.1 c.1 c.2 (cd + 1), acc.2 ++ [c])
        else acc) acc).2.length
        + distSum (l.foldl (fun acc c =>
        if (!inBounds c.1 c.2) = true then acc
        else if s.board c.1 c.2 = BLOCKED then acc
        else if acc.1 c.1 c.2 > cd + 1 then
          (setCell acc.1 c.1 c.2 (cd + 1), acc.2 ++ [c])
        else acc) acc).1 ≤ acc.2.length + distSum acc.1 ∧
      acc.2.length ≤ (l.foldl (fun acc c =>
        if (!inBounds c.1 c.2) = true then acc
        else if s.board c.1 c.2 = BLOCKED then acc
        else if acc.1 c.1 c.2 > cd + 1 then
          (setCell acc.1 c.1 c.2 (cd + 1), acc.2 ++ [c])
        else acc) acc).2.length ∧
      (∀ i j, 0 ≤ (l.foldl (fun acc c =>
        if (!inBounds c.1 c.2) = true then acc
        else if s.board c.1 c.2 = BLOCKED then acc
        else if acc.1 c.1 c.2 > cd + 1 then
          (setCell acc.1 c.1 c.2 (cd + 1), acc.2 ++ [c])
        else acc) acc).1 i j) from H (dist, q) hd
  induction l with
  | nil => intro acc hacc; exact ⟨le_refl _, le_refl _, hacc⟩
  | cons c t ih =>
    intro acc hacc
    rw [List.foldl_cons]
    by_cases h1 : inBounds c.1 c.2 = true
    · by_cases h2 : s.board c.1 c.2 = BLOCKED
      · simp only [h1, h2, Bool.not_true, Bool.false_eq_true, if_false, if_true]
        exact ih acc hacc
      · by_cases h3 : acc.1 c.1 c.2 > cd + 1
        · simp only [h1, h2, h3, Bool.not_true, Bool.false_eq_true, if_false, if_true]
          have hnn : ∀ i j, 0 ≤ (setCell acc.1 c.1 c.2 (cd + 1), acc.2 ++ [c]).1 i j := by
            intro i j
            simp only [setCell_apply]
            split_ifs
            · omega
            · exact hacc i j
          obtain ⟨e1, e2, e3⟩ := ih (setCell acc.1 c.1 c.2 (cd + 1), acc.2 ++ [c]) hnn
          have hs := distSum_setCell_lt acc.1 c.1 c.2 (cd + 1) h1 (by omega) h3
          simp only [List.length_append, List.length_singleton] at e1 e2
          exact ⟨by omega, by omega, e3⟩
        · simp only [h1, h2, h3, Bool.not_true, Bool.false_eq_true, if_false]
          exact ih acc hacc
    · simp only [h1, Bool.not_false, if_true]
      exact ih acc hacc

theorem M3_bfsLoop_terminates (s : State) :
    ∀ (fuel : Nat) (q : List (Int × Int)) (head : Nat) (dist : Int → Int → Int),
      (∀ i j, 0 ≤ dist i j) → head ≤ q.length → (q.length - head) + distSum dist < fuel →
      ∃ r, M3.bfsLoop s fuel q head dist = some r := by
  intro fuel
  induction fuel with
  | zero => intro q head dist _ _ h; omega
  | succ n ih =>
    intro q head dist hd hq hm
    unfold M3.bfsLoop
    cases hc : q[head]? with
    | none => exact ⟨dist, rfl⟩
    | some c =>
      have hlt : head < q.length := by
        by_contra hge
        rw [List.getElem?_eq_none (by omega)] at hc
        exact Option.noConfusion hc
      obtain ⟨e1, e2, e3⟩ :=
        M3_relaxNeighbours_measure s c.1 c.2 (dist c.1 c.2) (hd _ _) dist q hd
      exact ih _ (head + 1) _ e3 (by omega) (by omega)

theorem M3_bfsDistances_terminates (s : State) (x y : Int) :
    ∃ r, M3.bfsDistances s x y = some r := by
  unfold M3.bfsDistances
  have h0 : ∀ i j, 0 ≤ setCell (fun _ _ => (999 : Int)) x y 0 i j := by
    intro i j
    simp only [setCell_apply]
    split_ifs <;> omega
  have h1 : ∀ i j, setCell (fun _ _ => (999 : Int)) x y 0 i j ≤ 999 := by
    intro i j
    simp only [setCell_apply]
    split_ifs <;> omega
  have h2 := distSum_le _ h1
  refine M3_bfsLoop_terminates s M3.bfsFuel _ 0 _ h0 (Nat.zero_le _) ?_
  simp only [List.length_singleton, M3.bfsFuel]
  omega

theorem M3_spreadNeighbours_measure (s : State) (x y d : Int)
    (vis : Int → Int → Bool) (q : List M3.Node) :
    (M3.spreadNeighbours s x y d vis q).2.length
        + unvisited (M3.spreadNeighbours s x y d vis q).1 = q.length + unvisited vis ∧
    q.length ≤ (M3.spreadNeighbours s x y d vis q).2.length := by
  unfold M3.spreadNeighbours
  apply foldl_visit_measure
  intro acc c
  by_cases h1 : inBounds c.1 c.2 = true
  · by_cases h2 : acc.1 c.1 c.2 = true
    · simp [h1, h2]
    · by_cases h3 : s.board c.1 c.2 = BLOCKED
      · simp [h1, h2, h3]
      · right
        simp only [Bool.not_eq_true] at h2
        simp [h1, h2, h3]
  · simp [h1]

theorem M3_localSpaceLoop_terminates (s : State) (sx sy maxDist : Int) :
    ∀ (fuel : Nat) (q : List M3.Node) (i : Nat) (vis : Int → Int → Bool) (cnt : Int),
      i ≤ q.length → (q.length - i) + unvisited vis < fuel →
      ∃ r, M3.localSpaceLoop s sx sy maxDist fuel q i vis cnt = some r := by
  intro fuel
  induction fuel with
  | zero => intro q i vis cnt _ h; omega
  | succ n ih =>
    intro q i vis cnt hq hm
    unfold M3.localSpaceLoop
    cases hc : q[i]? with
    | none => exact ⟨cnt, rfl⟩
    | some c =>
      have hlt : i < q.length := by
        by_contra hge
        rw [List.getElem?_eq_none (by omega)] at hc
        exact Option.noConfusion hc
      dsimp only
      obtain ⟨e1, e2⟩ := M3_spreadNeighbours_measure s c.x c.y c.dist vis q
      by_cases hdist : c.dist = maxDist
      · rw [if_pos hdist]
        exact ih q (i + 1) vis _ (by omega) (by omega)
      · rw [if_neg hdist]
        exact ih _ (i + 1) _ _ (by omega) (by omega)

theorem M3_countLocalSpaceAround_terminates (s : State) (sx sy maxDist : Int)
    (hb : inBounds sx sy = true) :
    ∃ r, M3.countLocalSpaceAround s sx sy maxDist = some r := by
  unfold M3.countLocalSpaceAround
  refine M3_localSpaceLoop_terminates s sx sy maxDist M3.localFuel _ 0 _ 0 (Nat.zero_le _) ?_
  rw [unvisited_start _ _ hb]
  simp [M3.localFuel]

theorem M3_calculateVoronoi_terminates (s : State) :
    ∃ c, M3.calculateVoronoi s = some c := by
  obtain ⟨a, ha⟩ := M3_bfsDistances_terminates s s.aiX s.aiY
  obtain ⟨b, hb⟩ := M3_bfsDistances_terminates s s.huX s.huY
  simp [M3.calculateVoronoi, ha, hb]

theorem M3_calculateLocalSpace_terminates (s : State) (h : WellFormed s) :
    ∃ e, M3.calculateLocalSpace s = some e := by
  obtain ⟨a, ha⟩ := M3_countLocalSpaceAround_terminates s s.aiX s.aiY 2 h.1
  obtain ⟨b, hb⟩ := M3_countLocalSpaceAround_terminates s s.huX s.huY 2 h.2.1
  simp [M3.calculateLocalSpace, ha, hb]

/-! ## The 5-term evaluator -/

theorem M3_clamp_bounds (v : ℚ) : -1 ≤ M3.clamp v ∧ M3.clamp v ≤ 1 := by
  unfold M3.clamp
  split_ifs with h1 h2
  · constructor <;> norm_num
  · constructor <;> norm_num
  · push_neg at h1 h2
    exact ⟨h2, h1⟩

theorem M3_toInt_bounds (v : ℚ) (k : Int) (h1 : -(k : ℚ) ≤ v) (h2 : v ≤ (k : ℚ)) :
    -k ≤ M3.toInt v ∧ M3.toInt v ≤ k := by
  unfold M3.toInt
  split_ifs with h0
  · have a1 : (0 : Int) ≤ ⌊v⌋ := Int.floor_nonneg.2 h0
    have a2 : ⌊v⌋ ≤ k := by
      have : ((⌊v⌋ : Int) : ℚ) ≤ (k : ℚ) := le_trans (Int.floor_le v) h2
      exact_mod_cast this
    have a3 : 0 ≤ k := le_trans a1 a2
    constructor <;> omega
  · push_neg at h0
    have a1 : ⌈v⌉ ≤ 0 := Int.ceil_le.2 (by exact_mod_cast h0.le)
    have a2 : -k ≤ ⌈v⌉ := by
      have : ((-k : Int) : ℚ) ≤ ((⌈v⌉ : Int) : ℚ) := by
        push_cast
        exact le_trans h1 (Int.le_ceil v)
      exact_mod_cast this
    constructor <;> omega

theorem M3_eval_nonterminal (s : State) (depth turns : Int) (h : WellFormed s)
    (hnt : hasNoMoves s = false) :
    ∃ v, M3.eval s depth turns = some v ∧ -27000 ≤ v ∧ v ≤ 27000 ∧
      (2 * turns - 1 < 5 → -9000 ≤ v ∧ v ≤ 9000) := by
  obtain ⟨c, hc⟩ := M3_calculateVoronoi_terminates s
  obtain ⟨e, he⟩ := M3_calculateLocalSpace_terminates s h
  obtain ⟨a0, a1⟩ := M3_clamp_bounds ((calculateMobility s : ℚ) / M3.MAX_MOBILITY_DIFF)
  obtain ⟨b0, b1⟩ := M3_clamp_bounds ((calculateBarriers s : ℚ) / M3.MAX_BARRIER_DIFF)
  obtain ⟨d0, d1⟩ := M3_clamp_bounds ((M3.calculatePositional s : ℚ) / M3.MAX_POSITIONAL_ABS)
  obtain ⟨c0, c1⟩ := M3_clamp_bounds ((c : ℚ) / M3.MAX_VORONOI_DIFF)
  obtain ⟨e0, e1⟩ := M3_clamp_bounds ((e : ℚ) / M3.MAX_LOCAL_SPACE_DIFF)
  by_cases hph : 2 * turns - 1 < 5
  · have hb := M3_toInt_bounds
      ((4 * M3.clamp ((calculateMobility s : ℚ) / M3.MAX_MOBILITY_DIFF)
        + 2 * M3.clamp ((calculateBarriers s : ℚ) / M3.MAX_BARRIER_DIFF)
        + 3 * M3.clamp ((M3.calculatePositional s : ℚ) / M3.MAX_POSITIONAL_ABS)) * 1000) 9000
      (by push_cast; linarith) (by push_cast; linarith)
    refine ⟨_, ?_, by omega, by omega, fun _ => hb⟩
    simp [M3.eval, hnt, hph]
  · have hb := M3_toInt_bounds
      ((5 * M3.clamp ((calculateMobility s : ℚ) / M3.MAX_MOBILITY_DIFF)
        + 2 * M3.clamp ((calculateBarriers s : ℚ) / M3.MAX_BARRIER_DIFF)
        + 7 * M3.clamp ((c : ℚ) / M3.MAX_VORONOI_DIFF)
        + 3 * M3.clamp ((M3.calculatePositional s : ℚ) / M3.MAX_POSITIONAL_ABS)
        + 10 * M3.clamp ((e : ℚ) / M3.MAX_LOCAL_SPACE_DIFF)) * 1000) 27000
      (by push_cast; linarith) (by push_cast; linarith)
    refine ⟨_, ?_, hb.1, hb.2, fun hh => absurd hh hph⟩
    simp [M3.eval, hnt, hph, hc, he]

theorem wrap32_of_fits (x : Int) (h1 : -2147483648 ≤ x) (h2 : x ≤ 2147483647) :
    wrap32 x = x := by
  unfold wrap32
  omega

theorem wrap32_range (x : Int) : -2147483648 ≤ wrap32 x ∧ wrap32 x ≤ 2147483647 := by
  unfold wrap32
  omega

theorem M3_eval_terminal_eq (t : State) (d trn : Int) (ht : hasNoMoves t = true) :
    M3.eval t d trn =
      some (if t.isMaxTurn then wrap32 (M3.LOSE_SCORE - d) else wrap32 (M3.WIN_SCORE + d)) := by
  cases hm : t.isMaxTurn <;> simp [M3.eval, ht, hm]

theorem M3_eval_terminal (t : State) (d trn : Int) (ht : hasNoMoves t = true) (hd : 0 ≤ d)
    (hd2 : d ≤ 2147483647) :
    ∃ w, M3.eval t d trn = some w ∧ 1000000000 ≤ |w| := by
  refine ⟨_, M3_eval_terminal_eq t d trn ht, ?_⟩
  cases t.isMaxTurn
  · simp only [Bool.false_eq_true, if_false, wrap32, M3.WIN_SCORE, abs_eq_max_neg]
    omega
  · simp only [if_true, wrap32, M3.LOSE_SCORE, abs_eq_max_neg]
    omega

/-- C10: for the 5-term evaluator of `m3.cpp` (sub-scores in exact rational
arithmetic), on every well-formed non-terminal state, for every value of the
turn counter and every depth `≥ 0`, `eval` returns a score `v` with
`|v| ≤ 27000`, and `|v| ≤ 9000` when the early blend is selected
(`2 * turns - 1 < 5`); every terminal score at a depth `≥ 0` (a non-negative
`int`, so at most 2147483647) has magnitude at least 1000000000, also when the
32-bit sum wraps, so `|v|` is strictly below it. -/
theorem M3_eval_heuristic_bound (s : State) (depth turns : Int) (h : WellFormed s)
    (hnt : hasNoMoves s = false) (_hd : 0 ≤ depth) :
    ∃ v, M3.eval s depth turns = some v ∧ |v| ≤ 27000 ∧
      (2 * turns - 1 < 5 → |v| ≤ 9000) ∧
      (∀ (t : State) (d trn : Int), hasNoMoves t = true → 0 ≤ d → d ≤ 2147483647 →
        ∃ w, M3.eval t d trn = some w ∧ 1000000000 ≤ |w| ∧ |v| < |w|) := by
  obtain ⟨v, hv, v0, v1, v2⟩ := M3_eval_nonterminal s depth turns h hnt
  have hab : |v| ≤ 27000 := abs_le.2 ⟨v0, v1⟩
  refine ⟨v, hv, hab, fun hp => abs_le.2 (v2 hp), ?_⟩
  intro t d trn ht hd hd2
  obtain ⟨w, hw, hw1⟩ := M3_eval_terminal t d trn ht hd hd2
  exact ⟨w, hw, hw1, by omega⟩

theorem M3_eval_heuristic_bound_witness :
    WellFormed initialState ∧ hasNoMoves initialState = false ∧
    ∃ v, M3.eval initialState 3 initialTurns = some v ∧ |v| ≤ 27000 :=
  ⟨by decide, by decide,
    (M3_eval_heuristic_bound initialState 3 initialTurns (by decide) (by decide) (by decide)).imp
      (fun _ hv => ⟨hv.1, hv.2.1⟩)⟩

/-! ## Terminal scores -/

theorem M3_minimax_terminal (s : State) (d alpha beta turns : Int)
    (ht : hasNoMoves s = true) :
    M3.minimax s d alpha beta turns = M3.eval s d turns := by
  simp [M3.minimax, searchFuel, minimaxWith, ht]

set_option maxRecDepth 100000 in
/-- C11 fails as stated for large depths: `eval` of `m3.cpp` computes
`WIN_SCORE + depth` in 32-bit `int`.  On the trapped position (terminal, MIN to
move, so a MAX win) at remaining depth 1147483648 the sum wraps: `eval` returns
-2147483648 and not `WIN_SCORE + 1147483648`, while at remaining depth
1147483647 it returns 2147483647; the win found with more remaining depth
scores lower. -/
theorem M3_eval_terminal_depth_wraps :
    hasNoMoves trappedState = true ∧ trappedState.isMaxTurn = false ∧
    M3.eval trappedState 1147483648 initialTurns = some (-2147483648) ∧
    M3.eval trappedState 1147483648 initialTurns ≠ some (M3.WIN_SCORE + 1147483648) ∧
    M3.eval trappedState 1147483647 initialTurns = some 2147483647 ∧
    (∃ d1 d2 v1 v2 : Int, 0 ≤ d1 ∧ d1 < d2 ∧
      M3.eval trappedState d1 initialTurns = some v1 ∧
      M3.eval trappedState d2 initialTurns = some v2 ∧ v2 < v1) := by
  have h1 : hasNoMoves trappedState = true := by decide
  have e1 : M3.eval trappedState 1147483648 initialTurns = some (-2147483648) := by
    rw [M3_eval_terminal_eq _ _ _ h1]
    decide
  have e2 : M3.eval trappedState 1147483647 initialTurns = some 2147483647 := by
    rw [M3_eval_terminal_eq _ _ _ h1]
    decide
  refine ⟨h1, by decide, e1, ?_, e2, 1147483647, 1147483648, _, _, by decide, by decide,
    e2, e1, by decide⟩
  rw [e1]
  decide

/-- C11 (amended): in `m3.cpp`, on a terminal state with remaining depth `d`,
`0 ≤ d ≤ 1147483647` (the depths at which the 32-bit sum does not wrap), `eval`
(and hence `minimax`) returns `LOSE_SCORE - d` when MAX is active and
`WIN_SCORE + d` when MIN is active, a value that fits a 32-bit `int`; for
`0 ≤ d1 < d2 ≤ 1147483647` a MAX win scores strictly higher at `d2` and a MAX
loss scores strictly higher at `d1`. -/
theorem M3_eval_terminal_depth (s : State) (turns : Int) (ht : hasNoMoves s = true) :
    (∀ d : Int, 0 ≤ d → d ≤ 1147483647 →
      M3.eval s d turns =
        some (if s.isMaxTurn then M3.LOSE_SCORE - d else M3.WIN_SCORE + d) ∧
      (∀ alpha beta : Int, M3.minimax s d alpha beta turns = M3.eval s d turns) ∧
      (∃ v, M3.eval s d turns = some v ∧ -2147483648 ≤ v ∧ v ≤ 2147483647)) ∧
    (∀ d1 d2 : Int, 0 ≤ d1 → d1 < d2 → d2 ≤ 1147483647 →
      ∃ v1 v2, M3.eval s d1 turns = some v1 ∧ M3.eval s d2 turns = some v2 ∧
        (s.isMaxTurn = false → v1 < v2) ∧ (s.isMaxTurn = true → v2 < v1)) := by
  have key : ∀ d : Int, 0 ≤ d → d ≤ 1147483647 → M3.eval s d turns =
      some (if s.isMaxTurn then M3.LOSE_SCORE - d else M3.WIN_SCORE + d) := by
    intro d h0 h1
    rw [M3_eval_terminal_eq s d turns ht]
    cases s.isMaxTurn
    · simp only [Bool.false_eq_true, if_false]
      rw [wrap32_of_fits _ (by simp only [M3.WIN_SCORE]; omega)
        (by simp only [M3.WIN_SCORE]; omega)]
    · simp only [if_true]
      rw [wrap32_of_fits _ (by simp only [M3.LOSE_SCORE]; omega)
        (by simp only [M3.LOSE_SCORE]; omega)]
  constructor
  · intro d hd hd2
    refine ⟨key d hd hd2, fun a b => M3_minimax_terminal s d a b turns ht, ?_⟩
    refine ⟨_, key d hd hd2, ?_, ?_⟩ <;>
      cases s.isMaxTurn <;> simp [M3.LOSE_SCORE, M3.WIN_SCORE] <;> omega
  · intro d1 d2 h0 h12 h2
    refine ⟨_, _, key d1 h0 (by omega), key d2 (by omega) h2, ?_, ?_⟩
    · intro hm
      simp only [hm, Bool.false_eq_true, if_false]
      omega
    · intro hm
      simp only [hm, if_true]
      omega

theorem M3_eval_terminal_depth_witness :
    hasNoMoves trappedState = true ∧
    M3.eval trappedState 2 initialTurns = some (M3.WIN_SCORE + 2) :=
  ⟨by decide, ((M3_eval_terminal_depth trappedState initialTurns (by decide)).1 2
    (by decide) (by decide)).1⟩

/-- C12: when every in-bounds cell among the eight neighbours of the active pawn
is `BLOCKED` (on an edge or in a corner fewer than eight are in bounds),
`hasNoMoves` is true and the 3-term `eval` returns the losing extreme of the
active player: `LOSE_SCORE` for MAX, `WIN_SCORE` for MIN. -/
theorem blocked_neighbourhood_terminal (s : State)
    (hb : ∀ c ∈ neighbours (getCurrentPlayerPos s).1 (getCurrentPlayerPos s).2,
      inBounds c.1 c.2 = true → s.board c.1 c.2 = BLOCKED) :
    hasNoMoves s = true ∧
    M2.eval s = some (if s.isMaxTurn then M2.LOSE_SCORE else M2.WIN_SCORE) := by
  have hn : hasNoMoves s = true := by
    unfold hasNoMoves
    rw [List.isEmpty_iff]
    apply List.eq_nil_iff_forall_not_mem.2
    rintro ⟨x, y⟩ hmem
    obtain ⟨hin, hd, hne, h1, _, _⟩ := (mem_getLegalStepMoves s x y).1 hmem
    exact h1 (hb (x, y) ((mem_neighbours _ _ x y).2 ⟨hd, hne⟩) hin)
  refine ⟨hn, ?_⟩
  simp [M2.eval, hn]

theorem blocked_neighbourhood_terminal_witness :
    hasNoMoves trappedState = true ∧ M2.eval trappedState = some M2.WIN_SCORE :=
  blocked_neighbourhood_terminal trappedState (by decide)

/-! ## Barrier placement and the frame of a move -/

/-- C18: `placeBarrier` reports success exactly when the cell is in bounds and
`EMPTY`; on success the only change is that this cell becomes `BLOCKED`; on
failure the state is returned unchanged. -/
theorem placeBarrier_spec (s : State) (x y : Int) :
    ((placeBarrier s x y).1 = true ↔ (inBounds x y = true ∧ s.board x y = EMPTY)) ∧
    ((placeBarrier s x y).1 = true →
      (placeBarrier s x y).2 = { s with board := setCell s.board x y BLOCKED } ∧
      (placeBarrier s x y).2.board x y = BLOCKED ∧
      (∀ i j : Int, (i, j) ≠ (x, y) → (placeBarrier s x y).2.board i j = s.board i j)) ∧
    ((placeBarrier s x y).1 = false → (placeBarrier s x y).2 = s) := by
  by_cases hb : inBounds x y = true
  · by_cases he : s.board x y = EMPTY
    · rw [placeBarrier_of_empty s x y hb he]
      refine ⟨⟨fun _ => ⟨hb, he⟩, fun _ => rfl⟩, fun _ => ⟨rfl, ?_, ?_⟩,
        fun h => Bool.noConfusion h⟩
      · simp [setCell_apply]
      · intro i j hij
        have c : ¬ (i = x ∧ j = y) := fun e => hij (by rw [e.1, e.2])
        simp only [setCell_apply, if_neg c]
    · simp [placeBarrier, hb, he]
  · simp [placeBarrier, hb]

theorem placeBarrier_spec_witness :
    (placeBarrier initialState 3 3).2.board 3 3 = BLOCKED :=
  ((placeBarrier_spec initialState 3 3).2.1 (by decide)).2.1

/-- C20: a generated move applied to a well-formed state changes no board cell
other than the mover's old cell, the destination and the barrier cell, and
leaves the stored coordinates of the other pawn as they were; `applyMove`
builds its result from the argument `s`, which is a value and is not altered. -/
theorem applyMove_frame (s : State) (m : Move) (_h : WellFormed s)
    (hm : m ∈ generateAllMoves s) :
    (∀ i j : Int, (i, j) ≠ getCurrentPlayerPos s → (i, j) ≠ (m.moveX, m.moveY) →
      (i, j) ≠ (m.removeX, m.removeY) → (applyMove s m).board i j = s.board i j) ∧
    (s.isMaxTurn = true →
      ((applyMove s m).huX, (applyMove s m).huY) = (s.huX, s.huY)) ∧
    (s.isMaxTurn = false →
      ((applyMove s m).aiX, (applyMove s m).aiY) = (s.aiX, s.aiY)) := by
  have hco := applyMove_coords s m
  refine ⟨?_, ?_, ?_⟩
  · intro i j h1 h2 h3
    have c1 : ¬ (i = (getCurrentPlayerPos s).1 ∧ j = (getCurrentPlayerPos s).2) :=
      fun e => h1 (by rw [e.1, e.2])
    have c2 : ¬ (i = m.moveX ∧ j = m.moveY) := fun e => h2 (by rw [e.1, e.2])
    have c3 : ¬ (i = m.removeX ∧ j = m.removeY) := fun e => h3 (by rw [e.1, e.2])
    rw [applyMove_board_of_mem s m hm, setCell_apply, setCell_apply, setCell_apply,
      if_neg c3, if_neg c2, if_neg c1]
  · intro hs
    simp only [hs, if_true, Prod.mk.injEq] at hco
    simp only [Prod.mk.injEq]
    exact ⟨hco.2.2.1, hco.2.2.2⟩
  · intro hs
    simp only [hs, Bool.false_eq_true, if_false, Prod.mk.injEq] at hco
    simp only [Prod.mk.injEq]
    exact ⟨hco.1, hco.2.1⟩

theorem applyMove_frame_witness :
    WellFormed initialState ∧ Move.mk 5 3 6 3 ∈ generateAllMoves initialState ∧
    (applyMove initialState (Move.mk 5 3 6 3)).board 0 3 = initialState.board 0 3 :=
  ⟨by decide, by decide,
    (applyMove_frame initialState (Move.mk 5 3 6 3) (by decide) (by decide)).1 0 3
      (by decide) (by decide) (by decide)⟩

/-! ## Alpha-beta pruning -/

theorem maxLoop_failSoft (search : State → Int → Int → Option Int) (s : State)
    (pv : Move → Int) (V beta : Int) :
    ∀ (ms : List Move) (m0 : Move) (best alpha : Int),
      (∀ m ∈ m0 :: ms, ∀ a b : Int, ∃ r, search (applyMove s m) a b = some r ∧
        -V ≤ r ∧ r ≤ V ∧ (a < b → FailSoft a b (pv m) r)) →
      ∃ R, maxLoop search s (m0 :: ms) best alpha beta = some (max best R) ∧
        -V ≤ R ∧ R ≤ V ∧
        (alpha < beta → FailSoft alpha beta (listMax (pv m0) (ms.map pv)) R) := by
  intro ms
  induction ms with
  | nil =>
    intro m0 best alpha h
    obtain ⟨r, hr, r1, r2, hfs⟩ := h m0 (List.mem_cons_self _ _) alpha beta
    refine ⟨r, ?_, r1, r2, ?_⟩
    · simp only [maxLoop, hr]
      split_ifs <;> rfl
    · simpa [listMax] using hfs
  | cons m1 rest ih =>
    intro m0 best alpha h
    obtain ⟨r, hr, r1, r2, hfs⟩ := h m0 (List.mem_cons_self _ _) alpha beta
    by_cases hcut : beta ≤ max alpha r
    · refine ⟨r, ?_, r1, r2, ?_⟩
      · simp only [maxLoop, hr, hcut, if_true]
      · intro hab
        have := hfs hab
        simp only [List.map_cons, listMax]
        unfold FailSoft at this ⊢
        omega
    · obtain ⟨R, hR, R1, R2, hfs2⟩ := ih m1 (max best r) (max alpha r)
        (fun m hm => h m (List.mem_cons_of_mem _ hm))
      refine ⟨max r R, ?_, by omega, by omega, ?_⟩
      · rw [maxLoop]
        simp only [hr, hcut, if_false]
        rw [hR, max_assoc]
      · intro hab
        have h1 := hfs hab
        have h2 := hfs2 (by omega)
        simp only [List.map_cons, listMax]
        unfold FailSoft at h1 h2 ⊢
        omega

theorem minLoop_failSoft (search : State → Int → Int → Option Int) (s : State)
    (pv : Move → Int) (V alpha : Int) :
    ∀ (ms : List Move) (m0 : Move) (best beta : Int),
      (∀ m ∈ m0 :: ms, ∀ a b : Int, ∃ r, search (applyMove s m) a b = some r ∧
        -V ≤ r ∧ r ≤ V ∧ (a < b → FailSoft a b (pv m) r)) →
      ∃ R, minLoop search s (m0 :: ms) best alpha beta = some (min best R) ∧
        -V ≤ R ∧ R ≤ V ∧
        (alpha < beta → FailSoft alpha beta (listMin (pv m0) (ms.map pv)) R) := by
  intro ms
  induction ms with
  | nil =>
    intro m0 best beta h
    obtain ⟨r, hr, r1, r2, hfs⟩ := h m0 (List.mem_cons_self _ _) alpha beta
    refine ⟨r, ?_, r1, r2, ?_⟩
    · simp only [minLoop, hr]
      split_ifs <;> rfl
    · simpa [listMin] using hfs
  | cons m1 rest ih =>
    intro m0 best beta h
    obtain ⟨r, hr, r1, r2, hfs⟩ := h m0 (List.mem_cons_self _ _) alpha beta
    by_cases hcut : min beta r ≤ alpha
    · refine ⟨r, ?_, r1, r2, ?_⟩
      · simp only [minLoop, hr, hcut, if_true]
      · intro hab
        have := hfs hab
        simp only [List.map_cons, listMin]
        unfold FailSoft at this ⊢
        omega
    · obtain ⟨R, hR, R1, R2, hfs2⟩ := ih m1 (min best r) (min beta r)
        (fun m hm => h m (List.mem_cons_of_mem _ hm))
      refine ⟨min r R, ?_, by omega, by omega, ?_⟩
      · rw [minLoop]
        simp only [hr, hcut, if_false]
        rw [hR, min_assoc]
      · intro hab
        have h1 := hfs hab
        have h2 := hfs2 (by omega)
        simp only [List.map_cons, listMin]
        unfold FailSoft at h1 h2 ⊢
        omega

theorem childValues_eq_map (f : Move → Option Int) (pv : Move → Int) (ms : List Move)
    (h : ∀ m ∈ ms, f m = some (pv m)) : childValues f ms = some (ms.map pv) := by
  induction ms with
  | nil => rfl
  | cons m t ih =>
    simp only [childValues, h m (List.mem_cons_self _ _),
      ih (fun x hx => h x (List.mem_cons_of_mem _ hx)), List.map_cons]

theorem listMax_bounds (V : Int) : ∀ (ws : List Int) (v : Int), -V ≤ v → v ≤ V →
    (∀ w ∈ ws, -V ≤ w ∧ w ≤ V) → -V ≤ listMax v ws ∧ listMax v ws ≤ V := by
  intro ws
  induction ws with
  | nil => intro v h1 h2 _; exact ⟨h1, h2⟩
  | cons w t ih =>
    intro v h1 h2 h
    have hw := h w (List.mem_cons_self _ _)
    have := ih w hw.1 hw.2 (fun x hx => h x (List.mem_cons_of_mem _ hx))
    simp only [listMax]
    omega

theorem listMin_bounds (V : Int) : ∀ (ws : List Int) (v : Int), -V ≤ v → v ≤ V →
    (∀ w ∈ ws, -V ≤ w ∧ w ≤ V) → -V ≤ listMin v ws ∧ listMin v ws ≤ V := by
  intro ws
  induction ws with
  | nil => intro v h1 h2 _; exact ⟨h1, h2⟩
  | cons w t ih =>
    intro v h1 h2 h
    have hw := h w (List.mem_cons_self _ _)
    have := ih w hw.1 hw.2 (fun x hx => h x (List.mem_cons_of_mem _ hx))
    simp only [listMin]
    omega

theorem generateAllMoves_ne_nil {s : State} (h : WellFormed s) (hnt : hasNoMoves s = false) :
    ∃ m0 ms, generateAllMoves s = m0 :: ms := by
  have hne : getLegalStepMoves s ≠ [] := by
    intro e
    simp [hasNoMoves, e] at hnt
  obtain ⟨p, hp⟩ := List.exists_mem_of_ne_nil _ hne
  have hmem : Move.mk p.1 p.2 (getCurrentPlayerPos s).1 (getCurrentPlayerPos s).2
      ∈ generateAllMoves s := by
    rw [mem_generateAllMoves]
    refine ⟨hp, h.cur_inBounds, ?_⟩
    exact vacated_empty_after_step s p.1 p.2 ((mem_getLegalStepMoves s p.1 p.2).1 hp).2.2.1
  cases hg : generateAllMoves s with
  | nil => rw [hg] at hmem; exact absurd hmem (List.not_mem_nil _)
  | cons m0 ms => exact ⟨m0, ms, rfl⟩

theorem minimaxWith_failSoft (evalFn : State → Int → Option Int) (inf V D : Int)
    (hV : V ≤ inf) (hE : EvalBounded evalFn V D) :
    ∀ (fuel : Nat) (s : State) (depth : Int), WellFormed s → 0 ≤ depth → depth ≤ D →
      47 < countCells s.board BLOCKED + fuel →
      ∃ v, plainMinimax evalFn fuel s depth = some v ∧ -V ≤ v ∧ v ≤ V ∧
        ∀ alpha beta : Int, ∃ r, minimaxWith evalFn inf fuel s depth alpha beta = some r ∧
          -V ≤ r ∧ r ≤ V ∧ (alpha < beta → FailSoft alpha beta v r) := by
  intro fuel
  induction fuel with
  | zero =>
    intro s depth hw _ _ hf
    have := countBlocked_le hw
    omega
  | succ n ih =>
    intro s depth hw hd0 hdD hf
    by_cases hbase : depth = 0 ∨ hasNoMoves s = true
    · obtain ⟨v, hv, v1, v2⟩ := hE s depth hw hd0 hdD
      refine ⟨v, ?_, v1, v2, fun alpha beta => ⟨v, ?_, v1, v2, fun _ => ?_⟩⟩
      · simp only [plainMinimax, hbase, if_true, hv]
      · simp only [minimaxWith, hbase, if_true, hv]
      · exact ⟨fun _ => le_refl _, fun _ => le_refl _, fun _ _ => rfl⟩
    · have hnt : hasNoMoves s = false := by
        cases hh : hasNoMoves s
        · rfl
        · exact absurd (Or.inr hh) hbase
      have hd1 : depth ≠ 0 := fun e => hbase (Or.inl e)
      obtain ⟨m0, ms, hmoves⟩ := generateAllMoves_ne_nil hw hnt
      have hchild : ∀ m ∈ m0 :: ms,
          ∃ v, plainMinimax evalFn n (applyMove s m) (depth - 1) = some v ∧ -V ≤ v ∧ v ≤ V ∧
            ∀ alpha beta : Int, ∃ r,
              minimaxWith evalFn inf n (applyMove s m) (depth - 1) alpha beta = some r ∧
              -V ≤ r ∧ r ≤ V ∧ (alpha < beta → FailSoft alpha beta v r) := by
        intro m hm
        rw [← hmoves] at hm
        have hb := countBlocked_applyMove hw hm
        exact ih (applyMove s m) (depth - 1) (wellFormed_applyMove hw hm) (by omega) (by omega)
          (by omega)
      let pv : Move → Int := fun m => (plainMinimax evalFn n (applyMove s m) (depth - 1)).getD 0
      have hpv : ∀ m ∈ m0 :: ms,
          plainMinimax evalFn n (applyMove s m) (depth - 1) = some (pv m) := by
        intro m hm
        obtain ⟨v, hv, _⟩ := hchild m hm
        show _ = some ((plainMinimax evalFn n (applyMove s m) (depth - 1)).getD 0)
        rw [hv]; rfl
      have hpvb : ∀ m ∈ m0 :: ms, -V ≤ pv m ∧ pv m ≤ V := by
        intro m hm
        obtain ⟨v, hv, v1, v2, _⟩ := hchild m hm
        have := hpv m hm
        rw [hv] at this
        cases this
        exact ⟨v1, v2⟩
      have hsearch : ∀ m ∈ m0 :: ms, ∀ a b : Int, ∃ r,
          (fun child a b => minimaxWith evalFn inf n child (depth - 1) a b) (applyMove s m) a b
            = some r ∧ -V ≤ r ∧ r ≤ V ∧ (a < b → FailSoft a b (pv m) r) := by
        intro m hm a b
        obtain ⟨v, hv, _, _, hab⟩ := hchild m hm
        have := hpv m hm
        rw [hv] at this
        cases this
        exact hab a b
      have hcv := childValues_eq_map
        (fun m => plainMinimax evalFn n (applyMove s m) (depth - 1)) pv (m0 :: ms) hpv
      have hmb : ∀ w ∈ ms.map pv, -V ≤ w ∧ w ≤ V := by
        intro w hw'
        obtain ⟨x, hx, rfl⟩ := List.mem_map.1 hw'
        exact hpvb x (List.mem_cons_of_mem _ hx)
      have hm0 := hpvb m0 (List.mem_cons_self _ _)
      cases hturn : s.isMaxTurn
      · -- MIN node
        have hb := listMin_bounds V (ms.map pv) (pv m0) hm0.1 hm0.2 hmb
        refine ⟨listMin (pv m0) (ms.map pv), ?_, hb.1, hb.2, fun alpha beta => ?_⟩
        · simp only [plainMinimax, hbase, if_false, hmoves, hcv, List.map_cons, hturn,
            Bool.false_eq_true]
        · obtain ⟨R, hR, R1, R2, hfs⟩ := minLoop_failSoft
            (fun child a b => minimaxWith evalFn inf n child (depth - 1) a b) s pv V alpha
            ms m0 inf beta hsearch
          have hmin : min inf R = R := by omega
          rw [hmin] at hR
          refine ⟨R, ?_, R1, R2, hfs⟩
          simp only [minimaxWith, hbase, if_false, hmoves, List.isEmpty_cons, hturn,
            Bool.false_eq_true, hR]
      · -- MAX node
        have hb := listMax_bounds V (ms.map pv) (pv m0) hm0.1 hm0.2 hmb
        refine ⟨listMax (pv m0) (ms.map pv), ?_, hb.1, hb.2, fun alpha beta => ?_⟩
        · simp only [plainMinimax, hbase, if_false, hmoves, hcv, List.map_cons, hturn,
            if_true]
        · obtain ⟨R, hR, R1, R2, hfs⟩ := maxLoop_failSoft
            (fun child a b => minimaxWith evalFn inf n child (depth - 1) a b) s pv V beta
            ms m0 (-inf) alpha hsearch
          have hmax : max (-inf) R = R := by omega
          rw [hmax] at hR
          refine ⟨R, ?_, R1, R2, hfs⟩
          simp only [minimaxWith, hbase, if_false, hmoves, List.isEmpty_cons, hturn,
            if_true, hR, Bool.false_eq_true]

theorem M2_evalBounded (D : Int) : EvalBounded (fun t _ => M2.eval t) 1000000 D := by
  intro s d hw _ _
  cases ht : hasNoMoves s
  · obtain ⟨v, hv, v0, v1⟩ := M2_eval_nonterminal s hw ht
    exact ⟨v, hv, by omega, by omega⟩
  · cases hm : s.isMaxTurn
    · exact ⟨M2.WIN_SCORE, by simp [M2.eval, ht, hm], by decide, by decide⟩
    · exact ⟨M2.LOSE_SCORE, by simp [M2.eval, ht, hm], by decide, by decide⟩

theorem M3_evalBounded (turns D : Int) :
    EvalBounded (fun t d => M3.eval t d turns) (1000000000 + D) D := by
  intro s d hw hd0 hdD
  cases ht : hasNoMoves s
  · obtain ⟨v, hv, v0, v1, _⟩ := M3_eval_nonterminal s d turns hw ht
    exact ⟨v, hv, by omega, by omega⟩
  · cases hm : s.isMaxTurn
    · refine ⟨wrap32 (M3.WIN_SCORE + d), by simp [M3.eval, ht, hm], ?_, ?_⟩ <;>
        simp only [wrap32, M3.WIN_SCORE] <;> omega
    · refine ⟨wrap32 (M3.LOSE_SCORE - d), by simp [M3.eval, ht, hm], ?_, ?_⟩ <;>
        simp only [wrap32, M3.LOSE_SCORE] <;> omega

theorem searchFuel_enough (s : State) : 47 < countCells s.board BLOCKED + searchFuel := by
  simp only [searchFuel]
  omega

theorem M2_minimax_failSoft (s : State) (depth : Int) (h : WellFormed s) (hd : 0 ≤ depth) :
    ∃ v, M2.plain s depth = some v ∧ -1000000 ≤ v ∧ v ≤ 1000000 ∧
      ∀ alpha beta : Int, ∃ r, M2.minimax s depth alpha beta = some r ∧
        -1000000 ≤ r ∧ r ≤ 1000000 ∧ (alpha < beta → FailSoft alpha beta v r) :=
  minimaxWith_failSoft (fun t _ => M2.eval t) 1000000000 1000000 depth (by decide)
    (M2_evalBounded depth) searchFuel s depth h hd (le_refl _) (searchFuel_enough s)

theorem M3_minimax_failSoft (s : State) (depth turns : Int) (h : WellFormed s)
    (hd : 0 ≤ depth) (hD : depth ≤ 1000000000) :
    ∃ v, M3.plain s depth turns = some v ∧
      -(1000000000 + depth) ≤ v ∧ v ≤ 1000000000 + depth ∧
      ∀ alpha beta : Int, ∃ r, M3.minimax s depth alpha beta turns = some r ∧
        -(1000000000 + depth) ≤ r ∧ r ≤ 1000000000 + depth ∧
        (alpha < beta → FailSoft alpha beta v r) :=
  minimaxWith_failSoft (fun t d => M3.eval t d turns) 2000000000 (1000000000 + depth) depth
    (by omega) (M3_evalBounded turns depth) searchFuel s depth h hd (le_refl _)
    (searchFuel_enough s)

set_option maxRecDepth 100000 in
/-- C14 fails as stated for `m3.cpp`: in the corridor position with MIN to move
and depth 1000000003 the full-window search returns 2000000000 while the
unpruned minimax value is 2000000001. -/
theorem M3_minimax_full_window_differs :
    WellFormed corridorMinState ∧
    M3.minimax corridorMinState 1000000003 (-2000000000) 2000000000 initialTurns
      = some 2000000000 ∧
    M3.plain corridorMinState 1000000003 initialTurns = some 2000000001 := by
  decide

/-- C14 (amended): on a well-formed state the search called with the full window
of the root returns exactly the unpruned minimax value, for every depth `≥ 0`
in `m2.cpp` (window `±1000000000`) and for every depth from `0` to `1000000000`
in `m3.cpp` (window `±2000000000`). -/
theorem minimax_full_window_exact (s : State) (depth : Int) (h : WellFormed s)
    (hd : 0 ≤ depth) :
    (∃ v, M2.minimax s depth (-1000000000) 1000000000 = some v ∧
      M2.plain s depth = some v) ∧
    (∀ turns : Int, depth ≤ 1000000000 →
      ∃ v, M3.minimax s depth (-2000000000) 2000000000 turns = some v ∧
        M3.plain s depth turns = some v) := by
  constructor
  · obtain ⟨v, hv, v1, v2, hab⟩ := M2_minimax_failSoft s depth h hd
    obtain ⟨r, hr, r1, r2, hfs⟩ := hab (-1000000000) 1000000000
    have := hfs (by decide)
    unfold FailSoft at this
    have e : r = v := by omega
    exact ⟨v, by rw [hr, e], hv⟩
  · intro turns hD
    obtain ⟨v, hv, v1, v2, hab⟩ := M3_minimax_failSoft s depth turns h hd hD
    obtain ⟨r, hr, r1, r2, hfs⟩ := hab (-2000000000) 2000000000
    have := hfs (by decide)
    unfold FailSoft at this
    have e : r = v := by omega
    exact ⟨v, by rw [hr, e], hv⟩

theorem minimax_full_window_exact_witness :
    WellFormed initialState ∧
    ∃ v, M2.minimax initialState 3 (-1000000000) 1000000000 = some v ∧
      M2.plain initialState 3 = some v :=
  ⟨by decide, (minimax_full_window_exact initialState 3 (by decide) (by decide)).1⟩

set_option maxRecDepth 100000 in
/-- C15 fails as stated: in the corridor position with MIN to move, at depth 1
the window `(34, 35)` makes `minimax` of `m2.cpp` stop after the first child and
return 34, while the full window returns 0. -/
theorem M2_minimax_tight_window_differs :
    WellFormed corridorMinState ∧ (34 : Int) < 35 ∧
    M2.minimax corridorMinState 1 34 35 = some 34 ∧
    M2.minimax corridorMinState 1 (-1000000000) 1000000000 = some 0 := by
  decide

/-- C15 (amended): on a well-formed state and for every depth `≥ 0`, `minimax`
of `m2.cpp` called with a window `alpha < beta` that strictly contains the
full-window value returns that same value. -/
theorem M2_minimax_window_exact (s : State) (depth : Int) (h : WellFormed s)
    (hd : 0 ≤ depth) :
    ∃ v, M2.minimax s depth (-1000000000) 1000000000 = some v ∧
      ∀ alpha beta : Int, alpha < v → v < beta → M2.minimax s depth alpha beta = some v := by
  obtain ⟨v, hv, v1, v2, hab⟩ := M2_minimax_failSoft s depth h hd
  obtain ⟨r, hr, r1, r2, hfs⟩ := hab (-1000000000) 1000000000
  have h0 := hfs (by decide)
  unfold FailSoft at h0
  have e : r = v := by omega
  refine ⟨v, by rw [hr, e], fun alpha beta ha hb => ?_⟩
  obtain ⟨r', hr', _, _, hfs'⟩ := hab alpha beta
  have h1 := hfs' (by omega)
  unfold FailSoft at h1
  have e' : r' = v := by omega
  rw [hr', e']

theorem M2_minimax_window_exact_witness :
    WellFormed corridorMinState ∧
    ∃ v, M2.minimax corridorMinState 1 (-1000000000) 1000000000 = some v ∧
      ∀ alpha beta : Int, alpha < v → v < beta →
        M2.minimax corridorMinState 1 alpha beta = some v :=
  ⟨by decide, M2_minimax_window_exact corridorMinState 1 (by decide) (by decide)⟩

/-! ## Root move selection -/

theorem bestLoop_firstMax (search : State → Int → Int → Option Int) (s : State)
    (pv : Move → Int) (V inf : Int) (hV : V < inf) :
    ∀ (ms : List Move) (best : Move) (bv : Int), bv < inf →
      (∀ m ∈ ms, ∀ a b : Int, ∃ r, search (applyMove s m) a b = some r ∧
        -V ≤ r ∧ r ≤ V ∧ (a < b → FailSoft a b (pv m) r)) →
      ∃ res, bestLoop search s ms best bv bv inf = some res ∧
        (((∀ x ∈ ms, pv x ≤ bv) ∧ res = best) ∨ (IsFirstMax pv ms res ∧ bv < pv res)) := by
  intro ms
  induction ms with
  | nil =>
    intro best bv _ _
    exact ⟨best, rfl, Or.inl ⟨fun x hx => absurd hx (List.not_mem_nil _), rfl⟩⟩
  | cons m t ih =>
    intro best bv hbv h
    obtain ⟨r, hr, r1, r2, hfs⟩ := h m (List.mem_cons_self _ _) bv inf
    have hf := hfs hbv
    unfold FailSoft at hf
    have ht : ∀ x ∈ t, ∀ a b : Int, ∃ r, search (applyMove s x) a b = some r ∧
        -V ≤ r ∧ r ≤ V ∧ (a < b → FailSoft a b (pv x) r) :=
      fun x hx => h x (List.mem_cons_of_mem _ hx)
    by_cases hgt : r > bv
    · have hex : r = pv m := by omega
      have hmax : max bv r = r := by omega
      obtain ⟨res, hres, hcase⟩ := ih m r (by omega) ht
      refine ⟨res, ?_, Or.inr ?_⟩
      · rw [bestLoop]
        simp only [hr, hgt, if_true, hmax]
        exact hres
      · rcases hcase with ⟨hall, rfl⟩ | ⟨⟨l1, l2, e, h1, h2⟩, hlt⟩
        · exact ⟨⟨[], t, rfl, fun x hx => absurd hx (List.not_mem_nil _),
            fun x hx => by have := hall x hx; omega⟩, by omega⟩
        · refine ⟨⟨m :: l1, l2, by rw [e]; rfl, ?_, h2⟩, by omega⟩
          intro x hx
          rcases List.mem_cons.1 hx with rfl | hx'
          · omega
          · exact h1 x hx'
    · have hle : pv m ≤ bv := by omega
      have hmax : max bv r = bv := by omega
      obtain ⟨res, hres, hcase⟩ := ih best bv hbv ht
      refine ⟨res, ?_, ?_⟩
      · rw [bestLoop]
        simp only [hr, hgt, if_false, hmax]
        exact hres
      · rcases hcase with ⟨hall, rfl⟩ | ⟨⟨l1, l2, e, h1, h2⟩, hlt⟩
        · left
          refine ⟨?_, rfl⟩
          intro x hx
          rcases List.mem_cons.1 hx with rfl | hx'
          · exact hle
          · exact hall x hx'
        · right
          refine ⟨⟨m :: l1, l2, by rw [e]; rfl, ?_, h2⟩, hlt⟩
          intro x hx
          rcases List.mem_cons.1 hx with rfl | hx'
          · omega
          · exact h1 x hx'

theorem IsFirstMax.mem {pv : Move → Int} {ms : List Move} {m : Move}
    (h : IsFirstMax pv ms m) : m ∈ ms := by
  obtain ⟨l1, l2, e, _, _⟩ := h
  rw [e]
  simp

theorem findBestMoveWith_firstMax (evalFn : State → Int → Option Int) (inf V : Int)
    (hV : V < inf) (s : State) (depth : Int) (hE : EvalBounded evalFn V (depth - 1))
    (hw : WellFormed s) (hnt : hasNoMoves s = false) (hd : 1 ≤ depth) :
    ∃ (pv : Move → Int) (m : Move),
      (∀ x ∈ generateAllMoves s,
        plainMinimax evalFn searchFuel (applyMove s x) (depth - 1) = some (pv x)) ∧
      findBestMoveWith evalFn inf searchFuel s depth = some m ∧
      IsFirstMax pv (generateAllMoves s) m := by
  have hchild : ∀ m ∈ generateAllMoves s,
      ∃ v, plainMinimax evalFn searchFuel (applyMove s m) (depth - 1) = some v ∧
        -V ≤ v ∧ v ≤ V ∧ ∀ alpha beta : Int, ∃ r,
          minimaxWith evalFn inf searchFuel (applyMove s m) (depth - 1) alpha beta = some r ∧
          -V ≤ r ∧ r ≤ V ∧ (alpha < beta → FailSoft alpha beta v r) :=
    fun m hm => minimaxWith_failSoft evalFn inf V (depth - 1) (le_of_lt hV) hE searchFuel
      (applyMove s m) (depth - 1) (wellFormed_applyMove hw hm) (by omega) (le_refl _)
      (searchFuel_enough _)
  let pv : Move → Int :=
    fun m => (plainMinimax evalFn searchFuel (applyMove s m) (depth - 1)).getD 0
  have hpv : ∀ m ∈ generateAllMoves s,
      plainMinimax evalFn searchFuel (applyMove s m) (depth - 1) = some (pv m) := by
    intro m hm
    obtain ⟨v, hv, _⟩ := hchild m hm
    show _ = some ((plainMinimax evalFn searchFuel (applyMove s m) (depth - 1)).getD 0)
    rw [hv]; rfl
  have hsearch : ∀ m ∈ generateAllMoves s, ∀ a b : Int, ∃ r,
      (fun child a b => minimaxWith evalFn inf searchFuel child (depth - 1) a b)
        (applyMove s m) a b = some r ∧ -V ≤ r ∧ r ≤ V ∧ (a < b → FailSoft a b (pv m) r) := by
    intro m hm a b
    obtain ⟨v, hv, _, _, hab⟩ := hchild m hm
    have := hpv m hm
    rw [hv] at this
    cases this
    exact hab a b
  obtain ⟨m0, ms, hmoves⟩ := generateAllMoves_ne_nil hw hnt
  have hm0 : m0 ∈ generateAllMoves s := by rw [hmoves]; exact List.mem_cons_self _ _
  have hb0 : -V ≤ pv m0 ∧ pv m0 ≤ V := by
    obtain ⟨v, hv, v1, v2, _⟩ := hchild m0 hm0
    have := hpv m0 hm0
    rw [hv] at this
    cases this
    exact ⟨v1, v2⟩
  obtain ⟨res, hres, hcase⟩ := bestLoop_firstMax
    (fun child a b => minimaxWith evalFn inf searchFuel child (depth - 1) a b) s pv V inf hV
    (generateAllMoves s) (Move.mk 0 0 0 0) (-inf) (by omega) hsearch
  refine ⟨pv, res, hpv, hres, ?_⟩
  rcases hcase with ⟨hall, _⟩ | ⟨hfm, _⟩
  · have := hall m0 hm0
    omega
  · exact hfm

set_option maxRecDepth 100000 in
/-- C16 fails as stated for `m3.cpp`: in the corridor position with MAX to move
and depth 1000000002 every child has the unpruned value -2000000000, so the
first move of greatest value is the first generated move `(0,1,0,0)`, but no
value exceeds the initial `bestVal` and `findBestMove` returns the all-zero move. -/
theorem M3_findBestMove_not_first_max :
    WellFormed corridorMaxState ∧ hasNoMoves corridorMaxState = false ∧
    generateAllMoves corridorMaxState
      = [Move.mk 0 1 0 0, Move.mk 0 1 0 3, Move.mk 0 1 0 5] ∧
    (∀ m ∈ generateAllMoves corridorMaxState,
      M3.plain (applyMove corridorMaxState m) (1000000002 - 1) initialTurns
        = some (-2000000000)) ∧
    M3.findBestMove corridorMaxState 1000000002 initialTurns = some (Move.mk 0 0 0 0) := by
  decide

/-- C16 (amended): on a well-formed non-terminal state `findBestMove` returns the
first move in `generateAllMoves` order whose child has the greatest unpruned
minimax value at `depth - 1`, for every depth `≥ 1` in `m2.cpp` and for every
depth from `1` to `1000000000` in `m3.cpp`. -/
theorem findBestMove_first_max (s : State) (depth : Int) (h : WellFormed s)
    (hnt : hasNoMoves s = false) (hd : 1 ≤ depth) :
    (∃ (pv : Move → Int) (m : Move),
      (∀ x ∈ generateAllMoves s, M2.plain (applyMove s x) (depth - 1) = some (pv x)) ∧
      M2.findBestMove s depth = some m ∧ IsFirstMax pv (generateAllMoves s) m) ∧
    (∀ turns : Int, depth ≤ 1000000000 →
      ∃ (pv : Move → Int) (m : Move),
        (∀ x ∈ generateAllMoves s,
          M3.plain (applyMove s x) (depth - 1) turns = some (pv x)) ∧
        M3.findBestMove s depth turns = some m ∧ IsFirstMax pv (generateAllMoves s) m) :=
  ⟨findBestMoveWith_firstMax (fun t _ => M2.eval t) 1000000000 1000000 (by decide) s depth
      (M2_evalBounded _) h hnt hd,
    fun turns hD => findBestMoveWith_firstMax (fun t d => M3.eval t d turns) 2000000000
      (1000000000 + (depth - 1)) (by omega) s depth (M3_evalBounded turns _) h hnt hd⟩

theorem findBestMove_first_max_witness :
    WellFormed initialState ∧ hasNoMoves initialState = false ∧
    ∃ (pv : Move → Int) (m : Move),
      (∀ x ∈ generateAllMoves initialState,
        M2.plain (applyMove initialState x) (3 - 1) = some (pv x)) ∧
      M2.findBestMove initialState 3 = some m ∧
      IsFirstMax pv (generateAllMoves initialState) m :=
  ⟨by decide, by decide,
    (findBestMove_first_max initialState 3 (by decide) (by decide) (by decide)).1⟩

set_option maxRecDepth 100000 in
/-- C17 fails as stated: in the corridor position with MAX to move, a well-formed
non-terminal state, `findBestMove` of `m3.cpp` at depth 1000000002 returns the
all-zero move, which is not a generated move. -/
theorem M3_findBestMove_not_generated :
    WellFormed corridorMaxState ∧ hasNoMoves corridorMaxState = false ∧
    (1 : Int) ≤ 1000000002 ∧
    M3.findBestMove corridorMaxState 1000000002 initialTurns = some (Move.mk 0 0 0 0) ∧
    Move.mk 0 0 0 0 ∉ generateAllMoves corridorMaxState := by
  decide

/-- C17 (amended): on a well-formed non-terminal state and for every depth from
`1` to `1000000000`, `findBestMove` of `m3.cpp` returns a move of
`generateAllMoves`: its step is a legal step and its barrier target is `EMPTY`
on the board after that step; in particular so at the initial position with
depth 1. -/
theorem M3_findBestMove_generated :
    (∀ (s : State) (depth turns : Int), WellFormed s → hasNoMoves s = false →
      1 ≤ depth → depth ≤ 1000000000 →
      ∃ m, M3.findBestMove s depth turns = some m ∧ m ∈ generateAllMoves s ∧
        (m.moveX, m.moveY) ∈ getLegalStepMoves s ∧
        (applyStepMove s m.moveX m.moveY).board m.removeX m.removeY = EMPTY) ∧
    (∀ (s0 : State) (turns : Int),
      ∃ m, M3.findBestMove (initializeGame s0) 1 turns = some m ∧
        m ∈ generateAllMoves (initializeGame s0) ∧
        (m.moveX, m.moveY) ∈ getLegalStepMoves (initializeGame s0) ∧
        (applyStepMove (initializeGame s0) m.moveX m.moveY).board m.removeX m.removeY
          = EMPTY) := by
  have key : ∀ (s : State) (depth turns : Int), WellFormed s → hasNoMoves s = false →
      1 ≤ depth → depth ≤ 1000000000 →
      ∃ m, M3.findBestMove s depth turns = some m ∧ m ∈ generateAllMoves s ∧
        (m.moveX, m.moveY) ∈ getLegalStepMoves s ∧
        (applyStepMove s m.moveX m.moveY).board m.removeX m.removeY = EMPTY := by
    intro s depth turns hw hnt hd hD
    obtain ⟨pv, m, _, hm, hfm⟩ := findBestMoveWith_firstMax (fun t d => M3.eval t d turns)
      2000000000 (1000000000 + (depth - 1)) (by omega) s depth (M3_evalBounded turns _)
      hw hnt hd
    have hmem := hfm.mem
    obtain ⟨h1, _, h3⟩ := (mem_generateAllMoves s m).1 hmem
    exact ⟨m, hm, hmem, h1, h3⟩
  refine ⟨key, fun s0 turns => ?_⟩
  have hnt : hasNoMoves (initializeGame s0) = false := by
    rw [initializeGame_eq]
    decide
  exact key _ 1 turns (wellFormed_initializeGame s0) hnt (by decide) (by decide)

theorem M3_findBestMove_generated_witness :
    WellFormed initialState ∧ hasNoMoves initialState = false ∧
    ∃ m, M3.findBestMove initialState 1 initialTurns = some m ∧
      m ∈ generateAllMoves initialState :=
  ⟨by decide, by decide,
    (M3_findBestMove_generated.1 initialState 1 initialTurns (by decide) (by decide)
      (by decide) (by decide)).imp (fun _ hm => ⟨hm.1, hm.2.1⟩)⟩

/-! ## The trace recorder -/

theorem Tree_maxLoop_fst
    (tsearch : State → Int → Int → List Tree.LogNode → Option (Int × List Tree.LogNode))
    (search : State → Int → Int → Option Int) (s : State) (myId : Nat)
    (h : ∀ c a b ns, (tsearch c a b ns).map Prod.fst = search c a b) :
    ∀ (ms : List Move) (best alpha beta : Int) (nodes : List Tree.LogNode),
      (Tree.maxLoop tsearch s myId ms best alpha beta nodes).map Prod.fst
        = maxLoop search s ms best alpha beta := by
  intro ms
  induction ms with
  | nil => intro best alpha beta nodes; rfl
  | cons m t ih =>
    intro best alpha beta nodes
    have hm := h (applyMove s m) alpha beta nodes
    rw [Tree.maxLoop, maxLoop]
    cases ht : tsearch (applyMove s m) alpha beta nodes with
    | none =>
      rw [ht] at hm
      simp only [Option.map_none'] at hm
      rw [← hm]
      rfl
    | some p =>
      obtain ⟨val, ns⟩ := p
      rw [ht] at hm
      simp only [Option.map_some'] at hm
      rw [← hm]
      dsimp only
      split_ifs
      · rfl
      · exact ih _ _ _ _

theorem Tree_minLoop_fst
    (tsearch : State → Int → Int → List Tree.LogNode → Option (Int × List Tree.LogNode))
    (search : State → Int → Int → Option Int) (s : State) (myId : Nat)
    (h : ∀ c a b ns, (tsearch c a b ns).map Prod.fst = search c a b) :
    ∀ (ms : List Move) (best alpha beta : Int) (nodes : List Tree.LogNode),
      (Tree.minLoop tsearch s myId ms best alpha beta nodes).map Prod.fst
        = minLoop search s ms best alpha beta := by
  intro ms
  induction ms with
  | nil => intro best alpha beta nodes; rfl
  | cons m t ih =>
    intro best alpha beta nodes
    have hm := h (applyMove s m) alpha beta nodes
    rw [Tree.minLoop, minLoop]
    cases ht : tsearch (applyMove s m) alpha beta nodes with
    | none =>
      rw [ht] at hm
      simp only [Option.map_none'] at hm
      rw [← hm]
      rfl
    | some p =>
      obtain ⟨val, ns⟩ := p
      rw [ht] at hm
      simp only [Option.map_some'] at hm
      rw [← hm]
      dsimp only
      split_ifs
      · rfl
      · exact ih _ _ _ _

theorem Tree_bestLoop_fst
    (tsearch : State → Int → Int → List Tree.LogNode → Option (Int × List Tree.LogNode))
    (search : State → Int → Int → Option Int) (s : State)
    (h : ∀ c a b ns, (tsearch c a b ns).map Prod.fst = search c a b) :
    ∀ (ms : List Move) (best : Move) (bestVal alpha beta : Int) (nodes : List Tree.LogNode),
      (Tree.bestLoop tsearch s ms best bestVal alpha beta nodes).map Prod.fst
        = bestLoop search s ms best bestVal alpha beta := by
  intro ms
  induction ms with
  | nil => intro best bestVal alpha beta nodes; rfl
  | cons m t ih =>
    intro best bestVal alpha beta nodes
    have hm := h (applyMove s m) alpha beta nodes
    rw [Tree.bestLoop, bestLoop]
    cases ht : tsearch (applyMove s m) alpha beta nodes with
    | none =>
      rw [ht] at hm
      simp only [Option.map_none'] at hm
      rw [← hm]
      rfl
    | some p =>
      obtain ⟨val, ns⟩ := p
      rw [ht] at hm
      simp only [Option.map_some'] at hm
      rw [← hm]
      exact ih _ _ _ _ _

theorem Tree_minimax_fst :
    ∀ (fuel : Nat) (s : State) (depth alpha beta parentId : Int) (nodes : List Tree.LogNode),
      (Tree.minimax fuel s depth alpha beta parentId nodes).map Prod.fst
        = minimaxWith (fun t _ => M2.eval t) 1000000000 fuel s depth alpha beta := by
  intro fuel
  induction fuel with
  | zero => intro s depth alpha beta parentId nodes; rfl
  | succ n ih =>
    intro s depth alpha beta parentId nodes
    rw [Tree.minimax, minimaxWith]
    dsimp only
    generalize (nodes ++ [Tree.LogNode.mk (nodes.length : Int) parentId 0
      (Tree.DEPTH_LIMIT - depth) (if s.isMaxTurn = true then "MAX" else "MIN") ""]) = nodes1
    by_cases hbase : depth = 0 ∨ hasNoMoves s = true
    · rw [if_pos hbase, if_pos hbase]
      cases M2.eval s <;> rfl
    · rw [if_neg hbase, if_neg hbase]
      by_cases hemp : (generateAllMoves s).isEmpty = true
      · rw [if_pos hemp, if_pos hemp]
        cases M2.eval s <;> rfl
      · rw [if_neg hemp, if_neg hemp]
        by_cases hturn : s.isMaxTurn = true
        · rw [if_pos hturn, if_pos hturn]
          rw [← Tree_maxLoop_fst
            (fun child a b ns => Tree.minimax n child (depth - 1) a b (nodes.length : Int) ns)
            (fun child a b => minimaxWith (fun t _ => M2.eval t) 1000000000 n child
              (depth - 1) a b) s nodes.length (fun c a b ns => ih c (depth - 1) a b _ ns)
            (generateAllMoves s) (-1000000000) alpha beta nodes1]
          cases Tree.maxLoop _ s nodes.length (generateAllMoves s) (-1000000000) alpha beta
            nodes1 <;> rfl
        · rw [if_neg hturn, if_neg hturn]
          rw [← Tree_minLoop_fst
            (fun child a b ns => Tree.minimax n child (depth - 1) a b (nodes.length : Int) ns)
            (fun child a b => minimaxWith (fun t _ => M2.eval t) 1000000000 n child
              (depth - 1) a b) s nodes.length (fun c a b ns => ih c (depth - 1) a b _ ns)
            (generateAllMoves s) 1000000000 alpha beta nodes1]
          cases Tree.minLoop _ s nodes.length (generateAllMoves s) 1000000000 alpha beta
            nodes1 <;> rfl

theorem Tree_findBestMove_fst (s : State) (depth : Int) (tr : Tree.Trace) :
    (Tree.findBestMove s depth tr).map Prod.fst = M2.findBestMove s depth := by
  unfold Tree.findBestMove M2.findBestMove findBestMoveWith
  dsimp only
  rw [← Tree_bestLoop_fst
    (fun child a b ns => Tree.minimax searchFuel child (depth - 1) a b 0 ns)
    (fun child a b => minimaxWith (fun t _ => M2.eval t) 1000000000 searchFuel child
      (depth - 1) a b) s (fun c a b ns => Tree_minimax_fst searchFuel c (depth - 1) a b 0 ns)
    (generateAllMoves s) (Move.mk 0 0 0 0) (-1000000000) (-1000000000) 1000000000
    ([] ++ [Tree.LogNode.mk 0 (-1) 0 0 "ROOT" "Start"])]
  cases Tree.bestLoop _ s (generateAllMoves s) (Move.mk 0 0 0 0) (-1000000000) (-1000000000)
    1000000000 ([] ++ [Tree.LogNode.mk 0 (-1) 0 0 "ROOT" "Start"]) <;> rfl

/-- C19: the trace recorder only observes.  For every state, depth, window,
parent id and prior content of the node list, the value returned by the logging
`minimax` of `tree.cpp` is the value returned by `minimax` of `m2.cpp`; for
every prior content of both globals the move returned by the logging
`findBestMove` is the move returned by `findBestMove` of `m2.cpp`; and on a
well-formed state with depth `≥ 0` the logging `minimax` does return a value. -/
theorem trace_recorder_observes :
    (∀ (s : State) (depth alpha beta parentId : Int) (nodes : List Tree.LogNode),
      (Tree.minimax searchFuel s depth alpha beta parentId nodes).map Prod.fst
        = M2.minimax s depth alpha beta) ∧
    (∀ (s : State) (depth : Int) (tr : Tree.Trace),
      (Tree.findBestMove s depth tr).map Prod.fst = M2.findBestMove s depth) ∧
    (∀ (s : State) (depth alpha beta parentId : Int) (nodes : List Tree.LogNode),
      WellFormed s → 0 ≤ depth →
      ∃ v nodes2, Tree.minimax searchFuel s depth alpha beta parentId nodes = some (v, nodes2) ∧
        M2.minimax s depth alpha beta = some v) := by
  refine ⟨fun s depth alpha beta parentId nodes =>
    Tree_minimax_fst searchFuel s depth alpha beta parentId nodes,
    Tree_findBestMove_fst, ?_⟩
  intro s depth alpha beta parentId nodes hw hd
  obtain ⟨_, _, _, _, hab⟩ := M2_minimax_failSoft s depth hw hd
  obtain ⟨r, hr, _⟩ := hab alpha beta
  have h := Tree_minimax_fst searchFuel s depth alpha beta parentId nodes
  have hr2 : minimaxWith (fun t _ => M2.eval t) 1000000000 searchFuel s depth alpha beta
      = some r := hr
  rw [hr2] at h
  cases ht : Tree.minimax searchFuel s depth alpha beta parentId nodes with
  | none => rw [ht] at h; exact Option.noConfusion h
  | some p =>
    obtain ⟨v, ns⟩ := p
    rw [ht] at h
    simp only [Option.map_some', Option.some.injEq] at h
    exact ⟨v, ns, rfl, by rw [hr, h]⟩

theorem trace_recorder_observes_witness :
    WellFormed initialState ∧
    ∃ v nodes2, Tree.minimax searchFuel initialState 3 (-1000000000) 1000000000 0 []
        = some (v, nodes2) ∧
      M2.minimax initialState 3 (-1000000000) 1000000000 = some v :=
  ⟨by decide, trace_recorder_observes.2.2 initialState 3 (-1000000000) 1000000000 0 []
    (by decide) (by decide)⟩

/-! ## The distance scan and the territory term -/

theorem relaxNeighbours_eq_foldl (s : State) (cx cy cd : Int) (dist : Int → Int → Int)
    (q : List (Int × Int)) :
    M3.relaxNeighbours s cx cy cd dist q
      = (neighbours cx cy).foldl (M3.relaxStep s cd) (dist, q) := rfl

theorem not_self_mem_neighbours (c : Int × Int) : c ∉ neighbours c.1 c.2 := by
  intro h
  exact ((mem_neighbours c.1 c.2 c.1 c.2).1 h).2 rfl

theorem BfsInv.initial (s : State) (sx sy : Int) (hb : inBounds sx sy = true) :
    BfsInv s sx sy [(sx, sy)] (setCell (fun _ _ => (999 : Int)) sx sy 0) := by
  refine ⟨?_, ?_, ?_, ?_, ?_⟩
  · simp [setCell_apply]
  · intro i j
    simp only [setCell_apply]
    split_ifs <;> omega
  · intro i j hne h9
    simp only [setCell_apply, if_neg hne] at h9
    exact absurd rfl h9
  · intro c hc
    rw [List.mem_singleton] at hc
    rw [hc]
    exact hb
  · intro i j _ h9
    left
    by_cases hij : i = sx ∧ j = sy
    · rw [hij.1, hij.2]
      exact List.mem_singleton_self _
    · simp only [setCell_apply, if_neg hij] at h9
      exact absurd rfl h9

theorem setCell_le (dist : Int → Int → Int) (x y w : Int) (h : w ≤ dist x y) (i j : Int) :
    setCell dist x y w i j ≤ dist i j := by
  simp only [setCell_apply]
  split_ifs with hc
  · rw [hc.1, hc.2]; exact h
  · exact le_refl _

theorem BfsInv.update {s : State} {sx sy : Int} {c : Int × Int} {P : List (Int × Int)}
    {dist : Int → Int → Int} (h : BfsInv s sx sy (c :: P) dist) (n : Int × Int)
    (hn : n ∈ neighbours c.1 c.2) (hb : inBounds n.1 n.2 = true)
    (hnb : s.board n.1 n.2 ≠ BLOCKED) (hgt : dist n.1 n.2 > dist c.1 c.2 + 1) :
    BfsInv s sx sy (c :: (P ++ [n])) (setCell dist n.1 n.2 (dist c.1 c.2 + 1)) := by
  have hc0 := h.range c.1 c.2
  have hn0 := h.range n.1 n.2
  have hmono := setCell_le dist n.1 n.2 (dist c.1 c.2 + 1) (by omega)
  have hcn : ¬ (c.1 = n.1 ∧ c.2 = n.2) := by
    rintro ⟨e1, e2⟩
    have : c = n := Prod.ext e1 e2
    rw [← this] at hn
    exact not_self_mem_neighbours c hn
  have hcb : inBounds c.1 c.2 = true := h.queued c (List.mem_cons_self _ _)
  refine ⟨?_, ?_, ?_, ?_, ?_⟩
  · have hne : ¬ (sx = n.1 ∧ sy = n.2) := by
      rintro ⟨e1, e2⟩
      have := h.start
      rw [e1, e2] at this
      omega
    simp only [setCell_apply, if_neg hne]
    exact h.start
  · intro i j
    have := h.range i j
    simp only [setCell_apply]
    split_ifs <;> omega
  · intro i j hne h9
    by_cases hij : i = n.1 ∧ j = n.2
    · rw [hij.1, hij.2]
      refine ⟨hb, hnb, c, hn, hcb, ?_⟩
      simp only [setCell_apply, if_neg hcn, and_self, if_true]
      exact le_refl _
    · have e : setCell dist n.1 n.2 (dist c.1 c.2 + 1) i j = dist i j := by
        simp only [setCell_apply, if_neg hij]
      rw [e] at h9 ⊢
      obtain ⟨h1, h2, p, hp1, hp2, hp3⟩ := h.pred i j hne h9
      exact ⟨h1, h2, p, hp1, hp2, le_trans (by linarith [hmono p.1 p.2]) hp3⟩
  · intro x hx
    rcases List.mem_cons.1 hx with rfl | hx
    · exact hcb
    · rcases List.mem_append.1 hx with hx | hx
      · exact h.queued x (List.mem_cons_of_mem _ hx)
      · rw [List.mem_singleton] at hx
        rw [hx]; exact hb
  · intro i j hib h9
    by_cases hij : i = n.1 ∧ j = n.2
    · left
      rw [hij.1, hij.2]
      exact List.mem_cons_of_mem _ (List.mem_append_right _ (List.mem_singleton_self _))
    · have e : setCell dist n.1 n.2 (dist c.1 c.2 + 1) i j = dist i j := by
        simp only [setCell_apply, if_neg hij]
      rw [e] at h9 ⊢
      rcases h.relaxed i j hib h9 with hp | hr
      · left
        rcases List.mem_cons.1 hp with e1 | hp
        · rw [e1]; exact List.mem_cons_self _ _
        · exact List.mem_cons_of_mem _ (List.mem_append_left _ hp)
      · right
        intro m hm hmb hmnb
        exact le_trans (hmono m.1 m.2) (hr m hm hmb hmnb)

theorem BfsInv.pop {s : State} {sx sy : Int} {c : Int × Int} {P : List (Int × Int)}
    {dist : Int → Int → Int} (h : BfsInv s sx sy (c :: P) dist)
    (hr : ∀ n ∈ neighbours c.1 c.2, inBounds n.1 n.2 = true → s.board n.1 n.2 ≠ BLOCKED →
      dist n.1 n.2 ≤ dist c.1 c.2 + 1) :
    BfsInv s sx sy P dist := by
  refine ⟨h.start, h.range, h.pred, fun x hx => h.queued x (List.mem_cons_of_mem _ hx), ?_⟩
  intro i j hib h9
  rcases h.relaxed i j hib h9 with hp | hrel
  · rcases List.mem_cons.1 hp with e | hp
    · right
      have e1 : i = c.1 := congrArg Prod.fst e
      have e2 : j = c.2 := congrArg Prod.snd e
      rw [e1, e2]
      exact hr
    · exact Or.inl hp
  · exact Or.inr hrel

theorem relaxFold_inv (s : State) (sx sy : Int) (c : Int × Int) (cd : Int) :
    ∀ (ns : List (Int × Int)) (dist0 : Int → Int → Int) (q0 P : List (Int × Int)),
      (∀ n ∈ ns, n ∈ neighbours c.1 c.2) →
      BfsInv s sx sy (c :: P) dist0 → dist0 c.1 c.2 = cd →
      ∃ extra, (ns.foldl (M3.relaxStep s cd) (dist0, q0)).2 = q0 ++ extra ∧
        BfsInv s sx sy (c :: (P ++ extra)) (ns.foldl (M3.relaxStep s cd) (dist0, q0)).1 ∧
        (ns.foldl (M3.relaxStep s cd) (dist0, q0)).1 c.1 c.2 = cd ∧
        (∀ x y : Int, (ns.foldl (M3.relaxStep s cd) (dist0, q0)).1 x y ≤ dist0 x y) ∧
        (∀ n ∈ ns, inBounds n.1 n.2 = true → s.board n.1 n.2 ≠ BLOCKED →
          (ns.foldl (M3.relaxStep s cd) (dist0, q0)).1 n.1 n.2 ≤ cd + 1) := by
  intro ns
  induction ns with
  | nil =>
    intro dist0 q0 P _ hinv hcd
    refine ⟨[], by simp, by simpa using hinv, hcd, fun _ _ => le_refl _, ?_⟩
    intro n hn
    exact absurd hn (List.not_mem_nil _)
  | cons n t ih =>
    intro dist0 q0 P hns hinv hcd
    have hnn : n ∈ neighbours c.1 c.2 := hns n (List.mem_cons_self _ _)
    have hts : ∀ m ∈ t, m ∈ neighbours c.1 c.2 := fun m hm => hns m (List.mem_cons_of_mem _ hm)
    rw [List.foldl_cons]
    by_cases hupd : inBounds n.1 n.2 = true ∧ s.board n.1 n.2 ≠ BLOCKED ∧ dist0 n.1 n.2 > cd + 1
    · obtain ⟨hb, hnb, hgt⟩ := hupd
      have hstep : M3.relaxStep s cd (dist0, q0) n
          = (setCell dist0 n.1 n.2 (cd + 1), q0 ++ [n]) := by
        simp [M3.relaxStep, hb, hnb, hgt]
      rw [hstep]
      have hinv1 : BfsInv s sx sy (c :: (P ++ [n])) (setCell dist0 n.1 n.2 (cd + 1)) := by
        have := hinv.update n hnn hb hnb (by rw [hcd]; exact hgt)
        rw [hcd] at this
        exact this
      have hcn : ¬ (c.1 = n.1 ∧ c.2 = n.2) := by
        rintro ⟨e1, e2⟩
        have : c = n := Prod.ext e1 e2
        rw [← this] at hnn
        exact not_self_mem_neighbours c hnn
      have hcd1 : setCell dist0 n.1 n.2 (cd + 1) c.1 c.2 = cd := by
        simp only [setCell_apply, if_neg hcn]
        exact hcd
      obtain ⟨extra, e1, e2, e3, e4, e5⟩ := ih _ (q0 ++ [n]) (P ++ [n]) hts hinv1 hcd1
      have hmono := setCell_le dist0 n.1 n.2 (cd + 1) (by omega)
      refine ⟨n :: extra, ?_, ?_, e3, ?_, ?_⟩
      · rw [e1]; simp
      · have : P ++ n :: extra = P ++ [n] ++ extra := by simp
        rw [this]
        exact e2
      · intro x y
        exact le_trans (e4 x y) (hmono x y)
      · intro m hm hmb hmnb
        rcases List.mem_cons.1 hm with rfl | hm
        · refine le_trans (e4 m.1 m.2) ?_
          simp [setCell_apply]
        · exact e5 m hm hmb hmnb
    · have hstep : M3.relaxStep s cd (dist0, q0) n = (dist0, q0) := by
        unfold M3.relaxStep
        by_cases hb : inBounds n.1 n.2 = true
        · by_cases hnb : s.board n.1 n.2 = BLOCKED
          · simp [hb, hnb]
          · have : ¬ dist0 n.1 n.2 > cd + 1 := fun hgt => hupd ⟨hb, hnb, hgt⟩
            simp [hb, hnb, this]
        · simp [hb]
      rw [hstep]
      obtain ⟨extra, e1, e2, e3, e4, e5⟩ := ih dist0 q0 P hts hinv hcd
      refine ⟨extra, e1, e2, e3, e4, ?_⟩
      intro m hm hmb hmnb
      rcases List.mem_cons.1 hm with rfl | hm
      · have : ¬ dist0 m.1 m.2 > cd + 1 := fun hgt => hupd ⟨hmb, hmnb, hgt⟩
        have := e4 m.1 m.2
        omega
      · exact e5 m hm hmb hmnb

theorem bfsLoop_inv (s : State) (sx sy : Int) :
    ∀ (fuel : Nat) (q : List (Int × Int)) (head : Nat) (dist r : Int → Int → Int),
      BfsInv s sx sy (q.drop head) dist → M3.bfsLoop s fuel q head dist = some r →
      BfsInv s sx sy [] r := by
  intro fuel
  induction fuel with
  | zero =>
    intro q head dist r _ h
    exact Option.noConfusion h
  | succ n ih =>
    intro q head dist r hinv h
    unfold M3.bfsLoop at h
    cases hc : q[head]? with
    | none =>
      rw [hc] at h
      simp only [Option.some.injEq] at h
      rw [List.getElem?_eq_none_iff] at hc
      rw [List.drop_eq_nil_of_le hc] at hinv
      rw [← h]
      exact hinv
    | some c =>
      rw [hc] at h
      dsimp only at h
      obtain ⟨hlt, hget⟩ := List.getElem?_eq_some_iff.1 hc
      have hdrop : q.drop head = c :: q.drop (head + 1) := by
        rw [List.drop_eq_getElem_cons hlt, hget]
      rw [hdrop] at hinv
      rw [relaxNeighbours_eq_foldl] at h
      obtain ⟨extra, e1, e2, e3, _, e5⟩ := relaxFold_inv s sx sy c (dist c.1 c.2)
        (neighbours c.1 c.2) dist q (q.drop (head + 1)) (fun _ hn => hn) hinv rfl
      have hpop := e2.pop (by rw [e3]; exact e5)
      refine ih _ (head + 1) _ r ?_ h
      rw [e1, List.drop_append_of_le_length (by omega)]
      exact hpop

theorem bfsDistances_inv (s : State) (sx sy : Int) (hb : inBounds sx sy = true)
    (r : Int → Int → Int) (h : M3.bfsDistances s sx sy = some r) : BfsInv s sx sy [] r := by
  unfold M3.bfsDistances at h
  exact bfsLoop_inv s sx sy M3.bfsFuel [(sx, sy)] 0 _ r
    (by simpa using BfsInv.initial s sx sy hb) h

theorem cheb_le_dist {s : State} {sx sy : Int} {d : Int → Int → Int}
    (h : BfsInv s sx sy [] d) (hs : inBounds sx sy = true) :
    ∀ (k : Nat) (i j : Int), inBounds i j = true → d i j ≤ k → cheb (sx, sy) (i, j) ≤ d i j := by
  intro k
  induction k with
  | zero =>
    intro i j _ hk
    have hr := h.range i j
    by_cases hij : i = sx ∧ j = sy
    · rw [hij.1, hij.2, h.start]
      simp [cheb]
    · obtain ⟨_, _, p, _, _, hp⟩ := h.pred i j hij (by simp at hk; omega)
      have := h.range p.1 p.2
      simp at hk
      omega
  | succ n ih =>
    intro i j hb hk
    by_cases hij : i = sx ∧ j = sy
    · rw [hij.1, hij.2, h.start]
      simp [cheb]
    · by_cases h9 : d i j = 999
      · rw [h9]
        rw [inBounds_iff] at hb hs
        simp only [cheb, abs_eq_max_neg]
        omega
      · obtain ⟨_, _, p, hp1, hp2, hp3⟩ := h.pred i j hij h9
        have hpk : d p.1 p.2 ≤ (n : Int) := by push_cast at hk; omega
        have := ih p.1 p.2 hp2 hpk
        have hnb := (mem_neighbours p.1 p.2 i j).1 hp1
        simp only [cheb, abs_eq_max_neg] at this hnb ⊢
        omega

theorem dist_le_cheb {s : State} {sx sy : Int} {d : Int → Int → Int}
    (h : BfsInv s sx sy [] d) (hs : inBounds sx sy = true)
    (hnb : ∀ i j : Int, inBounds i j = true → s.board i j ≠ BLOCKED) :
    ∀ (k : Nat) (i j : Int), inBounds i j = true → cheb (sx, sy) (i, j) ≤ k →
      d i j ≤ cheb (sx, sy) (i, j) := by
  intro k
  induction k with
  | zero =>
    intro i j _ hk
    have hij : i = sx ∧ j = sy := by
      simp only [cheb, abs_eq_max_neg] at hk
      push_cast at hk
      omega
    rw [hij.1, hij.2, h.start]
    simp [cheb]
  | succ n ih =>
    intro i j hb hk
    by_cases hle : cheb (sx, sy) (i, j) ≤ (n : Int)
    · exact ih i j hb hle
    · have hb' := (inBounds_iff i j).1 hb
      have hs' := (inBounds_iff sx sy).1 hs
      have hpb : inBounds (if sx < i then i - 1 else if i < sx then i + 1 else i)
          (if sy < j then j - 1 else if j < sy then j + 1 else j) = true := by
        rw [inBounds_iff]
        split_ifs <;> omega
      have hpc : cheb (sx, sy) ((if sx < i then i - 1 else if i < sx then i + 1 else i),
          (if sy < j then j - 1 else if j < sy then j + 1 else j)) ≤ (n : Int) := by
        simp only [cheb, abs_eq_max_neg] at hk hle ⊢
        push_cast at hk
        split_ifs <;> omega
      have hpd := ih _ _ hpb hpc
      have hmem : (i, j) ∈ neighbours (if sx < i then i - 1 else if i < sx then i + 1 else i)
          (if sy < j then j - 1 else if j < sy then j + 1 else j) := by
        rw [mem_neighbours]
        simp only [cheb, abs_eq_max_neg, ne_eq, Prod.mk.injEq] at hk hle ⊢
        push_cast at hk
        split_ifs <;> omega
      have h9 : d (if sx < i then i - 1 else if i < sx then i + 1 else i)
          (if sy < j then j - 1 else if j < sy then j + 1 else j) ≠ 999 := by
        have : (n : Int) ≤ 6 := by
          simp only [cheb, abs_eq_max_neg] at hk hle
          push_cast at hk
          omega
        omega
      rcases h.relaxed _ _ hpb h9 with hp | hr
      · exact absurd hp (List.not_mem_nil _)
      · have := hr (i, j) hmem hb (hnb i j hb)
        simp only [cheb, abs_eq_max_neg] at hk hle hpc hpd this ⊢
        push_cast at hk
        omega

theorem bfsDistances_eq_cheb (s : State) (sx sy : Int) (hs : inBounds sx sy = true)
    (hnb : ∀ i j : Int, inBounds i j = true → s.board i j ≠ BLOCKED) :
    ∃ d, M3.bfsDistances s sx sy = some d ∧
      ∀ i j : Int, inBounds i j = true → d i j = cheb (sx, sy) (i, j) := by
  obtain ⟨d, hd⟩ := M3_bfsDistances_terminates s sx sy
  have hinv := bfsDistances_inv s sx sy hs d hd
  refine ⟨d, hd, fun i j hb => ?_⟩
  have hr := hinv.range i j
  have h1 := cheb_le_dist hinv hs (d i j).toNat i j hb (by omega)
  have hc6 : cheb (sx, sy) (i, j) ≤ 6 ∧ 0 ≤ cheb (sx, sy) (i, j) := by
    rw [inBounds_iff] at hb hs
    simp only [cheb, abs_eq_max_neg]
    omega
  have h2 := dist_le_cheb hinv hs hnb 6 i j hb (by push_cast; exact hc6.1)
  omega

theorem voronoi_foldl_eq_sum (s : State) (dA dH : Int → Int → Int) :
    ∀ (l : List (Int × Int)) (init : Int),
      l.foldl (fun score c =>
        if s.board c.1 c.2 = BLOCKED then score
        else if dA c.1 c.2 = 999 ∧ dH c.1 c.2 = 999 then score
        else if dA c.1 c.2 < dH c.1 c.2 then score + 1
        else if dH c.1 c.2 < dA c.1 c.2 then score - 1
        else score) init = init + (l.map (voronoiTerm s dA dH)).sum := by
  intro l
  induction l with
  | nil => intro init; simp
  | cons c t ih =>
    intro init
    rw [List.foldl_cons, ih, List.map_cons, List.sum_cons]
    unfold voronoiTerm
    split_ifs <;> omega

theorem mirror_allCells : allCells.map mirror = allCells.reverse := by decide

theorem sum_map_neg_int (f : Int × Int → Int) (l : List (Int × Int)) :
    (l.map (fun c => - f c)).sum = - (l.map f).sum := by
  induction l with
  | nil => simp
  | cons c t ih =>
    rw [List.map_cons, List.sum_cons, ih, List.map_cons, List.sum_cons]
    omega

theorem sum_antisymmetric (f : Int × Int → Int)
    (h : ∀ c ∈ allCells, f (mirror c) = - f c) : (allCells.map f).sum = 0 := by
  have h1 : ((allCells.map mirror).map f).sum = (allCells.map f).sum := by
    rw [mirror_allCells, List.map_reverse, List.sum_reverse]
  have h2 : (allCells.map mirror).map f = allCells.map (fun c => - f c) := by
    rw [List.map_map]
    apply List.map_congr_left
    intro c hc
    exact h c hc
  rw [h2, sum_map_neg_int] at h1
  omega

theorem mirror_inBounds (c : Int × Int) (h : inBounds c.1 c.2 = true) :
    inBounds (mirror c).1 (mirror c).2 = true := by
  rw [inBounds_iff] at h ⊢
  simp only [mirror, N]
  omega

theorem cheb_mirror (p q : Int × Int) : cheb (mirror p) q = cheb p (mirror q) := by
  simp only [cheb, mirror, N, abs_eq_max_neg]
  omega

theorem mirror_mirror (p : Int × Int) : mirror (mirror p) = p := by
  simp only [mirror, N]
  ext <;> simp

theorem cheb_bounds (p q : Int × Int) (hp : inBounds p.1 p.2 = true)
    (hq : inBounds q.1 q.2 = true) : 0 ≤ cheb p q ∧ cheb p q ≤ 6 := by
  rw [inBounds_iff] at hp hq
  simp only [cheb, abs_eq_max_neg]
  omega

theorem calculateVoronoi_mirror (s : State)
    (hnb : ∀ i j : Int, inBounds i j = true → s.board i j ≠ BLOCKED)
    (hai : inBounds s.aiX s.aiY = true)
    (hsym : (s.huX, s.huY) = mirror (s.aiX, s.aiY)) :
    M3.calculateVoronoi s = some 0 := by
  have hhu : inBounds s.huX s.huY = true := by
    have := mirror_inBounds (s.aiX, s.aiY) hai
    rw [← hsym] at this
    exact this
  obtain ⟨dA, hA, eA⟩ := bfsDistances_eq_cheb s s.aiX s.aiY hai hnb
  obtain ⟨dH, hH, eH⟩ := bfsDistances_eq_cheb s s.huX s.huY hhu hnb
  have hsum : (allCells.map (voronoiTerm s dA dH)).sum = 0 := by
    apply sum_antisymmetric
    rintro ⟨i, j⟩ hc
    have hb := (mem_allCells i j).1 hc
    have hmb := mirror_inBounds (i, j) hb
    have n1 := hnb i j hb
    have n2 := hnb _ _ hmb
    have a3 : dA (mirror (i, j)).1 (mirror (i, j)).2 = dH i j := by
      rw [eA _ _ hmb, eH i j hb, hsym, cheb_mirror]
    have a4 : dH (mirror (i, j)).1 (mirror (i, j)).2 = dA i j := by
      rw [eH _ _ hmb, eA i j hb, hsym, cheb_mirror]
      show cheb (s.aiX, s.aiY) (mirror (mirror (i, j))) = cheb (s.aiX, s.aiY) (i, j)
      rw [mirror_mirror]
    have b1 := cheb_bounds (s.aiX, s.aiY) (i, j) hai hb
    have b2 := cheb_bounds (s.huX, s.huY) (i, j) hhu hb
    rw [← eA i j hb] at b1
    rw [← eH i j hb] at b2
    unfold voronoiTerm
    rw [if_neg n1, if_neg n2, a3, a4]
    generalize dA i j = a at b1 ⊢
    generalize dH i j = b at b2 ⊢
    split_ifs <;> omega
  have hfold := voronoi_foldl_eq_sum s dA dH allCells 0
  rw [hsum] at hfold
  simp only [M3.calculateVoronoi, hA, hH, Option.bind_eq_bind, Option.some_bind,
    Option.pure_def]
  rw [hfold]
  rfl

theorem initializeGame_not_blocked (s0 : State) (i j : Int) :
    (initializeGame s0).board i j ≠ BLOCKED := by
  rw [initializeGame_eq]
  simp only [setCell_apply, AI_PAWN, HU_PAWN, EMPTY, BLOCKED]
  split_ifs <;> decide

/-- C13: on a state with no `BLOCKED` cell whose pawns stand on distinct cells
that are point-symmetric about the centre of the grid, `(x, y)` and
`(6 - x, 6 - y)`, `calculateVoronoi` returns 0; the initial position is such a
state. -/
theorem calculateVoronoi_symmetric :
    (∀ s : State, (∀ c ∈ allCells, s.board c.1 c.2 ≠ BLOCKED) →
      inBounds s.aiX s.aiY = true → (s.huX, s.huY) = (6 - s.aiX, 6 - s.aiY) →
      (s.aiX, s.aiY) ≠ (s.huX, s.huY) → M3.calculateVoronoi s = some 0) ∧
    (∀ s0 : State,
      (∀ c ∈ allCells, (initializeGame s0).board c.1 c.2 ≠ BLOCKED) ∧
      inBounds (initializeGame s0).aiX (initializeGame s0).aiY = true ∧
      ((initializeGame s0).huX, (initializeGame s0).huY)
        = (6 - (initializeGame s0).aiX, 6 - (initializeGame s0).aiY) ∧
      ((initializeGame s0).aiX, (initializeGame s0).aiY)
        ≠ ((initializeGame s0).huX, (initializeGame s0).huY) ∧
      M3.calculateVoronoi (initializeGame s0) = some 0) := by
  have key : ∀ s : State, (∀ c ∈ allCells, s.board c.1 c.2 ≠ BLOCKED) →
      inBounds s.aiX s.aiY = true → (s.huX, s.huY) = (6 - s.aiX, 6 - s.aiY) →
      M3.calculateVoronoi s = some 0 := by
    intro s hnb hai hsym
    refine calculateVoronoi_mirror s (fun i j hb => hnb (i, j) ((mem_allCells i j).2 hb)) hai ?_
    rw [hsym]
    simp [mirror, N]
  refine ⟨fun s hnb hai hsym _ => key s hnb hai hsym, fun s0 => ?_⟩
  have h1 : ∀ c ∈ allCells, (initializeGame s0).board c.1 c.2 ≠ BLOCKED :=
    fun c _ => initializeGame_not_blocked s0 c.1 c.2
  have h2 : inBounds (initializeGame s0).aiX (initializeGame s0).aiY = true := by
    rw [initializeGame_eq]; decide
  have h3 : ((initializeGame s0).huX, (initializeGame s0).huY)
      = (6 - (initializeGame s0).aiX, 6 - (initializeGame s0).aiY) := by
    rw [initializeGame_eq]; decide
  have h4 : ((initializeGame s0).aiX, (initializeGame s0).aiY)
      ≠ ((initializeGame s0).huX, (initializeGame s0).huY) := by
    rw [initializeGame_eq]; decide
  exact ⟨h1, h2, h3, h4, key _ h1 h2 h3⟩

theorem calculateVoronoi_symmetric_witness :
    (∀ c ∈ allCells, initialState.board c.1 c.2 ≠ BLOCKED) ∧
    M3.calculateVoronoi initialState = some 0 :=
  ⟨by decide, calculateVoronoi_symmetric.1 initialState (by decide) (by decide) (by decide)
    (by decide)⟩

/-! ## The defensive fallback of the search -/

theorem hasNoMoves_iff_nil (s : State) : hasNoMoves s = true ↔ getLegalStepMoves s = [] := by
  unfold hasNoMoves
  exact List.isEmpty_iff

theorem generateAllMoves_of_hasNoMoves (s : State) (ht : hasNoMoves s = true) :
    generateAllMoves s = [] := by
  have h := (hasNoMoves_iff_nil s).1 ht
  simp [generateAllMoves, h]

theorem vacated_move_mem {s : State} (h : WellFormed s) {p : Int × Int}
    (hp : p ∈ getLegalStepMoves s) :
    (applyStepMove s p.1 p.2).board (getCurrentPlayerPos s).1 (getCurrentPlayerPos s).2 = EMPTY ∧
    Move.mk p.1 p.2 (getCurrentPlayerPos s).1 (getCurrentPlayerPos s).2 ∈ generateAllMoves s := by
  have hne : (p.1, p.2) ≠ getCurrentPlayerPos s := ((mem_getLegalStepMoves s p.1 p.2).1 hp).2.2.1
  have he := vacated_empty_after_step s p.1 p.2 hne
  exact ⟨he, (mem_generateAllMoves s _).2 ⟨hp, h.cur_inBounds, he⟩⟩

/-- C21: on a well-formed state a legal step always yields a generated move, because
the cell the mover vacates is `EMPTY` after the step and is offered as barrier
target; so `hasNoMoves` holds exactly when `generateAllMoves` is empty, and the
`moves.empty()` fallback of `minimax` is never taken: past the base case the
search always enters the MAX or the MIN loop. -/
theorem fallback_unreachable (s : State) (h : WellFormed s) :
    (getLegalStepMoves s ≠ [] → generateAllMoves s ≠ []) ∧
    (∀ p ∈ getLegalStepMoves s,
      (applyStepMove s p.1 p.2).board (getCurrentPlayerPos s).1 (getCurrentPlayerPos s).2
        = EMPTY ∧
      Move.mk p.1 p.2 (getCurrentPlayerPos s).1 (getCurrentPlayerPos s).2
        ∈ generateAllMoves s) ∧
    (hasNoMoves s = true ↔ generateAllMoves s = []) ∧
    (hasNoMoves s = false → (generateAllMoves s).isEmpty = false) ∧
    (∀ (evalFn : State → Int → Option Int) (inf : Int) (fuel : Nat) (depth alpha beta : Int),
      depth ≠ 0 → hasNoMoves s = false →
      minimaxWith evalFn inf (fuel + 1) s depth alpha beta =
        if s.isMaxTurn then
          maxLoop (fun child a b => minimaxWith evalFn inf fuel child (depth - 1) a b)
            s (generateAllMoves s) (-inf) alpha beta
        else
          minLoop (fun child a b => minimaxWith evalFn inf fuel child (depth - 1) a b)
            s (generateAllMoves s) inf alpha beta) := by
  have hstep : getLegalStepMoves s ≠ [] → generateAllMoves s ≠ [] := by
    intro hne hnil
    obtain ⟨p, hp⟩ := List.exists_mem_of_ne_nil _ hne
    have := (vacated_move_mem h hp).2
    rw [hnil] at this
    exact List.not_mem_nil _ this
  have hiff : hasNoMoves s = true ↔ generateAllMoves s = [] := by
    constructor
    · exact generateAllMoves_of_hasNoMoves s
    · intro hnil
      by_contra hc
      exact hstep (fun hn => hc ((hasNoMoves_iff_nil s).2 hn)) hnil
  have hempty : hasNoMoves s = false → (generateAllMoves s).isEmpty = false := by
    intro hnt
    cases hg : generateAllMoves s with
    | nil => rw [hiff.2 hg] at hnt; exact absurd hnt (by decide)
    | cons m ms => rfl
  refine ⟨hstep, fun p hp => vacated_move_mem h hp, hiff, hempty, ?_⟩
  intro evalFn inf fuel depth alpha beta hd hnt
  rw [minimaxWith]
  have hcond : ¬ (depth = 0 ∨ hasNoMoves s = true) := by
    rintro (h0 | h1)
    · exact hd h0
    · rw [hnt] at h1; exact absurd h1 (by decide)
  rw [if_neg hcond]
  simp only [hempty hnt, Bool.false_eq_true, if_false]

theorem fallback_unreachable_witness :
    WellFormed initialState ∧
    (hasNoMoves initialState = true ↔ generateAllMoves initialState = []) :=
  ⟨by decide, (fallback_unreachable initialState (by decide)).2.2.1⟩

/-! ## Root move selection on a terminal state -/

/-- C26: on a terminal state `generateAllMoves` is empty, and `findBestMove` of
`m2.cpp`, `m3.cpp` and `tree.cpp` returns, at every depth, the value-initialised
move `(0,0,0,0)`, which is not a generated move. -/
theorem findBestMove_terminal (s : State) (depth : Int) (ht : hasNoMoves s = true) :
    generateAllMoves s = [] ∧
    M2.findBestMove s depth = some (Move.mk 0 0 0 0) ∧
    (∀ turns : Int, M3.findBestMove s depth turns = some (Move.mk 0 0 0 0)) ∧
    (∀ tr : Tree.Trace, (Tree.findBestMove s depth tr).map Prod.fst = some (Move.mk 0 0 0 0)) ∧
    Move.mk 0 0 0 0 ∉ generateAllMoves s := by
  have hg := generateAllMoves_of_hasNoMoves s ht
  refine ⟨hg, ?_, ?_, ?_, ?_⟩
  · simp only [M2.findBestMove, findBestMoveWith, hg, bestLoop]
  · intro turns
    simp only [M3.findBestMove, findBestMoveWith, hg, bestLoop]
  · intro tr
    simp only [Tree.findBestMove, hg, Tree.bestLoop, Option.map]
  · rw [hg]
    exact List.not_mem_nil _

theorem findBestMove_terminal_witness :
    hasNoMoves trappedState = true ∧
    M2.findBestMove trappedState 3 = some (Move.mk 0 0 0 0) :=
  ⟨by decide, (findBestMove_terminal trappedState 3 (by decide)).2.1⟩

/-! ## Unvalidated moves -/

/-- C23: `applyMove` does not validate.  From the initial position (MIN to move,
MIN on `(6,3)`, MAX on `(0,3)`) the move that steps onto the opponent's cell
`(0,3)` is not generated, yet `applyMove` returns a state with the turn flipped
in which the stored MAX coordinate `(0,3)` holds the MIN pawn, so the state is no
longer well-formed; and for the move `(5,3,5,3)`, whose barrier target is the
cell just occupied, `placeBarrier` fails, its flag is dropped, the turn is still
flipped and no barrier is added. -/
theorem applyMove_does_not_validate :
    WellFormed initialState ∧
    Move.mk 0 3 3 3 ∉ generateAllMoves initialState ∧
    (applyMove initialState (Move.mk 0 3 3 3)).isMaxTurn = !initialState.isMaxTurn ∧
    ((applyMove initialState (Move.mk 0 3 3 3)).aiX,
      (applyMove initialState (Move.mk 0 3 3 3)).aiY) = (0, 3) ∧
    (applyMove initialState (Move.mk 0 3 3 3)).board 0 3 = HU_PAWN ∧
    ¬ WellFormed (applyMove initialState (Move.mk 0 3 3 3)) ∧
    Move.mk 5 3 5 3 ∉ generateAllMoves initialState ∧
    (placeBarrier (applyStepMove initialState 5 3) 5 3).1 = false ∧
    (applyMove initialState (Move.mk 5 3 5 3)).isMaxTurn = !initialState.isMaxTurn ∧
    countCells (applyMove initialState (Move.mk 5 3 5 3)).board BLOCKED
      = countCells initialState.board BLOCKED := by
  decide

/-! ## The fail-soft bound property -/

set_option maxRecDepth 100000 in
/-- C24 (counterexample): in `m3.cpp` the fail-soft property fails once terminal
scores pass the sentinel `2000000000`.  In the corridor position with MIN to move,
at depth `1000000003` the unpruned value is `2000000001`, inside the window
`(2000000000, 2000000002)`, but the windowed search returns `2000000000`. -/
theorem M3_minimax_not_fail_soft :
    WellFormed corridorMinState ∧ (0 : Int) ≤ 1000000003 ∧
    (2000000000 : Int) < 2000000002 ∧
    M3.plain corridorMinState 1000000003 initialTurns = some 2000000001 ∧
    M3.minimax corridorMinState 1000000003 2000000000 2000000002 initialTurns
      = some 2000000000 ∧
    ¬ ((2000000000 : Int) ≤ 2000000000 → (2000000001 : Int) ≤ 2000000000) := by
  decide

/-- C24 (amended): fail-soft alpha-beta bound property.  For a well-formed state,
a depth `≥ 0` (and `≤ 10^9` in `m3.cpp`) and a window `alpha < beta`, with `v` the
unpruned minimax value and `r` the result of the windowed search: `r` strictly
inside the window is exact, `r ≤ alpha` is an upper bound of `v`, `r ≥ beta` is a
lower bound of `v`; and if `alpha < v < beta` then `r = v`. -/
theorem minimax_fail_soft (s : State) (depth alpha beta : Int) (h : WellFormed s)
    (hd : 0 ≤ depth) (hab : alpha < beta) :
    (∃ v r, M2.plain s depth = some v ∧ M2.minimax s depth alpha beta = some r ∧
      (alpha < r → r < beta → r = v) ∧ (r ≤ alpha → v ≤ r) ∧ (beta ≤ r → r ≤ v) ∧
      (alpha < v → v < beta → r = v)) ∧
    (∀ turns : Int, depth ≤ 1000000000 →
      ∃ v r, M3.plain s depth turns = some v ∧
        M3.minimax s depth alpha beta turns = some r ∧
        (alpha < r → r < beta → r = v) ∧ (r ≤ alpha → v ≤ r) ∧ (beta ≤ r → r ≤ v) ∧
        (alpha < v → v < beta → r = v)) := by
  constructor
  · obtain ⟨v, hv, _, _, hall⟩ := M2_minimax_failSoft s depth h hd
    obtain ⟨r, hr, _, _, hfs⟩ := hall alpha beta
    obtain ⟨h1, h2, h3⟩ := hfs hab
    refine ⟨v, r, hv, hr, h3, h1, h2, ?_⟩
    intro ha hb
    by_cases c1 : r ≤ alpha
    · have := h1 c1; omega
    · by_cases c2 : beta ≤ r
      · have := h2 c2; omega
      · exact h3 (by omega) (by omega)
  · intro turns hD
    obtain ⟨v, hv, _, _, hall⟩ := M3_minimax_failSoft s depth turns h hd hD
    obtain ⟨r, hr, _, _, hfs⟩ := hall alpha beta
    obtain ⟨h1, h2, h3⟩ := hfs hab
    refine ⟨v, r, hv, hr, h3, h1, h2, ?_⟩
    intro ha hb
    by_cases c1 : r ≤ alpha
    · have := h1 c1; omega
    · by_cases c2 : beta ≤ r
      · have := h2 c2; omega
      · exact h3 (by omega) (by omega)

theorem minimax_fail_soft_witness :
    WellFormed initialState ∧ (0 : Int) ≤ 3 ∧ (-5 : Int) < 5 ∧
    ∃ v r, M2.plain initialState 3 = some v ∧ M2.minimax initialState 3 (-5) 5 = some r ∧
      (-5 < r → r < 5 → r = v) ∧ (r ≤ -5 → v ≤ r) ∧ (5 ≤ r → r ≤ v) ∧
      (-5 < v → v < 5 → r = v) :=
  ⟨by decide, by decide, by decide,
    (minimax_fail_soft initialState 3 (-5) 5 (by decide) (by decide) (by decide)).1⟩

/-! ## Termination of the search -/

theorem maxLoop_total (search : State → Int → Int → Option Int) (s : State) :
    ∀ (ms : List Move) (best alpha beta : Int),
      (∀ m ∈ ms, ∀ a b : Int, ∃ r, search (applyMove s m) a b = some r) →
      ∃ R, maxLoop search s ms best alpha beta = some R := by
  intro ms
  induction ms with
  | nil => intro best alpha beta _; exact ⟨best, rfl⟩
  | cons m ms ih =>
    intro best alpha beta hs
    obtain ⟨r, hr⟩ := hs m (List.mem_cons_self _ _) alpha beta
    simp only [maxLoop, hr]
    by_cases hc : beta ≤ max alpha r
    · rw [if_pos hc]; exact ⟨_, rfl⟩
    · rw [if_neg hc]
      exact ih _ _ _ (fun x hx => hs x (List.mem_cons_of_mem _ hx))

theorem minLoop_total (search : State → Int → Int → Option Int) (s : State) :
    ∀ (ms : List Move) (best alpha beta : Int),
      (∀ m ∈ ms, ∀ a b : Int, ∃ r, search (applyMove s m) a b = some r) →
      ∃ R, minLoop search s ms best alpha beta = some R := by
  intro ms
  induction ms with
  | nil => intro best alpha beta _; exact ⟨best, rfl⟩
  | cons m ms ih =>
    intro best alpha beta hs
    obtain ⟨r, hr⟩ := hs m (List.mem_cons_self _ _) alpha beta
    simp only [minLoop, hr]
    by_cases hc : min beta r ≤ alpha
    · rw [if_pos hc]; exact ⟨_, rfl⟩
    · rw [if_neg hc]
      exact ih _ _ _ (fun x hx => hs x (List.mem_cons_of_mem _ hx))

theorem bestLoop_total (search : State → Int → Int → Option Int) (s : State) :
    ∀ (ms : List Move) (best : Move) (bestVal alpha beta : Int),
      (∀ m ∈ ms, ∀ a b : Int, ∃ r, search (applyMove s m) a b = some r) →
      ∃ R, bestLoop search s ms best bestVal alpha beta = some R := by
  intro ms
  induction ms with
  | nil => intro best bestVal alpha beta _; exact ⟨best, rfl⟩
  | cons m ms ih =>
    intro best bestVal alpha beta hs
    obtain ⟨r, hr⟩ := hs m (List.mem_cons_self _ _) alpha beta
    simp only [bestLoop, hr]
    exact ih _ _ _ _ (fun x hx => hs x (List.mem_cons_of_mem _ hx))

/-- The search returns a value at every integer depth when the evaluator does and
the fuel covers the barriers that still fit on the board. -/
theorem minimaxWith_total (evalFn : State → Int → Option Int) (inf : Int)
    (hE : ∀ (s : State) (d : Int), WellFormed s → ∃ v, evalFn s d = some v) :
    ∀ (fuel : Nat) (s : State) (depth alpha beta : Int), WellFormed s →
      47 < countCells s.board BLOCKED + fuel →
      ∃ r, minimaxWith evalFn inf fuel s depth alpha beta = some r := by
  intro fuel
  induction fuel with
  | zero =>
    intro s depth alpha beta h hf
    have := countBlocked_le h
    omega
  | succ fuel ih =>
    intro s depth alpha beta h hf
    rw [minimaxWith]
    by_cases hc : depth = 0 ∨ hasNoMoves s = true
    · rw [if_pos hc]; exact hE s depth h
    · rw [if_neg hc]
      dsimp only
      by_cases he : (generateAllMoves s).isEmpty = true
      · rw [if_pos he]; exact hE s depth h
      · rw [if_neg he]
        have hch : ∀ m ∈ generateAllMoves s, ∀ a b : Int,
            ∃ r, minimaxWith evalFn inf fuel (applyMove s m) (depth - 1) a b = some r := by
          intro m hm a b
          apply ih _ _ _ _ (wellFormed_applyMove h hm)
          rw [countBlocked_applyMove h hm]
          omega
        by_cases ht : s.isMaxTurn = true
        · rw [if_pos ht]; exact maxLoop_total _ s _ _ _ _ hch
        · rw [if_neg ht]; exact minLoop_total _ s _ _ _ _ hch

theorem M2_eval_total (s : State) (h : WellFormed s) : ∃ v, M2.eval s = some v := by
  cases ht : hasNoMoves s with
  | true =>
    simp only [M2.eval, ht, if_true]
    exact ⟨_, rfl⟩
  | false =>
    obtain ⟨v, hv, _⟩ := M2_eval_nonterminal s h ht
    exact ⟨v, hv⟩

theorem M3_eval_total (s : State) (d turns : Int) (h : WellFormed s) :
    ∃ v, M3.eval s d turns = some v := by
  cases ht : hasNoMoves s with
  | true =>
    by_cases hm : s.isMaxTurn = true
    · simp only [M3.eval, ht, if_true, hm]
      exact ⟨_, rfl⟩
    · simp only [M3.eval, ht, if_true, hm, Bool.false_eq_true, if_false]
      exact ⟨_, rfl⟩
  | false =>
    obtain ⟨v, hv, _⟩ := M3_eval_nonterminal s d turns h ht
    exact ⟨v, hv⟩

theorem cellsValid_applyMove {s : State} (_h : WellFormed s) (hv : CellsValid s) {m : Move}
    (hm : m ∈ generateAllMoves s) : CellsValid (applyMove s m) := by
  intro c hc
  rw [applyMove_board_of_mem s m hm]
  simp only [setCell_apply]
  by_cases h1 : c.1 = m.removeX ∧ c.2 = m.removeY
  · rw [if_pos h1]; right; right; right; rfl
  · rw [if_neg h1]
    by_cases h2 : c.1 = m.moveX ∧ c.2 = m.moveY
    · rw [if_pos h2]
      cases s.isMaxTurn
      · right; right; left; rfl
      · right; left; rfl
    · rw [if_neg h2]
      by_cases h3 : c.1 = (getCurrentPlayerPos s).1 ∧ c.2 = (getCurrentPlayerPos s).2
      · rw [if_pos h3]; left; rfl
      · rw [if_neg h3]; exact hv c hc

theorem countEmpty_applyMove {s : State} (h : WellFormed s) (hv : CellsValid s) {m : Move}
    (hm : m ∈ generateAllMoves s) :
    countCells (applyMove s m).board EMPTY + 1 = countCells s.board EMPTY := by
  obtain ⟨hstep, hb, he⟩ := (mem_generateAllMoves s m).1 hm
  have h1 := countEmpty_applyStepMove h hv hstep
  have hbd : (applyMove s m).board
      = setCell (applyStepMove s m.moveX m.moveY).board m.removeX m.removeY BLOCKED := by
    simp only [applyMove, placeBarrier_of_empty _ _ _ hb he]
  rw [hbd]
  have h2 := countCells_setCell (applyStepMove s m.moveX m.moveY).board m.removeX m.removeY
    BLOCKED EMPTY hb
  rw [if_pos he, if_neg (by decide)] at h2
  simp only at h1
  omega

theorem chain_length_le :
    ∀ (l : List State) (s : State), WellFormed s → CellsValid s → List.Chain Step s l →
      l.length ≤ countCells s.board EMPTY := by
  intro l
  induction l with
  | nil => intro s _ _ _; exact Nat.zero_le _
  | cons t l ih =>
    intro s h hv hc
    rw [List.chain_cons] at hc
    obtain ⟨⟨m, hm, rfl⟩, hrest⟩ := hc
    have := ih _ (wellFormed_applyMove h hm) (cellsValid_applyMove h hv hm) hrest
    have := countEmpty_applyMove h hv hm
    simp only [List.length_cons]
    omega

/-- C25: on a well-formed state `minimax` of `m2.cpp` and of `m3.cpp` returns a
value for every integer depth, negative ones included, and so does `findBestMove`
(at depth 0 it searches the children at depth `-1`).  Each child made by
`applyMove` from a generated move has exactly one `EMPTY` cell fewer than its
parent (cells ranging over the four cell states), so a line of play from a state with
`e` empty cells has at most `e` plies. -/
theorem minimax_terminates (s : State) (h : WellFormed s) :
    (∀ depth alpha beta : Int, ∃ r, M2.minimax s depth alpha beta = some r) ∧
    (∀ depth alpha beta turns : Int, ∃ r, M3.minimax s depth alpha beta turns = some r) ∧
    (∀ depth : Int, ∃ m, M2.findBestMove s depth = some m) ∧
    (∀ depth turns : Int, ∃ m, M3.findBestMove s depth turns = some m) ∧
    (CellsValid s → ∀ m ∈ generateAllMoves s, CellsValid (applyMove s m) ∧
      countCells (applyMove s m).board EMPTY + 1 = countCells s.board EMPTY) ∧
    (CellsValid s → ∀ l : List State, List.Chain Step s l →
      l.length ≤ countCells s.board EMPTY) := by
  have e2 : ∀ (t : State) (d : Int), WellFormed t → ∃ v, (fun u (_ : Int) => M2.eval u) t d = some v :=
    fun t _ ht => M2_eval_total t ht
  have e3 : ∀ turns : Int, ∀ (t : State) (d : Int), WellFormed t →
      ∃ v, (fun u e => M3.eval u e turns) t d = some v :=
    fun turns t d ht => M3_eval_total t d turns ht
  refine ⟨?_, ?_, ?_, ?_, ?_, ?_⟩
  · intro depth alpha beta
    exact minimaxWith_total _ _ e2 searchFuel s depth alpha beta h (searchFuel_enough s)
  · intro depth alpha beta turns
    exact minimaxWith_total _ _ (e3 turns) searchFuel s depth alpha beta h (searchFuel_enough s)
  · intro depth
    apply bestLoop_total
    intro m hm a b
    exact minimaxWith_total _ _ e2 searchFuel _ _ a b (wellFormed_applyMove h hm)
      (searchFuel_enough _)
  · intro depth turns
    apply bestLoop_total
    intro m hm a b
    exact minimaxWith_total _ _ (e3 turns) searchFuel _ _ a b (wellFormed_applyMove h hm)
      (searchFuel_enough _)
  · intro hv m hm
    exact ⟨cellsValid_applyMove h hv hm, countEmpty_applyMove h hv hm⟩
  · intro hv l hl
    exact chain_length_le l s h hv hl

theorem minimax_terminates_witness :
    WellFormed initialState ∧ ∃ r, M2.minimax initialState (-1) (-5) 5 = some r :=
  ⟨by decide, (minimax_terminates initialState (by decide)).1 (-1) (-5) 5⟩

/-! ## The normalising constants -/

theorem length_allCells : allCells.length = 49 := by decide

theorem mem_window (x y i j : Int) :
    (i, j) ∈ window x y ↔ (|i - x| ≤ 2 ∧ |j - y| ≤ 2) := by
  simp only [window, offsets2, List.mem_flatMap, List.mem_map, List.mem_cons,
    List.mem_singleton, List.not_mem_nil, or_false, Prod.mk.injEq, abs_eq_max_neg]
  constructor
  · rintro ⟨a, ha, b, hb, h1, h2⟩
    omega
  · intro h
    exact ⟨i - x, by omega, j - y, by omega, by omega, by omega⟩

theorem length_window (x y : Int) : (window x y).length = 25 := rfl

theorem LocalInv.length_le {sx sy : Int} {q : List M3.Node} {vis : Int → Int → Bool}
    (h : LocalInv sx sy 2 q vis) : q.length ≤ 25 := by
  have hsub : q.map (fun n => (n.x, n.y)) ⊆ window sx sy := by
    intro c hc
    rw [List.mem_map] at hc
    obtain ⟨n, hn, rfl⟩ := hc
    obtain ⟨h1, h2⟩ := h.near n hn
    rw [mem_window]
    simp only [cheb, abs_eq_max_neg] at h2
    simp only [abs_eq_max_neg]
    omega
  have := (List.Nodup.subperm h.nodup hsub).length_le
  rw [List.length_map, length_window] at this
  exact this

theorem spreadFold_inv (s : State) (sx sy maxDist : Int) (n : M3.Node)
    (hn1 : n.dist < maxDist) (hn2 : cheb (sx, sy) (n.x, n.y) ≤ n.dist) :
    ∀ (ns : List (Int × Int)) (vis : Int → Int → Bool) (q : List M3.Node),
      (∀ c ∈ ns, c ∈ neighbours n.x n.y) → LocalInv sx sy maxDist q vis →
      ∃ ext, (ns.foldl (fun acc c =>
          if !inBounds c.1 c.2 then acc
          else if acc.1 c.1 c.2 then acc
          else if s.board c.1 c.2 = BLOCKED then acc
          else (setCell acc.1 c.1 c.2 true, acc.2 ++ [M3.Node.mk c.1 c.2 (n.dist + 1)]))
          (vis, q)).2 = q ++ ext ∧
        LocalInv sx sy maxDist (q ++ ext) (ns.foldl (fun acc c =>
          if !inBounds c.1 c.2 then acc
          else if acc.1 c.1 c.2 then acc
          else if s.board c.1 c.2 = BLOCKED then acc
          else (setCell acc.1 c.1 c.2 true, acc.2 ++ [M3.Node.mk c.1 c.2 (n.dist + 1)]))
          (vis, q)).1 := by
  intro ns
  induction ns with
  | nil =>
    intro vis q _ hinv
    exact ⟨[], by simp, by simpa using hinv⟩
  | cons c ns ih =>
    intro vis q hsub hinv
    have hrest : ∀ c2 ∈ ns, c2 ∈ neighbours n.x n.y :=
      fun c2 h2 => hsub c2 (List.mem_cons_of_mem _ h2)
    rw [List.foldl_cons]
    by_cases h1 : inBounds c.1 c.2 = true
    · by_cases h2 : vis c.1 c.2 = true
      · simp only [h1, h2, Bool.not_true, Bool.false_eq_true, if_false, if_true]
        exact ih vis q hrest hinv
      · by_cases h3 : s.board c.1 c.2 = BLOCKED
        · simp only [h1, h2, h3, Bool.not_true, Bool.false_eq_true, if_false, if_true]
          exact ih vis q hrest hinv
        · simp only [h1, h2, h3, Bool.not_true, Bool.false_eq_true, if_false]
          have hinv2 : LocalInv sx sy maxDist (q ++ [M3.Node.mk c.1 c.2 (n.dist + 1)])
              (setCell vis c.1 c.2 true) := by
            constructor
            · rw [List.map_append, List.map_singleton]
              refine List.Nodup.append hinv.nodup (List.nodup_singleton _) ?_
              rw [List.disjoint_singleton]
              intro hmem
              rw [List.mem_map] at hmem
              obtain ⟨n2, hn2m, he⟩ := hmem
              have hs := hinv.seen n2 hn2m
              simp only [Prod.mk.injEq] at he
              rw [he.1, he.2] at hs
              exact h2 hs
            · intro n2 hn2m
              rw [List.mem_append, List.mem_singleton] at hn2m
              simp only [setCell_apply]
              rcases hn2m with hm | rfl
              · by_cases hc : n2.x = c.1 ∧ n2.y = c.2
                · rw [if_pos hc]
                · rw [if_neg hc]; exact hinv.seen n2 hm
              · simp
            · intro n2 hn2m
              rw [List.mem_append, List.mem_singleton] at hn2m
              rcases hn2m with hm | rfl
              · exact hinv.near n2 hm
              · have hnb := (mem_neighbours n.x n.y c.1 c.2).1 (hsub c (List.mem_cons_self _ _))
                simp only [cheb, abs_eq_max_neg] at hn2 ⊢
                simp only [abs_eq_max_neg] at hnb
                constructor
                · omega
                · omega
          obtain ⟨ext, e1, e2⟩ := ih (setCell vis c.1 c.2 true)
            (q ++ [M3.Node.mk c.1 c.2 (n.dist + 1)]) hrest hinv2
          refine ⟨M3.Node.mk c.1 c.2 (n.dist + 1) :: ext, ?_, ?_⟩
          · rw [e1]; simp
          · rw [List.append_assoc] at e2
            exact e2
    · simp only [h1, Bool.not_false, if_true]
      exact ih vis q hrest hinv

theorem spreadNeighbours_inv (s : State) (sx sy maxDist : Int) (n : M3.Node)
    (hn1 : n.dist < maxDist) (hn2 : cheb (sx, sy) (n.x, n.y) ≤ n.dist)
    (vis : Int → Int → Bool) (q : List M3.Node) (hinv : LocalInv sx sy maxDist q vis) :
    ∃ ext, (M3.spreadNeighbours s n.x n.y n.dist vis q).2 = q ++ ext ∧
      LocalInv sx sy maxDist (q ++ ext) (M3.spreadNeighbours s n.x n.y n.dist vis q).1 :=
  spreadFold_inv s sx sy maxDist n hn1 hn2 (neighbours n.x n.y) vis q (fun _ h => h) hinv

theorem localSpaceLoop_count (s : State) (sx sy maxDist : Int) :
    ∀ (fuel : Nat) (q : List M3.Node) (i : Nat) (vis : Int → Int → Bool) (cnt r : Int),
      LocalInv sx sy maxDist q vis →
      M3.localSpaceLoop s sx sy maxDist fuel q i vis cnt = some r →
      ∃ (ext : List M3.Node) (vf : Int → Int → Bool), LocalInv sx sy maxDist (q ++ ext) vf ∧
        r = cnt + ((((q ++ ext).drop i).countP
          (fun n => decide (¬ (n.x = sx ∧ n.y = sy))) : Nat) : Int) := by
  intro fuel
  induction fuel with
  | zero =>
    intro q i vis cnt r _ h
    simp only [M3.localSpaceLoop] at h
    exact Option.noConfusion h
  | succ fuel ih =>
    intro q i vis cnt r hinv h
    unfold M3.localSpaceLoop at h
    cases hc : q[i]? with
    | none =>
      rw [hc] at h
      simp only [Option.some.injEq] at h
      refine ⟨[], vis, by simpa using hinv, ?_⟩
      have hge : q.length ≤ i := by
        by_contra hlt
        rw [List.getElem?_eq_getElem (by omega)] at hc
        exact Option.noConfusion hc
      rw [List.append_nil, List.drop_eq_nil_of_le hge]
      simp [h]
    | some n =>
      rw [hc] at h
      dsimp only at h
      have hlt : i < q.length := by
        by_contra hge
        rw [List.getElem?_eq_none (by omega)] at hc
        exact Option.noConfusion hc
      have hnq : n ∈ q := List.getElem?_mem hc
      have key : ∀ (ext : List M3.Node), ((q ++ ext).drop i) = n :: (q ++ ext).drop (i + 1) := by
        intro ext
        have hl : i < (q ++ ext).length := by rw [List.length_append]; omega
        have hg : (q ++ ext)[i]? = some n := by
          rw [List.getElem?_append_left hlt]; exact hc
        rw [List.getElem?_eq_getElem hl] at hg
        simp only [Option.some.injEq] at hg
        rw [← hg]
        exact List.drop_eq_getElem_cons hl
      by_cases hdist : n.dist = maxDist
      · rw [if_pos hdist] at h
        obtain ⟨ext, vf, hi2, hr⟩ := ih q (i + 1) vis _ r hinv h
        refine ⟨ext, vf, hi2, ?_⟩
        rw [key ext, List.countP_cons, hr]
        by_cases hst : n.x = sx ∧ n.y = sy
        · simp [hst]
        · simp only [hst, not_false_eq_true, if_true, decide_True]
          push_cast
          omega
      · rw [if_neg hdist] at h
        have hnear := hinv.near n hnq
        obtain ⟨e1, he1, hinv1⟩ := spreadNeighbours_inv s sx sy maxDist n
          (lt_of_le_of_ne hnear.1 hdist) hnear.2 vis q hinv
        rw [he1] at h
        obtain ⟨ext, vf, hi2, hr⟩ := ih (q ++ e1) (i + 1) _ _ r hinv1 h
        refine ⟨e1 ++ ext, vf, by rw [← List.append_assoc]; exact hi2, ?_⟩
        rw [key (e1 ++ ext), List.countP_cons, hr, ← List.append_assoc]
        by_cases hst : n.x = sx ∧ n.y = sy
        · simp [hst]
        · simp only [hst, not_false_eq_true, if_true, decide_True]
          push_cast
          omega

theorem countLocalSpaceAround_bounds (s : State) (sx sy : Int) (hb : inBounds sx sy = true) :
    ∃ r, M3.countLocalSpaceAround s sx sy 2 = some r ∧ 0 ≤ r ∧ r ≤ 24 := by
  obtain ⟨r, hr⟩ := M3_countLocalSpaceAround_terminates s sx sy 2 hb
  refine ⟨r, hr, ?_⟩
  unfold M3.countLocalSpaceAround at hr
  have hinit : LocalInv sx sy 2 [M3.Node.mk sx sy 0] (setCell (fun _ _ => false) sx sy true) := by
    constructor
    · simp
    · intro n hn
      rw [List.mem_singleton] at hn
      subst hn
      simp [setCell_apply]
    · intro n hn
      rw [List.mem_singleton] at hn
      subst hn
      simp [cheb]
  obtain ⟨ext, vf, hi2, hcnt⟩ := localSpaceLoop_count s sx sy 2 _ _ 0 _ 0 r hinit hr
  have hlen := hi2.length_le
  simp only [List.singleton_append, List.drop_zero, List.countP_cons, List.length_cons] at hcnt hlen
  have hle := List.countP_le_length (fun n : M3.Node => decide (¬ (n.x = sx ∧ n.y = sy)))
    (l := ext)
  simp only [and_self, not_true_eq_false, decide_False, Bool.false_eq_true, if_false,
    add_zero, zero_add] at hcnt
  omega

theorem calculateLocalSpace_bounds (s : State) (h : WellFormed s) :
    ∃ e, M3.calculateLocalSpace s = some e ∧ -24 ≤ e ∧ e ≤ 24 := by
  obtain ⟨a, ha, a0, a1⟩ := countLocalSpaceAround_bounds s s.aiX s.aiY h.1
  obtain ⟨b, hb, b0, b1⟩ := countLocalSpaceAround_bounds s s.huX s.huY h.2.1
  refine ⟨a - b, ?_, by omega, by omega⟩
  simp [M3.calculateLocalSpace, ha, hb]

theorem sum_abs_le_length (f : Int × Int → Int) (hf : ∀ c, -1 ≤ f c ∧ f c ≤ 1) :
    ∀ l : List (Int × Int), -(l.length : Int) ≤ (l.map f).sum ∧ (l.map f).sum ≤ l.length := by
  intro l
  induction l with
  | nil => simp
  | cons c l ih =>
    have := hf c
    simp only [List.map_cons, List.sum_cons, List.length_cons]
    push_cast
    constructor <;> omega

theorem calculateVoronoi_bounds (s : State) :
    ∃ c, M3.calculateVoronoi s = some c ∧ -49 ≤ c ∧ c ≤ 49 := by
  obtain ⟨a, ha⟩ := M3_bfsDistances_terminates s s.aiX s.aiY
  obtain ⟨b, hb⟩ := M3_bfsDistances_terminates s s.huX s.huY
  have hterm : ∀ c, -1 ≤ voronoiTerm s a b c ∧ voronoiTerm s a b c ≤ 1 := by
    intro c
    unfold voronoiTerm
    split_ifs <;> constructor <;> decide
  have hs := sum_abs_le_length (voronoiTerm s a b) hterm allCells
  rw [length_allCells] at hs
  refine ⟨(allCells.map (voronoiTerm s a b)).sum, ?_, by simpa using hs.1, by simpa using hs.2⟩
  simp only [M3.calculateVoronoi, ha, hb, Option.bind_eq_bind, Option.some_bind, Option.pure_def,
    voronoi_foldl_eq_sum, zero_add]

theorem calculatePositional_bounds (s : State) (h : WellFormed s) :
    -22 ≤ M3.calculatePositional s ∧ M3.calculatePositional s ≤ 22 := by
  have h1 := (inBounds_iff _ _).1 h.1
  have h2 := (inBounds_iff _ _).1 h.2.1
  simp only [M3.calculatePositional, N, abs_eq_max_neg]
  norm_num
  split_ifs <;> constructor <;> omega

theorem clamp_of_abs_le (x : Int) (M : ℚ) (k : Int) (hM : M = (k : ℚ)) (hk : 0 < k)
    (h1 : -k ≤ x) (h2 : x ≤ k) : M3.clamp ((x : ℚ) / M) = (x : ℚ) / M := by
  have hMp : (0 : ℚ) < M := by rw [hM]; exact_mod_cast hk
  have a1 : (x : ℚ) / M ≤ 1 := by
    rw [div_le_one hMp, hM]; exact_mod_cast h2
  have a2 : -1 ≤ (x : ℚ) / M := by
    rw [le_div_iff₀ hMp, hM]
    have : ((-k : Int) : ℚ) ≤ (x : ℚ) := by exact_mod_cast h1
    push_cast at this
    linarith
  unfold M3.clamp
  rw [if_neg (not_lt.2 a1), if_neg (not_lt.2 a2)]

/-- C27: the normalising constants of `m3.cpp` bound the sub-scores, so `clamp`
leaves every normalised sub-score unchanged: on a well-formed state
`|calculateMobility| ≤ 8`, `|calculateBarriers| ≤ 8`, `|calculateVoronoi| ≤ 49`,
`|calculatePositional| ≤ 22` and `|calculateLocalSpace| ≤ 24`; the bound 22 is
attained with MAX on the centre and MIN on a corner. -/
theorem normalising_constants_are_maxima (s : State) (h : WellFormed s) :
    (|calculateMobility s| ≤ 8 ∧
      M3.clamp ((calculateMobility s : ℚ) / M3.MAX_MOBILITY_DIFF)
        = (calculateMobility s : ℚ) / M3.MAX_MOBILITY_DIFF) ∧
    (|calculateBarriers s| ≤ 8 ∧
      M3.clamp ((calculateBarriers s : ℚ) / M3.MAX_BARRIER_DIFF)
        = (calculateBarriers s : ℚ) / M3.MAX_BARRIER_DIFF) ∧
    (∃ c, M3.calculateVoronoi s = some c ∧ |c| ≤ 49 ∧
      M3.clamp ((c : ℚ) / M3.MAX_VORONOI_DIFF) = (c : ℚ) / M3.MAX_VORONOI_DIFF) ∧
    (|M3.calculatePositional s| ≤ 22 ∧
      M3.clamp ((M3.calculatePositional s : ℚ) / M3.MAX_POSITIONAL_ABS)
        = (M3.calculatePositional s : ℚ) / M3.MAX_POSITIONAL_ABS) ∧
    (∃ e, M3.calculateLocalSpace s = some e ∧ |e| ≤ 24 ∧
      M3.clamp ((e : ℚ) / M3.MAX_LOCAL_SPACE_DIFF) = (e : ℚ) / M3.MAX_LOCAL_SPACE_DIFF) ∧
    (WellFormed centreCornerState ∧ M3.calculatePositional centreCornerState = 22) := by
  obtain ⟨a0, a1⟩ := calculateMobility_bounds s
  obtain ⟨b0, b1⟩ := calculateBarriers_bounds s
  obtain ⟨c, hc, c0, c1⟩ := calculateVoronoi_bounds s
  obtain ⟨d0, d1⟩ := calculatePositional_bounds s h
  obtain ⟨e, he, e0, e1⟩ := calculateLocalSpace_bounds s h
  refine ⟨⟨abs_le.2 ⟨a0, a1⟩, ?_⟩, ⟨abs_le.2 ⟨b0, b1⟩, ?_⟩, ⟨c, hc, abs_le.2 ⟨c0, c1⟩, ?_⟩,
    ⟨abs_le.2 ⟨d0, d1⟩, ?_⟩, ⟨e, he, abs_le.2 ⟨e0, e1⟩, ?_⟩, by decide, by decide⟩
  · exact clamp_of_abs_le _ _ 8 (by simp [M3.MAX_MOBILITY_DIFF]) (by decide) a0 a1
  · exact clamp_of_abs_le _ _ 8 (by simp [M3.MAX_BARRIER_DIFF]) (by decide) b0 b1
  · exact clamp_of_abs_le _ _ 49 (by simp [M3.MAX_VORONOI_DIFF]) (by decide) c0 c1
  · exact clamp_of_abs_le _ _ 22 (by simp [M3.MAX_POSITIONAL_ABS]) (by decide) d0 d1
  · exact clamp_of_abs_le _ _ 24 (by simp [M3.MAX_LOCAL_SPACE_DIFF]) (by decide) e0 e1

theorem normalising_constants_are_maxima_witness :
    WellFormed initialState ∧ |calculateMobility initialState| ≤ 8 ∧
    |M3.calculatePositional initialState| ≤ 22 :=
  ⟨by decide, (normalising_constants_are_maxima initialState (by decide)).1.1,
    (normalising_constants_are_maxima initialState (by decide)).2.2.2.1.1⟩

/-! ## Shortest distances -/

theorem BfsInv.exact_pred {s : State} {sx sy : Int} {d : Int → Int → Int}
    (h : BfsInv s sx sy [] d) (i j : Int) (hne : ¬ (i = sx ∧ j = sy)) (hd : d i j ≠ 999) :
    inBounds i j = true ∧ s.board i j ≠ BLOCKED ∧
    ∃ p : Int × Int, (i, j) ∈ neighbours p.1 p.2 ∧ inBounds p.1 p.2 = true ∧
      d p.1 p.2 + 1 = d i j := by
  obtain ⟨hb, hnb, p, hp, hpb, hle⟩ := h.pred i j hne hd
  refine ⟨hb, hnb, p, hp, hpb, ?_⟩
  have hr := (h.range i j).2
  have hp9 : d p.1 p.2 ≠ 999 := by omega
  rcases h.relaxed p.1 p.2 hpb hp9 with hmem | hrel
  · exact absurd hmem (List.not_mem_nil _)
  · have := hrel (i, j) hp hb hnb
    simp only at this
    omega

theorem BfsInv.chain {s : State} {sx sy : Int} {d : Int → Int → Int}
    (h : BfsInv s sx sy [] d) (hs : inBounds sx sy = true) :
    ∀ (k : Nat) (i j : Int), d i j = (k : Int) → (k : Int) ≠ 999 →
      (inBounds i j = true) →
      PathLen s sx sy (i, j) k ∧
      ∃ l : List (Int × Int), l.length = k + 1 ∧ l.Nodup ∧
        ∀ c ∈ l, c ∈ allCells ∧ d c.1 c.2 ≤ (k : Int) := by
  intro k
  induction k with
  | zero =>
    intro i j hd _ hb
    have hst : i = sx ∧ j = sy := by
      by_contra hne
      obtain ⟨_, _, p, _, _, hp⟩ := h.exact_pred i j hne (by rw [hd]; decide)
      have := (h.range p.1 p.2).1
      rw [hd] at hp
      simp only [Nat.cast_zero] at hp
      omega
    obtain ⟨rfl, rfl⟩ := hst
    refine ⟨PathLen.start, [(i, j)], rfl, List.nodup_singleton _, ?_⟩
    intro c hc
    rw [List.mem_singleton] at hc
    subst hc
    exact ⟨(mem_allCells i j).2 hb, le_of_eq hd⟩
  | succ k ih =>
    intro i j hd h9 hb
    have hne : ¬ (i = sx ∧ j = sy) := by
      rintro ⟨rfl, rfl⟩
      rw [h.start] at hd
      push_cast at hd
      omega
    obtain ⟨hbi, hnb, p, hp, hpb, hpe⟩ := h.exact_pred i j hne (by rw [hd]; exact h9)
    have hr := (h.range i j).2
    have hdp : d p.1 p.2 = (k : Int) := by
      rw [hd] at hpe
      push_cast at hpe
      omega
    have hk9 : (k : Int) ≠ 999 := by
      rw [hd] at hr
      push_cast at hr
      omega
    obtain ⟨hpath, l, hl, hnd, hall⟩ := ih p.1 p.2 hdp hk9 hpb
    refine ⟨PathLen.step hpath hp hbi hnb, (i, j) :: l, by simp [hl], ?_, ?_⟩
    · rw [List.nodup_cons]
      refine ⟨?_, hnd⟩
      intro hmem
      have := (hall _ hmem).2
      simp only at this
      rw [hd] at this
      push_cast at this
      omega
    · intro c hc
      rw [List.mem_cons] at hc
      rcases hc with rfl | hc
      · exact ⟨(mem_allCells i j).2 hbi, le_of_eq hd⟩
      · obtain ⟨h1, h2⟩ := hall c hc
        refine ⟨h1, ?_⟩
        push_cast
        omega

theorem BfsInv.le_48 {s : State} {sx sy : Int} {d : Int → Int → Int}
    (h : BfsInv s sx sy [] d) (hs : inBounds sx sy = true) (i j : Int)
    (hb : inBounds i j = true) (hd : d i j ≠ 999) : d i j ≤ 48 := by
  have h0 := (h.range i j).1
  obtain ⟨k, hk⟩ := Int.eq_ofNat_of_zero_le h0
  obtain ⟨_, l, hl, hnd, hall⟩ := h.chain hs k i j hk (by rw [← hk]; exact hd) hb
  have hsub : l ⊆ allCells := fun c hc => (hall c hc).1
  have hlen := (List.Nodup.subperm hnd hsub).length_le
  rw [hl, length_allCells] at hlen
  rw [hk]
  omega

theorem PathLen.dist_le {s : State} {sx sy : Int} {d : Int → Int → Int}
    (h : BfsInv s sx sy [] d) (hs : inBounds sx sy = true) {c : Int × Int} {k : Nat}
    (hp : PathLen s sx sy c k) :
    inBounds c.1 c.2 = true ∧ d c.1 c.2 ≠ 999 ∧ d c.1 c.2 ≤ (k : Int) := by
  induction hp with
  | start =>
    refine ⟨hs, ?_, ?_⟩
    · simp only [h.start]; decide
    · simp only [h.start]; exact le_refl _
  | step hprev hn hb hnb ih =>
    rename_i p n k
    obtain ⟨hpb, hp9, hpk⟩ := ih
    have h48 := h.le_48 hs p.1 p.2 hpb hp9
    rcases h.relaxed p.1 p.2 hpb hp9 with hmem | hrel
    · exact absurd hmem (List.not_mem_nil _)
    · have := hrel n hn hb hnb
      refine ⟨hb, by omega, ?_⟩
      push_cast
      omega

/-- C28: `bfsDistances` computes shortest distances.  For an in-bounds start cell
the scan returns a map that is 0 at the start and in which every entry other than
999 is the length of a shortest 8-directional unit-step path from the start that
enters only cells that are not `BLOCKED` (pawn cells are passable), while an
entry is 999 exactly when no such path exists. -/
theorem bfsDistances_shortest (s : State) (sx sy : Int) (hs : inBounds sx sy = true) :
    ∃ d, M3.bfsDistances s sx sy = some d ∧ d sx sy = 0 ∧
      ∀ i j : Int, inBounds i j = true →
        (d i j ≠ 999 → ∃ k : Nat, d i j = (k : Int) ∧ PathLen s sx sy (i, j) k ∧
          ∀ k2 : Nat, PathLen s sx sy (i, j) k2 → k ≤ k2) ∧
        (d i j = 999 ↔ ¬ ∃ k : Nat, PathLen s sx sy (i, j) k) := by
  obtain ⟨d, hd⟩ := M3_bfsDistances_terminates s sx sy
  have hinv := bfsDistances_inv s sx sy hs d hd
  refine ⟨d, hd, hinv.start, ?_⟩
  intro i j hb
  have hfin : d i j ≠ 999 → ∃ k : Nat, d i j = (k : Int) ∧ PathLen s sx sy (i, j) k ∧
      ∀ k2 : Nat, PathLen s sx sy (i, j) k2 → k ≤ k2 := by
    intro h9
    have h0 := (hinv.range i j).1
    obtain ⟨k, hk⟩ := Int.eq_ofNat_of_zero_le h0
    obtain ⟨hpath, _⟩ := hinv.chain hs k i j hk (by rw [← hk]; exact h9) hb
    refine ⟨k, hk, hpath, ?_⟩
    intro k2 hp2
    have := (hp2.dist_le hinv hs).2.2
    simp only at this
    omega
  refine ⟨hfin, ?_, ?_⟩
  · intro h9 ⟨k, hp⟩
    exact (hp.dist_le hinv hs).2.1 h9
  · intro hno
    by_contra h9
    obtain ⟨k, _, hp, _⟩ := hfin h9
    exact hno ⟨k, hp⟩

theorem bfsDistances_shortest_witness :
    inBounds 0 3 = true ∧
    ∃ d, M3.bfsDistances initialState 0 3 = some d ∧ d 0 3 = 0 ∧
      ∀ i j : Int, inBounds i j = true →
        (d i j ≠ 999 → ∃ k : Nat, d i j = (k : Int) ∧ PathLen initialState 0 3 (i, j) k ∧
          ∀ k2 : Nat, PathLen initialState 0 3 (i, j) k2 → k ≤ k2) ∧
        (d i j = 999 ↔ ¬ ∃ k : Nat, PathLen initialState 0 3 (i, j) k) :=
  ⟨by decide, bfsDistances_shortest initialState 0 3 (by decide)⟩

/-! ## Shape of the recorded trace -/

theorem modify_append_length {α : Type} (f : α → α) (x : α) (rest : List α) :
    ∀ pre : List α, (pre ++ x :: rest).modify f pre.length = pre ++ f x :: rest := by
  intro pre
  induction pre with
  | nil => simp
  | cons a pre ih => simp [ih]

theorem Tree_setScore_append (pre : List Tree.LogNode) (x : Tree.LogNode)
    (rest : List Tree.LogNode) (v : Int) :
    Tree.setScore (pre ++ x :: rest) pre.length v = pre ++ { x with score := v } :: rest :=
  modify_append_length _ x rest pre

theorem Tree_setInfo_append (pre : List Tree.LogNode) (x : Tree.LogNode)
    (rest : List Tree.LogNode) (t : String) :
    Tree.setInfo (pre ++ x :: rest) pre.length t = pre ++ { x with info := t } :: rest :=
  modify_append_length _ x rest pre

theorem Tree.Recorded.cast {k k2 : Nat} {pid d : Int} {ts : List State} {vals : List Int}
    {seg : List Tree.LogNode} (h : Tree.Recorded k pid d ts vals seg) (hk : k = k2) :
    Tree.Recorded k2 pid d ts vals seg := hk ▸ h

theorem Tree.Recorded.cons_append {k : Nat} {pid d : Int} {t : State} {v : Int}
    {seg1 : List Tree.LogNode} (h1 : Tree.Recorded k pid d [t] [v] seg1)
    {ts : List State} {vals : List Int} {seg2 : List Tree.LogNode}
    (h2 : Tree.Recorded (k + seg1.length) pid d ts vals seg2) :
    Tree.Recorded k pid d (t :: ts) (v :: vals) (seg1 ++ seg2) := by
  cases h1 with
  | leaf _ _ _ _ _ _ seg0 _ info he hi hf hrest =>
    cases hrest
    simp only [List.length_singleton] at h2
    exact Tree.Recorded.leaf k pid d t ts vals seg2 v info he hi hf h2
  | inner _ _ _ _ _ _ seg0 cs cvals sg1 info hn hc hp hr hi hrest =>
    cases hrest
    simp only [List.append_nil, List.length_cons] at h2
    have := Tree.Recorded.inner k pid d t ts vals seg2 cs cvals sg1 info hn hc hp hr hi
      (h2.cast (by omega))
    simpa using this

theorem Tree_maxLoop_recorded (fuel : Nat) (s : State) (d : Int) (pre : List Tree.LogNode)
    (hd : Tree.LogNode)
    (IH : ∀ (t : State) (a b : Int) (ns : List Tree.LogNode) (v : Int)
      (ns2 : List Tree.LogNode),
      Tree.minimax fuel t d a b (pre.length : Int) ns = some (v, ns2) →
      ∃ seg, ns2 = ns ++ seg ∧ Tree.Recorded ns.length (pre.length : Int) d [t] [v] seg) :
    ∀ (ms : List Move) (done : List Tree.LogNode) (best alpha beta R : Int)
      (nodes2 : List Tree.LogNode),
      Tree.maxLoop (fun child a b ns => Tree.minimax fuel child d a b (pre.length : Int) ns)
        s pre.length ms best alpha beta (pre ++ hd :: done) = some (R, nodes2) →
      ∃ (ms1 ms2 : List Move) (cvals : List Int) (seg : List Tree.LogNode) (info : String),
        ms = ms1 ++ ms2 ∧ (ms ≠ [] → ms1 ≠ []) ∧
        Tree.Recorded (pre.length + 1 + done.length) (pre.length : Int) d
          (ms1.map (applyMove s)) cvals seg ∧
        nodes2 = pre ++ { hd with info := info } :: (done ++ seg) ∧
        (info = hd.info ∨ info = "Pruned (Beta)") ∧
        R = cvals.foldl max best := by
  intro ms
  induction ms with
  | nil =>
    intro done best alpha beta R nodes2 h
    simp only [Tree.maxLoop, Option.some.injEq, Prod.mk.injEq] at h
    refine ⟨[], [], [], [], hd.info, rfl, fun hne => absurd rfl hne, Tree.Recorded.nil _ _ _, ?_,
      Or.inl rfl, ?_⟩
    · rw [← h.2]; simp
    · rw [← h.1]; rfl
  | cons m ms ih =>
    intro done best alpha beta R nodes2 h
    simp only [Tree.maxLoop] at h
    cases hsr : Tree.minimax fuel (applyMove s m) d alpha beta (pre.length : Int)
        (pre ++ hd :: done) with
    | none => rw [hsr] at h; exact Option.noConfusion h
    | some res =>
      obtain ⟨val, nodes1⟩ := res
      rw [hsr] at h
      dsimp only at h
      obtain ⟨seg1, hn1, hrec1⟩ := IH _ _ _ _ _ _ hsr
      have hlen : (pre ++ hd :: done).length = pre.length + 1 + done.length := by
        simp only [List.length_append, List.length_cons]; omega
      have hrec1 := hrec1.cast hlen
      have hn1b : nodes1 = pre ++ hd :: (done ++ seg1) := by
        rw [hn1]; simp
      by_cases hc : beta ≤ max alpha val
      · rw [if_pos hc] at h
        simp only [Option.some.injEq, Prod.mk.injEq] at h
        refine ⟨[m], ms, [val], seg1, "Pruned (Beta)", rfl, fun _ => by simp, hrec1, ?_,
          Or.inr rfl, ?_⟩
        · rw [← h.2, hn1b, Tree_setInfo_append]
        · rw [← h.1]; rfl
      · rw [if_neg hc] at h
        rw [hn1b] at h
        obtain ⟨ms1, ms2, cvals, seg, info, e1, _, hrec, e2, e3, e4⟩ := ih _ _ _ _ _ _ h
        refine ⟨m :: ms1, ms2, val :: cvals, seg1 ++ seg, info, by rw [e1]; rfl,
          fun _ => by simp, ?_, ?_, e3, ?_⟩
        · simp only [List.map_cons]
          refine Tree.Recorded.cons_append hrec1 (hrec.cast ?_)
          simp only [List.length_append]; omega
        · rw [e2]; simp
        · rw [e4]; rfl

theorem Tree_minLoop_recorded (fuel : Nat) (s : State) (d : Int) (pre : List Tree.LogNode)
    (hd : Tree.LogNode)
    (IH : ∀ (t : State) (a b : Int) (ns : List Tree.LogNode) (v : Int)
      (ns2 : List Tree.LogNode),
      Tree.minimax fuel t d a b (pre.length : Int) ns = some (v, ns2) →
      ∃ seg, ns2 = ns ++ seg ∧ Tree.Recorded ns.length (pre.length : Int) d [t] [v] seg) :
    ∀ (ms : List Move) (done : List Tree.LogNode) (best alpha beta R : Int)
      (nodes2 : List Tree.LogNode),
      Tree.minLoop (fun child a b ns => Tree.minimax fuel child d a b (pre.length : Int) ns)
        s pre.length ms best alpha beta (pre ++ hd :: done) = some (R, nodes2) →
      ∃ (ms1 ms2 : List Move) (cvals : List Int) (seg : List Tree.LogNode) (info : String),
        ms = ms1 ++ ms2 ∧ (ms ≠ [] → ms1 ≠ []) ∧
        Tree.Recorded (pre.length + 1 + done.length) (pre.length : Int) d
          (ms1.map (applyMove s)) cvals seg ∧
        nodes2 = pre ++ { hd with info := info } :: (done ++ seg) ∧
        (info = hd.info ∨ info = "Pruned (Alpha)") ∧
        R = cvals.foldl min best := by
  intro ms
  induction ms with
  | nil =>
    intro done best alpha beta R nodes2 h
    simp only [Tree.minLoop, Option.some.injEq, Prod.mk.injEq] at h
    refine ⟨[], [], [], [], hd.info, rfl, fun hne => absurd rfl hne, Tree.Recorded.nil _ _ _, ?_,
      Or.inl rfl, ?_⟩
    · rw [← h.2]; simp
    · rw [← h.1]; rfl
  | cons m ms ih =>
    intro done best alpha beta R nodes2 h
    simp only [Tree.minLoop] at h
    cases hsr : Tree.minimax fuel (applyMove s m) d alpha beta (pre.length : Int)
        (pre ++ hd :: done) with
    | none => rw [hsr] at h; exact Option.noConfusion h
    | some res =>
      obtain ⟨val, nodes1⟩ := res
      rw [hsr] at h
      dsimp only at h
      obtain ⟨seg1, hn1, hrec1⟩ := IH _ _ _ _ _ _ hsr
      have hlen : (pre ++ hd :: done).length = pre.length + 1 + done.length := by
        simp only [List.length_append, List.length_cons]; omega
      have hrec1 := hrec1.cast hlen
      have hn1b : nodes1 = pre ++ hd :: (done ++ seg1) := by
        rw [hn1]; simp
      by_cases hc : min beta val ≤ alpha
      · rw [if_pos hc] at h
        simp only [Option.some.injEq, Prod.mk.injEq] at h
        refine ⟨[m], ms, [val], seg1, "Pruned (Alpha)", rfl, fun _ => by simp, hrec1, ?_,
          Or.inr rfl, ?_⟩
        · rw [← h.2, hn1b, Tree_setInfo_append]
        · rw [← h.1]; rfl
      · rw [if_neg hc] at h
        rw [hn1b] at h
        obtain ⟨ms1, ms2, cvals, seg, info, e1, _, hrec, e2, e3, e4⟩ := ih _ _ _ _ _ _ h
        refine ⟨m :: ms1, ms2, val :: cvals, seg1 ++ seg, info, by rw [e1]; rfl,
          fun _ => by simp, ?_, ?_, e3, ?_⟩
        · simp only [List.map_cons]
          refine Tree.Recorded.cons_append hrec1 (hrec.cast ?_)
          simp only [List.length_append]; omega
        · rw [e2]; simp
        · rw [e4]; rfl

theorem Tree_bestLoop_recorded (fuel : Nat) (s : State) (d pid : Int)
    (IH : ∀ (t : State) (a b : Int) (ns : List Tree.LogNode) (v : Int)
      (ns2 : List Tree.LogNode),
      Tree.minimax fuel t d a b pid ns = some (v, ns2) →
      ∃ seg, ns2 = ns ++ seg ∧ Tree.Recorded ns.length pid d [t] [v] seg) :
    ∀ (ms : List Move) (nodes : List Tree.LogNode) (best : Move) (bestVal alpha beta : Int)
      (bm : Move) (bv : Int) (nodes2 : List Tree.LogNode),
      Tree.bestLoop (fun child a b ns => Tree.minimax fuel child d a b pid ns)
        s ms best bestVal alpha beta nodes = some (bm, bv, nodes2) →
      ∃ (vals : List Int) (seg : List Tree.LogNode),
        nodes2 = nodes ++ seg ∧
        Tree.Recorded nodes.length pid d (ms.map (applyMove s)) vals seg ∧
        bv = vals.foldl max bestVal := by
  intro ms
  induction ms with
  | nil =>
    intro nodes best bestVal alpha beta bm bv nodes2 h
    simp only [Tree.bestLoop, Option.some.injEq, Prod.mk.injEq] at h
    refine ⟨[], [], ?_, Tree.Recorded.nil _ _ _, ?_⟩
    · rw [← h.2.2]; simp
    · rw [← h.2.1]; rfl
  | cons m ms ih =>
    intro nodes best bestVal alpha beta bm bv nodes2 h
    simp only [Tree.bestLoop] at h
    cases hsr : Tree.minimax fuel (applyMove s m) d alpha beta pid nodes with
    | none => rw [hsr] at h; exact Option.noConfusion h
    | some res =>
      obtain ⟨val, nodes1⟩ := res
      rw [hsr] at h
      dsimp only at h
      obtain ⟨seg1, hn1, hrec1⟩ := IH _ _ _ _ _ _ hsr
      obtain ⟨vals, seg, e1, hrec, e2⟩ := ih _ _ _ _ _ _ _ _ h
      refine ⟨val :: vals, seg1 ++ seg, ?_, ?_, ?_⟩
      · rw [e1, hn1]; simp
      · simp only [List.map_cons]
        refine Tree.Recorded.cons_append hrec1 (hrec.cast ?_)
        rw [hn1]; simp
      · rw [e2, List.foldl_cons]
        congr 1
        split_ifs <;> omega

theorem Tree_minimax_recorded :
    ∀ (fuel : Nat) (s : State) (d alpha beta pid : Int) (nodes : List Tree.LogNode) (v : Int)
      (nodes2 : List Tree.LogNode),
      Tree.minimax fuel s d alpha beta pid nodes = some (v, nodes2) →
      ∃ seg, nodes2 = nodes ++ seg ∧ Tree.Recorded nodes.length pid d [s] [v] seg := by
  intro fuel
  induction fuel with
  | zero =>
    intro s d alpha beta pid nodes v nodes2 h
    simp only [Tree.minimax] at h
    exact Option.noConfusion h
  | succ fuel ih =>
    intro s d alpha beta pid nodes v nodes2 h
    rw [Tree.minimax] at h
    dsimp only at h
    by_cases hc : d = 0 ∨ hasNoMoves s = true
    · rw [if_pos hc] at h
      cases he : M2.eval s with
      | none => rw [he] at h; exact Option.noConfusion h
      | some w =>
        rw [he] at h
        simp only [Option.some.injEq, Prod.mk.injEq] at h
        obtain ⟨rfl, h2⟩ := h
        refine ⟨[Tree.LogNode.mk nodes.length pid w (Tree.DEPTH_LIMIT - d) (Tree.tag s) "Leaf"],
          ?_, ?_⟩
        · rw [← h2, Tree_setScore_append, Tree_setInfo_append]
          rfl
        · exact Tree.Recorded.leaf _ _ _ _ _ _ _ _ _ he (by rw [if_pos hc]) (fun hn => absurd hc hn)
            (Tree.Recorded.nil _ _ _)
    · rw [if_neg hc] at h
      by_cases hem : (generateAllMoves s).isEmpty = true
      · rw [if_pos hem] at h
        cases he : M2.eval s with
        | none => rw [he] at h; exact Option.noConfusion h
        | some w =>
          rw [he] at h
          simp only [Option.some.injEq, Prod.mk.injEq] at h
          obtain ⟨rfl, h2⟩ := h
          refine ⟨[Tree.LogNode.mk nodes.length pid w (Tree.DEPTH_LIMIT - d) (Tree.tag s) ""],
            ?_, ?_⟩
          · rw [← h2, Tree_setScore_append]
            rfl
          · exact Tree.Recorded.leaf _ _ _ _ _ _ _ _ _ he (by rw [if_neg hc])
              (fun _ => List.isEmpty_iff.1 hem) (Tree.Recorded.nil _ _ _)
      · rw [if_neg hem] at h
        have hne : generateAllMoves s ≠ [] := fun hnil => hem (List.isEmpty_iff.2 hnil)
        by_cases ht : s.isMaxTurn = true
        · rw [if_pos ht] at h
          cases hl : Tree.maxLoop
              (fun child a b ns => Tree.minimax fuel child (d - 1) a b (nodes.length : Int) ns)
              s nodes.length (generateAllMoves s) (-1000000000) alpha beta
              (nodes ++ [Tree.LogNode.mk nodes.length pid 0 (Tree.DEPTH_LIMIT - d)
                (if s.isMaxTurn = true then "MAX" else "MIN") ""]) with
          | none => rw [hl] at h; exact Option.noConfusion h
          | some res =>
            obtain ⟨best, nodes1⟩ := res
            rw [hl] at h
            simp only [Option.some.injEq, Prod.mk.injEq] at h
            obtain ⟨rfl, h2⟩ := h
            obtain ⟨ms1, ms2, cvals, seg, info, e1, e2, hrec, e3, e4, e5⟩ :=
              Tree_maxLoop_recorded fuel s (d - 1) nodes _
                (fun t a b ns w ns2 hh => ih t (d - 1) a b _ ns w ns2 hh) _ [] _ _ _ _ _ hl
            refine ⟨Tree.LogNode.mk nodes.length pid best (Tree.DEPTH_LIMIT - d) (Tree.tag s) info
              :: seg, ?_, ?_⟩
            · rw [← h2, e3, Tree_setScore_append]
              simp [Tree.tag]
            · have hpre : ms1.map (applyMove s) <+: (generateAllMoves s).map (applyMove s) := by
                rw [e1, List.map_append]
                exact List.prefix_append _ _
              have hinfo : info = "" ∨
                  info = (if s.isMaxTurn = true then "Pruned (Beta)" else "Pruned (Alpha)") := by
                rw [if_pos ht]
                exact e4
              have := Tree.Recorded.inner nodes.length pid d s [] [] [] (ms1.map (applyMove s))
                cvals seg info hc (by simpa using e2 hne) hpre
                (hrec.cast (by simp)) hinfo (Tree.Recorded.nil _ _ _)
              rw [if_pos ht] at this
              rw [e5]
              simpa using this
        · rw [if_neg ht] at h
          cases hl : Tree.minLoop
              (fun child a b ns => Tree.minimax fuel child (d - 1) a b (nodes.length : Int) ns)
              s nodes.length (generateAllMoves s) 1000000000 alpha beta
              (nodes ++ [Tree.LogNode.mk nodes.length pid 0 (Tree.DEPTH_LIMIT - d)
                (if s.isMaxTurn = true then "MAX" else "MIN") ""]) with
          | none => rw [hl] at h; exact Option.noConfusion h
          | some res =>
            obtain ⟨best, nodes1⟩ := res
            rw [hl] at h
            simp only [Option.some.injEq, Prod.mk.injEq] at h
            obtain ⟨rfl, h2⟩ := h
            obtain ⟨ms1, ms2, cvals, seg, info, e1, e2, hrec, e3, e4, e5⟩ :=
              Tree_minLoop_recorded fuel s (d - 1) nodes _
                (fun t a b ns w ns2 hh => ih t (d - 1) a b _ ns w ns2 hh) _ [] _ _ _ _ _ hl
            refine ⟨Tree.LogNode.mk nodes.length pid best (Tree.DEPTH_LIMIT - d) (Tree.tag s) info
              :: seg, ?_, ?_⟩
            · rw [← h2, e3, Tree_setScore_append]
              simp [Tree.tag]
            · have hpre : ms1.map (applyMove s) <+: (generateAllMoves s).map (applyMove s) := by
                rw [e1, List.map_append]
                exact List.prefix_append _ _
              have hinfo : info = "" ∨
                  info = (if s.isMaxTurn = true then "Pruned (Beta)" else "Pruned (Alpha)") := by
                rw [if_neg ht]
                exact e4
              have := Tree.Recorded.inner nodes.length pid d s [] [] [] (ms1.map (applyMove s))
                cvals seg info hc (by simpa using e2 hne) hpre
                (hrec.cast (by simp)) hinfo (Tree.Recorded.nil _ _ _)
              rw [if_neg ht] at this
              rw [e5]
              simpa using this

theorem Tree_tag_cases (s : State) : Tree.tag s = "MAX" ∨ Tree.tag s = "MIN" := by
  unfold Tree.tag
  cases s.isMaxTurn
  · right; rfl
  · left; rfl

theorem Tree_tag_applyMove (s : State) (m : Move) :
    Tree.tag (applyMove s m) ≠ Tree.tag s ∧
    Tree.tag (applyMove s m) = (if s.isMaxTurn then "MIN" else "MAX") := by
  unfold Tree.tag
  rw [applyMove_isMaxTurn]
  cases s.isMaxTurn <;> exact ⟨by decide, rfl⟩

theorem Tree.Recorded.nodes {k : Nat} {pid d : Int} {ts : List State} {vals : List Int}
    {seg : List Tree.LogNode} (h : Tree.Recorded k pid d ts vals seg) :
    ∀ (i : Nat) (n : Tree.LogNode), seg[i]? = some n →
      n.id = ((k + i : Nat) : Int) ∧
      ((n.parentId = pid ∧ n.depth = Tree.DEPTH_LIMIT - d ∧ ∃ t ∈ ts, n.type = Tree.tag t) ∨
        (∃ (j : Nat) (m : Tree.LogNode), j < i ∧ seg[j]? = some m ∧
          n.parentId = ((k + j : Nat) : Int) ∧ n.depth = m.depth + 1 ∧
          (n.type = "MAX" ∨ n.type = "MIN") ∧ n.type ≠ m.type)) := by
  induction h with
  | nil k pid d =>
    intro i n hn
    simp at hn
  | leaf k pid d t ts vals seg2 v info _ _ _ _ ih =>
    intro i n hn
    cases i with
    | zero =>
      simp only [List.getElem?_cons_zero, Option.some.injEq] at hn
      subst hn
      exact ⟨by simp, Or.inl ⟨rfl, rfl, t, List.mem_cons_self _ _, rfl⟩⟩
    | succ i =>
      rw [List.getElem?_cons_succ] at hn
      obtain ⟨h1, h2⟩ := ih i n hn
      refine ⟨by rw [h1]; push_cast; omega, ?_⟩
      rcases h2 with ⟨a, b, t2, ht2, c⟩ | ⟨j, m, hj, hm, a, b, c⟩
      · exact Or.inl ⟨a, b, t2, List.mem_cons_of_mem _ ht2, c⟩
      · refine Or.inr ⟨j + 1, m, by omega, by rw [List.getElem?_cons_succ]; exact hm, ?_, b, c⟩
        rw [a]; push_cast; omega
  | inner k pid d t ts vals seg2 cs cvals seg1 info _ _ hpre _ _ _ ih1 ih2 =>
    intro i n hn
    cases i with
    | zero =>
      simp only [List.getElem?_cons_zero, Option.some.injEq] at hn
      subst hn
      exact ⟨by simp, Or.inl ⟨rfl, rfl, t, List.mem_cons_self _ _, rfl⟩⟩
    | succ i =>
      rw [List.getElem?_cons_succ] at hn
      by_cases hi : i < seg1.length
      · rw [List.getElem?_append_left hi] at hn
        obtain ⟨h1, h2⟩ := ih1 i n hn
        refine ⟨by rw [h1]; push_cast; omega, Or.inr ?_⟩
        rcases h2 with ⟨a, b, t2, ht2, c⟩ | ⟨j, m, hj, hm, a, b, c⟩
        · obtain ⟨mv, _, rfl⟩ := List.mem_map.1 (hpre.subset ht2)
          refine ⟨0, _, by omega, List.getElem?_cons_zero, by rw [a]; simp, ?_, ?_, ?_⟩
          · rw [b]; simp only; omega
          · rw [c]; exact Tree_tag_cases _
          · rw [c]; exact (Tree_tag_applyMove t mv).1
        · refine ⟨j + 1, m, by omega, ?_, by rw [a]; push_cast; omega, b, c⟩
          rw [List.getElem?_cons_succ, List.getElem?_append_left (by omega)]
          exact hm
      · have hi2 : seg1.length ≤ i := by omega
        rw [List.getElem?_append_right hi2] at hn
        have harith : k + 1 + seg1.length + (i - seg1.length) = k + (i + 1) := by omega
        obtain ⟨h1, h2⟩ := ih2 (i - seg1.length) n hn
        rw [harith] at h1
        refine ⟨h1, ?_⟩
        rcases h2 with ⟨a, b, t2, ht2, c⟩ | ⟨j, m, hj, hm, a, b, c⟩
        · exact Or.inl ⟨a, b, t2, List.mem_cons_of_mem _ ht2, c⟩
        · refine Or.inr ⟨seg1.length + j + 1, m, by omega, ?_, by rw [a]; push_cast; omega, b, c⟩
          rw [List.getElem?_cons_succ, List.getElem?_append_right (by omega)]
          have : seg1.length + j - seg1.length = j := by omega
          rw [this]
          exact hm

theorem Tree_findBestMove_recorded (s : State) (depth : Int) (tr : Tree.Trace) (m : Move)
    (tr2 : Tree.Trace) (h : Tree.findBestMove s depth tr = some (m, tr2)) :
    ∃ (vals : List Int) (seg : List Tree.LogNode),
      tr2.currentTurnNodes
        = Tree.LogNode.mk 0 (-1) (vals.foldl max (-1000000000)) 0 "ROOT" "Start" :: seg ∧
      Tree.Recorded 1 0 (depth - 1) ((generateAllMoves s).map (applyMove s)) vals seg ∧
      tr2.gameLog = tr.gameLog ++
        [{ turnNumber := (tr.gameLog.length : Int) + 1, nodes := tr2.currentTurnNodes,
           bestMoveScore := vals.foldl max (-1000000000), boardState := s.board }] := by
  unfold Tree.findBestMove at h
  dsimp only at h
  cases hl : Tree.bestLoop
      (fun child a b ns => Tree.minimax searchFuel child (depth - 1) a b 0 ns) s
      (generateAllMoves s) (Move.mk 0 0 0 0) (-1000000000) (-1000000000) 1000000000
      ([] ++ [Tree.LogNode.mk 0 (-1) 0 0 "ROOT" "Start"]) with
  | none => rw [hl] at h; exact Option.noConfusion h
  | some res =>
    obtain ⟨bm, bv, nodes1⟩ := res
    rw [hl] at h
    simp only [Option.some.injEq, Prod.mk.injEq] at h
    obtain ⟨_, rfl⟩ := h
    obtain ⟨vals, seg, e1, hrec, e2⟩ := Tree_bestLoop_recorded searchFuel s (depth - 1) 0
      (fun t a b ns v ns2 hh => Tree_minimax_recorded searchFuel t (depth - 1) a b 0 ns v ns2 hh)
      _ _ _ _ _ _ _ _ _ hl
    have hnodes : (if (!nodes1.isEmpty) = true then Tree.setScore nodes1 0 bv else nodes1)
        = Tree.LogNode.mk 0 (-1) (vals.foldl max (-1000000000)) 0 "ROOT" "Start" :: seg := by
      rw [e1, e2]
      simp [Tree.setScore]
    refine ⟨vals, seg, hnodes, by simpa using hrec, ?_⟩
    simp only
    rw [e2]

theorem Tree_findBestMove_total (s : State) (depth : Int) (tr : Tree.Trace) (h : WellFormed s) :
    ∃ m tr2, Tree.findBestMove s depth tr = some (m, tr2) := by
  have hfst := Tree_findBestMove_fst s depth tr
  have hm2 : ∃ m, M2.findBestMove s depth = some m := by
    apply bestLoop_total
    intro m hm a b
    exact minimaxWith_total _ _ (fun t _ ht => M2_eval_total t ht) searchFuel _ _ a b
      (wellFormed_applyMove h hm) (searchFuel_enough _)
  obtain ⟨m, hm⟩ := hm2
  rw [hm] at hfst
  cases hr : Tree.findBestMove s depth tr with
  | none => rw [hr] at hfst; exact Option.noConfusion hfst
  | some res => exact ⟨res.1, res.2, rfl⟩

theorem Tree_trace_nodes (depth : Int) (cs : List State) (vals : List Int)
    (seg : List Tree.LogNode) (root : Tree.LogNode)
    (hrec : Tree.Recorded 1 0 (depth - 1) cs vals seg) :
    ∀ (i : Nat) (n : Tree.LogNode), 1 ≤ i → (root :: seg)[i]? = some n →
      n.id = (i : Int) ∧ 0 ≤ n.parentId ∧ n.parentId < (i : Int) ∧
      (n.type = "MAX" ∨ n.type = "MIN") ∧
      ∃ p, (root :: seg)[n.parentId.toNat]? = some p ∧
        (n.parentId = 0 → p = root ∧ n.depth = Tree.DEPTH_LIMIT - depth + 1 ∧
          ∃ t ∈ cs, n.type = Tree.tag t) ∧
        (1 ≤ n.parentId → n.depth = p.depth + 1 ∧ n.type ≠ p.type) := by
  intro i n hi hn
  cases i with
  | zero => omega
  | succ i =>
    rw [List.getElem?_cons_succ] at hn
    obtain ⟨h1, h2⟩ := hrec.nodes i n hn
    have hid : n.id = ((i + 1 : Nat) : Int) := by rw [h1]; push_cast; omega
    rcases h2 with ⟨a, b, t, ht, c⟩ | ⟨j, m, hj, hm, a, b, c1, c2⟩
    · refine ⟨hid, by rw [a], by rw [a]; push_cast; omega, ?_, root, ?_, ?_, ?_⟩
      · rw [c]; exact Tree_tag_cases t
      · rw [a]; simp
      · intro _
        exact ⟨rfl, by rw [b]; omega, t, ht, c⟩
      · intro hp; rw [a] at hp; omega
    · have hp : n.parentId = ((j + 1 : Nat) : Int) := by rw [a]; push_cast; omega
      refine ⟨hid, by rw [hp]; omega, by rw [hp]; push_cast; omega, c1, m, ?_, ?_, ?_⟩
      · rw [hp, Int.toNat_ofNat, List.getElem?_cons_succ]
        exact hm
      · intro h0; rw [hp] at h0; push_cast at h0; omega
      · intro _
        exact ⟨b, c2⟩

/-- C29: the node list recorded by `findBestMove` of `tree.cpp` is a rooted tree.
Node 0 is the `ROOT` node with parent id `-1`; the node at index `i` has id `i`;
every other node has a parent id `p` with `0 ≤ p < id`; the nodes after the root
are the record (`Tree.Recorded`) of the invocations of `minimax` on all children
of `s` with caller node 0, so each node carries the id of the node of its caller
and the player tag of the state it was called on: children of the root have the
tag of the player who moves after `s`, deeper nodes the tag opposite to their
parent. -/
theorem trace_is_rooted_tree (s : State) (depth : Int) (tr : Tree.Trace) (h : WellFormed s) :
    ∃ (m : Move) (tr2 : Tree.Trace) (vals : List Int) (seg : List Tree.LogNode)
      (root : Tree.LogNode),
      Tree.findBestMove s depth tr = some (m, tr2) ∧
      tr2.currentTurnNodes = root :: seg ∧
      root.id = 0 ∧ root.parentId = -1 ∧ root.type = "ROOT" ∧
      Tree.Recorded 1 0 (depth - 1) ((generateAllMoves s).map (applyMove s)) vals seg ∧
      (∀ (i : Nat) (n : Tree.LogNode), tr2.currentTurnNodes[i]? = some n → n.id = (i : Int)) ∧
      (∀ (i : Nat) (n : Tree.LogNode), 1 ≤ i → tr2.currentTurnNodes[i]? = some n →
        0 ≤ n.parentId ∧ n.parentId < (i : Int) ∧ (n.type = "MAX" ∨ n.type = "MIN") ∧
        ∃ p, tr2.currentTurnNodes[n.parentId.toNat]? = some p ∧
          (n.parentId = 0 → n.type = (if s.isMaxTurn then "MIN" else "MAX")) ∧
          (1 ≤ n.parentId → n.type ≠ p.type)) := by
  obtain ⟨m, tr2, hf⟩ := Tree_findBestMove_total s depth tr h
  obtain ⟨vals, seg, e1, hrec, _⟩ := Tree_findBestMove_recorded s depth tr m tr2 hf
  refine ⟨m, tr2, vals, seg, _, hf, e1, rfl, rfl, rfl, hrec, ?_, ?_⟩
  · intro i n hn
    rw [e1] at hn
    cases i with
    | zero =>
      simp only [List.getElem?_cons_zero, Option.some.injEq] at hn
      rw [← hn]; rfl
    | succ i => exact (Tree_trace_nodes depth _ vals seg _ hrec (i + 1) n (by omega) hn).1
  · intro i n hi hn
    rw [e1] at hn ⊢
    obtain ⟨_, a, b, c, p, hp, h0, h1⟩ := Tree_trace_nodes depth _ vals seg _ hrec i n hi hn
    refine ⟨a, b, c, p, hp, ?_, fun hh => (h1 hh).2⟩
    intro hz
    obtain ⟨_, _, t, ht, htag⟩ := h0 hz
    obtain ⟨mv, _, rfl⟩ := List.mem_map.1 ht
    rw [htag]
    exact (Tree_tag_applyMove s mv).2

theorem trace_is_rooted_tree_witness :
    WellFormed initialState ∧
    ∃ (m : Move) (tr2 : Tree.Trace) (vals : List Int) (seg : List Tree.LogNode)
      (root : Tree.LogNode),
      Tree.findBestMove initialState 3 (Tree.Trace.mk [] []) = some (m, tr2) ∧
      tr2.currentTurnNodes = root :: seg ∧
      root.id = 0 ∧ root.parentId = -1 ∧ root.type = "ROOT" ∧
      Tree.Recorded 1 0 (3 - 1) ((generateAllMoves initialState).map (applyMove initialState))
        vals seg ∧
      (∀ (i : Nat) (n : Tree.LogNode), tr2.currentTurnNodes[i]? = some n → n.id = (i : Int)) ∧
      (∀ (i : Nat) (n : Tree.LogNode), 1 ≤ i → tr2.currentTurnNodes[i]? = some n →
        0 ≤ n.parentId ∧ n.parentId < (i : Int) ∧ (n.type = "MAX" ∨ n.type = "MIN") ∧
        ∃ p, tr2.currentTurnNodes[n.parentId.toNat]? = some p ∧
          (n.parentId = 0 → n.type = (if initialState.isMaxTurn then "MIN" else "MAX")) ∧
          (1 ≤ n.parentId → n.type ≠ p.type)) :=
  ⟨by decide, trace_is_rooted_tree initialState 3 (Tree.Trace.mk [] []) (by decide)⟩

theorem Checked_rd {α : Type} (a : Int → Int → α) (x y : Int) (h : inBounds x y = true) :
    Checked.rd a x y = some (a x y) := by
  simp only [Checked.rd, h, if_true]

theorem Checked_wr {α : Type} (a : Int → Int → α) (x y : Int) (v : α)
    (h : inBounds x y = true) : Checked.wr a x y v = some (setCell a x y v) := by
  simp only [Checked.wr, h, if_true]

theorem foldlM_some {α β : Type} (f : β → α → Option β) (g : β → α → β) :
    ∀ (l : List α), (∀ b, ∀ a ∈ l, f b a = some (g b a)) →
      ∀ b, l.foldlM f b = some (l.foldl g b) := by
  intro l
  induction l with
  | nil => intro _ b; rfl
  | cons a l ih =>
    intro h b
    rw [List.foldlM_cons, h b a (List.mem_cons_self _ _)]
    exact ih (fun b2 a2 h2 => h b2 a2 (List.mem_cons_of_mem _ h2)) (g b a)

theorem foldl_push_filter {α : Type} (p : α → Bool) :
    ∀ (l acc : List α),
      l.foldl (fun out t => if p t = true then out ++ [t] else out) acc = acc ++ l.filter p := by
  intro l
  induction l with
  | nil => intro acc; simp
  | cons a l ih =>
    intro acc
    rw [List.foldl_cons, ih]
    by_cases h : p a = true
    · simp [h]
    · simp [h]

theorem foldl_push_filter_map {α β : Type} (p : α → Bool) (f : α → β) :
    ∀ (l : List α) (acc : List β),
      l.foldl (fun out t => if p t = true then out ++ [f t] else out) acc
        = acc ++ (l.filter p).map f := by
  intro l
  induction l with
  | nil => intro acc; simp
  | cons a l ih =>
    intro acc
    rw [List.foldl_cons, ih]
    by_cases h : p a = true
    · simp [h]
    · simp [h]

theorem foldl_append_flatMap {α β : Type} (f : α → List β) :
    ∀ (l : List α) (acc : List β),
      l.foldl (fun res a => res ++ f a) acc = acc ++ l.flatMap f := by
  intro l
  induction l with
  | nil => intro acc; simp
  | cons a l ih =>
    intro acc
    rw [List.foldl_cons, ih]
    simp

theorem foldl_count {α : Type} (p : α → Bool) :
    ∀ (l : List α) (cnt : Int),
      l.foldl (fun c t => if p t = true then c + 1 else c) cnt = cnt + (l.countP p : Nat) := by
  intro l
  induction l with
  | nil => intro cnt; simp
  | cons a l ih =>
    intro cnt
    rw [List.foldl_cons, ih]
    by_cases h : p a = true
    · simp [h]; omega
    · simp [h]

theorem Checked_isLegitMove (s : State) (fx fy tx ty : Int) :
    Checked.isLegitMove s fx fy tx ty = some (isLegitMove s fx fy tx ty) := by
  unfold Checked.isLegitMove isLegitMove
  by_cases hb : inBounds tx ty = true
  · simp only [hb, Bool.not_true, Bool.false_eq_true, if_false, Checked_rd _ _ _ hb,
      Option.bind_eq_bind, Option.some_bind, Option.pure_def]
    split_ifs <;> rfl
  · simp [hb]

theorem Checked_getLegalStepMoves (s : State) :
    Checked.getLegalStepMoves s = some (getLegalStepMoves s) := by
  unfold Checked.getLegalStepMoves getLegalStepMoves
  dsimp only
  rw [foldlM_some _ (fun out t =>
    if isLegitMove s (getCurrentPlayerPos s).1 (getCurrentPlayerPos s).2 t.1 t.2 = true
      then out ++ [t] else out)]
  · rw [foldl_push_filter (fun t : Int × Int =>
      isLegitMove s (getCurrentPlayerPos s).1 (getCurrentPlayerPos s).2 t.1 t.2)]
    simp
  · intro b a _
    simp only [Checked_isLegitMove, Option.bind_eq_bind, Option.some_bind, Option.pure_def]

theorem Checked_placeBarrier (s : State) (x y : Int) :
    Checked.placeBarrier s x y = some (placeBarrier s x y) := by
  unfold Checked.placeBarrier placeBarrier
  by_cases hb : inBounds x y = true
  · simp only [hb, Bool.not_true, Bool.false_eq_true, if_false, Checked_rd _ _ _ hb,
      Checked_wr _ _ _ _ hb, Option.bind_eq_bind, Option.some_bind, Option.pure_def]
    split_ifs <;> rfl
  · simp [hb]

theorem Checked_applyStepMove (s : State) (x y : Int)
    (hp : inBounds (getCurrentPlayerPos s).1 (getCurrentPlayerPos s).2 = true)
    (hb : inBounds x y = true) :
    Checked.applyStepMove s x y = some (applyStepMove s x y) := by
  unfold Checked.applyStepMove applyStepMove
  simp only [Checked_wr _ _ _ _ hp, Checked_wr _ _ _ _ hb, Option.bind_eq_bind,
    Option.some_bind, Option.pure_def]

theorem Checked_applyMove (s : State) (m : Move)
    (hp : inBounds (getCurrentPlayerPos s).1 (getCurrentPlayerPos s).2 = true)
    (hb : inBounds m.moveX m.moveY = true) :
    Checked.applyMove s m = some (applyMove s m) := by
  unfold Checked.applyMove applyMove
  simp only [Checked_applyStepMove s _ _ hp hb, Checked_placeBarrier, Option.bind_eq_bind,
    Option.some_bind, Option.pure_def]

theorem Checked_hasNoMoves (s : State) : Checked.hasNoMoves s = some (hasNoMoves s) := by
  simp only [Checked.hasNoMoves, hasNoMoves, Checked_getLegalStepMoves, Option.bind_eq_bind,
    Option.some_bind, Option.pure_def]

theorem Checked_calculateMobility (s : State) :
    Checked.calculateMobility s = some (calculateMobility s) := by
  simp only [Checked.calculateMobility, Checked.countMovesForPlayer, calculateMobility,
    countMovesForPlayer, Checked_getLegalStepMoves, Option.bind_eq_bind, Option.some_bind,
    Option.pure_def]

theorem Checked_blockedAround (s : State) (x y : Int) :
    Checked.blockedAround s x y = some (blockedAround s x y) := by
  unfold Checked.blockedAround blockedAround
  rw [foldlM_some _ (fun cnt c =>
    if (inBounds c.1 c.2 && decide (s.board c.1 c.2 = BLOCKED)) = true then cnt + 1 else cnt)]
  · rw [foldl_count (fun c : Int × Int => inBounds c.1 c.2 && decide (s.board c.1 c.2 = BLOCKED))]
    simp
  · intro b a _
    by_cases hb : inBounds a.1 a.2 = true
    · simp only [hb, if_true, Checked_rd _ _ _ hb, Option.bind_eq_bind, Option.some_bind,
        Option.pure_def, Bool.true_and, decide_eq_true_eq]
    · simp [hb]

theorem Checked_calculateBarriers (s : State) :
    Checked.calculateBarriers s = some (calculateBarriers s) := by
  simp only [Checked.calculateBarriers, calculateBarriers, Checked_blockedAround,
    Option.bind_eq_bind, Option.some_bind, Option.pure_def]

theorem Checked_relaxStep (s : State) (cd : Int) (acc : (Int → Int → Int) × List (Int × Int))
    (c : Int × Int) : Checked.relaxStep s cd acc c = some (M3.relaxStep s cd acc c) := by
  unfold Checked.relaxStep M3.relaxStep
  by_cases hb : inBounds c.1 c.2 = true
  · simp only [hb, Bool.not_true, Bool.false_eq_true, if_false, Checked_rd _ _ _ hb,
      Checked_wr _ _ _ _ hb, Option.bind_eq_bind, Option.some_bind, Option.pure_def]
    split_ifs <;> rfl
  · simp [hb]

theorem relaxFold_queue_inBounds (s : State) (cd : Int) :
    ∀ (ns : List (Int × Int)) (acc : (Int → Int → Int) × List (Int × Int)),
      (∀ c ∈ acc.2, inBounds c.1 c.2 = true) →
      ∀ c ∈ (ns.foldl (M3.relaxStep s cd) acc).2, inBounds c.1 c.2 = true := by
  intro ns
  induction ns with
  | nil => intro acc h; exact h
  | cons n ns ih =>
    intro acc h
    rw [List.foldl_cons]
    apply ih
    unfold M3.relaxStep
    by_cases hb : inBounds n.1 n.2 = true
    · simp only [hb, Bool.not_true, Bool.false_eq_true, if_false]
      split_ifs
      · exact h
      · intro c hc
        rw [List.mem_append, List.mem_singleton] at hc
        rcases hc with hc | rfl
        · exact h c hc
        · exact hb
      · exact h
    · simp only [hb, Bool.not_false, if_true]
      exact h

theorem Checked_bfsLoop (s : State) :
    ∀ (fuel : Nat) (q : List (Int × Int)) (head : Nat) (dist : Int → Int → Int),
      (∀ c ∈ q, inBounds c.1 c.2 = true) →
      Checked.bfsLoop s fuel q head dist = M3.bfsLoop s fuel q head dist := by
  intro fuel
  induction fuel with
  | zero => intro q head dist _; rfl
  | succ fuel ih =>
    intro q head dist hq
    unfold Checked.bfsLoop M3.bfsLoop
    cases hc : q[head]? with
    | none => rfl
    | some c =>
      have hcb : inBounds c.1 c.2 = true := hq c (List.getElem?_mem hc)
      simp only [Checked_rd _ _ _ hcb, Option.bind_eq_bind, Option.some_bind]
      rw [foldlM_some _ (M3.relaxStep s (dist c.1 c.2)) _
        (fun b a _ => Checked_relaxStep s _ b a)]
      simp only [Option.some_bind]
      rw [relaxNeighbours_eq_foldl]
      exact ih _ _ _ (relaxFold_queue_inBounds s _ _ (dist, q) hq)

theorem foldl_setCell_const (v : Int) :
    ∀ l : List (Int × Int),
      l.foldl (fun (d : Int → Int → Int) c => setCell d c.1 c.2 v) (fun _ _ => v)
        = fun _ _ => v := by
  intro l
  induction l with
  | nil => rfl
  | cons c l ih =>
    rw [List.foldl_cons]
    have : setCell (fun _ _ => v) c.1 c.2 v = fun _ _ => v := by
      funext i j
      simp [setCell]
    rw [this]
    exact ih

theorem Checked_bfsDistances (s : State) (x y : Int) (hb : inBounds x y = true) :
    Checked.bfsDistances s x y = M3.bfsDistances s x y := by
  unfold Checked.bfsDistances M3.bfsDistances
  rw [foldlM_some _ (fun (d : Int → Int → Int) c => setCell d c.1 c.2 999) allCells
    (fun b a ha => Checked_wr b a.1 a.2 999 ((mem_allCells a.1 a.2).1 ha))]
  rw [foldl_setCell_const 999 allCells]
  simp only [Checked_wr _ _ _ _ hb, Option.bind_eq_bind, Option.some_bind]
  apply Checked_bfsLoop
  intro c hc
  rw [List.mem_singleton] at hc
  rw [hc]
  exact hb

theorem Checked_calculateVoronoi (s : State) (ha : inBounds s.aiX s.aiY = true)
    (hh : inBounds s.huX s.huY = true) :
    Checked.calculateVoronoi s = M3.calculateVoronoi s := by
  unfold Checked.calculateVoronoi M3.calculateVoronoi
  rw [Checked_bfsDistances s _ _ ha, Checked_bfsDistances s _ _ hh]
  cases M3.bfsDistances s s.aiX s.aiY with
  | none => rfl
  | some dA =>
    cases M3.bfsDistances s s.huX s.huY with
    | none => rfl
    | some dH =>
      simp only [Option.bind_eq_bind, Option.some_bind, Option.pure_def]
      apply foldlM_some
      intro b a hmem
      have hab := (mem_allCells a.1 a.2).1 hmem
      simp only [Checked_rd _ _ _ hab, Option.some_bind]
      split_ifs <;> rfl

theorem Checked_spreadStep (s : State) (dist : Int) (acc : (Int → Int → Bool) × List M3.Node)
    (c : Int × Int) :
    Checked.spreadStep s dist acc c = some
      (if !inBounds c.1 c.2 then acc
        else if acc.1 c.1 c.2 then acc
        else if s.board c.1 c.2 = BLOCKED then acc
        else (setCell acc.1 c.1 c.2 true, acc.2 ++ [M3.Node.mk c.1 c.2 (dist + 1)])) := by
  unfold Checked.spreadStep
  by_cases hb : inBounds c.1 c.2 = true
  · simp only [hb, Bool.not_true, Bool.false_eq_true, if_false, Checked_rd _ _ _ hb,
      Checked_wr _ _ _ _ hb, Option.bind_eq_bind, Option.some_bind, Option.pure_def]
    split_ifs <;> rfl
  · simp [hb]

theorem Checked_localSpaceLoop (s : State) (sx sy maxDist : Int) :
    ∀ (fuel : Nat) (q : List M3.Node) (i : Nat) (vis : Int → Int → Bool) (cnt : Int),
      Checked.localSpaceLoop s sx sy maxDist fuel q i vis cnt
        = M3.localSpaceLoop s sx sy maxDist fuel q i vis cnt := by
  intro fuel
  induction fuel with
  | zero => intro q i vis cnt; rfl
  | succ fuel ih =>
    intro q i vis cnt
    unfold Checked.localSpaceLoop M3.localSpaceLoop
    cases hc : q[i]? with
    | none => rfl
    | some n =>
      dsimp only
      by_cases hd : n.dist = maxDist
      · rw [if_pos hd, if_pos hd]
        exact ih _ _ _ _
      · rw [if_neg hd, if_neg hd]
        rw [foldlM_some _ _ _ (fun b a _ => Checked_spreadStep s n.dist b a)]
        simp only [Option.bind_eq_bind, Option.some_bind]
        exact ih _ _ _ _

theorem Checked_countLocalSpaceAround (s : State) (sx sy maxDist : Int)
    (hb : inBounds sx sy = true) :
    Checked.countLocalSpaceAround s sx sy maxDist = M3.countLocalSpaceAround s sx sy maxDist := by
  unfold Checked.countLocalSpaceAround M3.countLocalSpaceAround
  simp only [Checked_wr _ _ _ _ hb, Option.bind_eq_bind, Option.some_bind]
  exact Checked_localSpaceLoop s sx sy maxDist _ _ _ _ _

theorem Checked_calculateLocalSpace (s : State) (ha : inBounds s.aiX s.aiY = true)
    (hh : inBounds s.huX s.huY = true) :
    Checked.calculateLocalSpace s = M3.calculateLocalSpace s := by
  unfold Checked.calculateLocalSpace M3.calculateLocalSpace
  dsimp only
  rw [Checked_countLocalSpaceAround s _ _ _ ha, Checked_countLocalSpaceAround s _ _ _ hh]

theorem Checked_eval (s : State) (depth turns : Int) (ha : inBounds s.aiX s.aiY = true)
    (hh : inBounds s.huX s.huY = true) :
    Checked.eval s depth turns = M3.eval s depth turns := by
  unfold Checked.eval M3.eval
  simp only [Checked_hasNoMoves, Checked_calculateMobility, Checked_calculateBarriers,
    Checked_calculateVoronoi s ha hh, Checked_calculateLocalSpace s ha hh,
    Option.bind_eq_bind, Option.some_bind, Option.pure_def]

theorem Checked_emptyLoop (after : State) (mx my : Int) (res : List Move) :
    allCells.foldlM (fun res c => do
      let v ← Checked.rd after.board c.1 c.2
      pure (if v = EMPTY then res ++ [Move.mk mx my c.1 c.2] else res)) res
    = some (res ++ (allCells.filter (fun c => decide (after.board c.1 c.2 = EMPTY))).map
        (fun c => Move.mk mx my c.1 c.2)) := by
  rw [foldlM_some _ (fun out c =>
    if decide (after.board c.1 c.2 = EMPTY) = true
      then out ++ [Move.mk mx my c.1 c.2] else out)]
  · rw [foldl_push_filter_map
      (fun c : Int × Int => decide (after.board c.1 c.2 = EMPTY))
      (fun c => Move.mk mx my c.1 c.2)]
  · intro b a ha
    simp only [Checked_rd _ _ _ ((mem_allCells a.1 a.2).1 ha), Option.bind_eq_bind,
      Option.some_bind, Option.pure_def, decide_eq_true_eq]

theorem Checked_genStep (s : State)
    (hp : inBounds (getCurrentPlayerPos s).1 (getCurrentPlayerPos s).2 = true)
    (res : List Move) (p : Int × Int) (hmem : p ∈ getLegalStepMoves s) :
    (do
      let after ← Checked.applyStepMove s p.1 p.2
      allCells.foldlM (fun res c => do
        let v ← Checked.rd after.board c.1 c.2
        pure (if v = EMPTY then res ++ [Move.mk p.1 p.2 c.1 c.2] else res)) res)
    = some (res ++
      (allCells.filter (fun c => decide ((applyStepMove s p.1 p.2).board c.1 c.2 = EMPTY))).map
        (fun c => Move.mk p.1 p.2 c.1 c.2)) := by
  have hpb : inBounds p.1 p.2 = true := ((mem_getLegalStepMoves s p.1 p.2).1 hmem).1
  rw [Checked_applyStepMove s _ _ hp hpb, Option.bind_eq_bind, Option.some_bind]
  exact Checked_emptyLoop (applyStepMove s p.1 p.2) p.1 p.2 res

theorem Checked_generateAllMoves (s : State)
    (hp : inBounds (getCurrentPlayerPos s).1 (getCurrentPlayerPos s).2 = true) :
    Checked.generateAllMoves s = some (generateAllMoves s) := by
  unfold Checked.generateAllMoves
  rw [Checked_getLegalStepMoves, Option.bind_eq_bind, Option.some_bind]
  rw [foldlM_some _ (fun res p => res ++
    (allCells.filter (fun c => decide ((applyStepMove s p.1 p.2).board c.1 c.2 = EMPTY))).map
      (fun c => Move.mk p.1 p.2 c.1 c.2)) _ (fun res p hmem => Checked_genStep s hp res p hmem)]
  rw [foldl_append_flatMap, List.nil_append]
  rfl

theorem Checked_maxLoop (search2 search : State → Int → Int → Option Int) (s : State) :
    ∀ (ms : List Move) (best alpha beta : Int),
      (∀ m ∈ ms, Checked.applyMove s m = some (applyMove s m) ∧
        ∀ a b : Int, search2 (applyMove s m) a b = search (applyMove s m) a b) →
      Checked.maxLoop search2 s ms best alpha beta = maxLoop search s ms best alpha beta := by
  intro ms
  induction ms with
  | nil => intro best alpha beta _; rfl
  | cons m ms ih =>
    intro best alpha beta h
    obtain ⟨h1, h2⟩ := h m (List.mem_cons_self _ _)
    simp only [Checked.maxLoop, maxLoop, h1, h2]
    cases search (applyMove s m) alpha beta with
    | none => rfl
    | some val =>
      dsimp only
      rw [ih _ _ _ (fun x hx => h x (List.mem_cons_of_mem _ hx))]

theorem Checked_minLoop (search2 search : State → Int → Int → Option Int) (s : State) :
    ∀ (ms : List Move) (best alpha beta : Int),
      (∀ m ∈ ms, Checked.applyMove s m = some (applyMove s m) ∧
        ∀ a b : Int, search2 (applyMove s m) a b = search (applyMove s m) a b) →
      Checked.minLoop search2 s ms best alpha beta = minLoop search s ms best alpha beta := by
  intro ms
  induction ms with
  | nil => intro best alpha beta _; rfl
  | cons m ms ih =>
    intro best alpha beta h
    obtain ⟨h1, h2⟩ := h m (List.mem_cons_self _ _)
    simp only [Checked.minLoop, minLoop, h1, h2]
    cases search (applyMove s m) alpha beta with
    | none => rfl
    | some val =>
      dsimp only
      rw [ih _ _ _ (fun x hx => h x (List.mem_cons_of_mem _ hx))]

theorem Checked_bestLoop (search2 search : State → Int → Int → Option Int) (s : State) :
    ∀ (ms : List Move) (best : Move) (bestVal alpha beta : Int),
      (∀ m ∈ ms, Checked.applyMove s m = some (applyMove s m) ∧
        ∀ a b : Int, search2 (applyMove s m) a b = search (applyMove s m) a b) →
      Checked.bestLoop search2 s ms best bestVal alpha beta
        = bestLoop search s ms best bestVal alpha beta := by
  intro ms
  induction ms with
  | nil => intro best bestVal alpha beta _; rfl
  | cons m ms ih =>
    intro best bestVal alpha beta h
    obtain ⟨h1, h2⟩ := h m (List.mem_cons_self _ _)
    simp only [Checked.bestLoop, bestLoop, h1, h2]
    cases search (applyMove s m) alpha beta with
    | none => rfl
    | some val =>
      dsimp only
      rw [ih _ _ _ _ (fun x hx => h x (List.mem_cons_of_mem _ hx))]

theorem Checked_applyMove_generated {s : State} (h : WellFormed s) {m : Move}
    (hm : m ∈ generateAllMoves s) : Checked.applyMove s m = some (applyMove s m) :=
  Checked_applyMove s m h.cur_inBounds (gen_facts h hm).2.1

theorem Checked_minimax (turns : Int) :
    ∀ (fuel : Nat) (s : State) (depth alpha beta : Int), WellFormed s →
      Checked.minimax turns fuel s depth alpha beta
        = minimaxWith (fun t d => M3.eval t d turns) 2000000000 fuel s depth alpha beta := by
  intro fuel
  induction fuel with
  | zero => intro s depth alpha beta _; rfl
  | succ fuel ih =>
    intro s depth alpha beta h
    have hch : ∀ m ∈ generateAllMoves s, Checked.applyMove s m = some (applyMove s m) ∧
        ∀ a b : Int, Checked.minimax turns fuel (applyMove s m) (depth - 1) a b
          = minimaxWith (fun t d => M3.eval t d turns) 2000000000 fuel (applyMove s m)
              (depth - 1) a b :=
      fun m hm => ⟨Checked_applyMove_generated h hm,
        fun a b => ih _ _ a b (wellFormed_applyMove h hm)⟩
    rw [Checked.minimax, minimaxWith]
    simp only [Checked_hasNoMoves, Checked_eval s _ turns h.1 h.2.1,
      Checked_generateAllMoves s h.cur_inBounds]
    by_cases hd : depth = 0
    · simp only [hd, if_true, true_or]
    · simp only [hd, if_false, false_or]
      by_cases hn : hasNoMoves s = true
      · simp only [hn, if_true]
      · simp only [hn, Bool.false_eq_true, if_false]
        by_cases he : (generateAllMoves s).isEmpty = true
        · simp only [he, if_true]
        · simp only [he, Bool.false_eq_true, if_false]
          by_cases ht : s.isMaxTurn = true
          · simp only [ht, if_true]
            exact Checked_maxLoop _ _ s _ _ _ _ hch
          · simp only [ht, Bool.false_eq_true, if_false]
            exact Checked_minLoop _ _ s _ _ _ _ hch

theorem Checked_findBestMove (s : State) (depth turns : Int) (h : WellFormed s) :
    Checked.findBestMove s depth turns = M3.findBestMove s depth turns := by
  unfold Checked.findBestMove M3.findBestMove findBestMoveWith
  simp only [Checked_generateAllMoves s h.cur_inBounds]
  apply Checked_bestLoop
  intro m hm
  exact ⟨Checked_applyMove_generated h hm,
    fun a b => Checked_minimax turns _ _ _ a b (wellFormed_applyMove h hm)⟩

theorem placeBarrier_generated {s : State} {m : Move} (hm : m ∈ generateAllMoves s) :
    (placeBarrier (applyStepMove s m.moveX m.moveY) m.removeX m.removeY).1 = true := by
  obtain ⟨_, hb, he⟩ := (mem_generateAllMoves s m).1 hm
  rw [placeBarrier_of_empty _ _ _ hb he]

/-- C22: the search of `m3.cpp` has no failure path on well-formed input.  For a
well-formed state and every depth (in particular every depth `≥ 0`) the
bounds-checked `minimax` and `findBestMove`, in which every array subscript made
through `getLegalStepMoves`, `applyStepMove`, `placeBarrier`, `generateAllMoves`
and the evaluator's neighbourhood and breadth-first scans fails when out of
bounds, return a result, the same as the unchecked functions; and on every
state reachable by generated moves the `placeBarrier` call inside `applyMove`
returns true for each generated move. -/
theorem search_in_bounds (s : State) (depth turns : Int) (h : WellFormed s)
    (_hd : 0 ≤ depth) :
    (∀ alpha beta : Int, ∃ r,
      Checked.minimax turns searchFuel s depth alpha beta = some r ∧
      M3.minimax s depth alpha beta turns = some r) ∧
    (∃ m, Checked.findBestMove s depth turns = some m ∧
      M3.findBestMove s depth turns = some m) ∧
    (∀ t : State, Reachable s t → ∀ m ∈ generateAllMoves t,
      (placeBarrier (applyStepMove t m.moveX m.moveY) m.removeX m.removeY).1 = true ∧
      Checked.applyMove t m = some (applyMove t m) ∧ WellFormed (applyMove t m)) := by
  have e3 : ∀ (t : State) (d : Int), WellFormed t →
      ∃ v, (fun u e => M3.eval u e turns) t d = some v :=
    fun t d ht => M3_eval_total t d turns ht
  refine ⟨?_, ?_, ?_⟩
  · intro alpha beta
    obtain ⟨r, hr⟩ := minimaxWith_total _ 2000000000 e3 searchFuel s depth alpha beta h
      (searchFuel_enough s)
    exact ⟨r, by rw [Checked_minimax turns _ _ _ _ _ h]; exact hr, hr⟩
  · have : ∃ m, M3.findBestMove s depth turns = some m := by
      apply bestLoop_total
      intro m hm a b
      exact minimaxWith_total _ _ e3 searchFuel _ _ a b (wellFormed_applyMove h hm)
        (searchFuel_enough _)
    obtain ⟨m, hm⟩ := this
    exact ⟨m, by rw [Checked_findBestMove s depth turns h]; exact hm, hm⟩
  · intro t ht m hm
    have hwt := ht.wellFormed h
    exact ⟨placeBarrier_generated hm, Checked_applyMove_generated hwt hm,
      wellFormed_applyMove hwt hm⟩

theorem search_in_bounds_witness :
    WellFormed initialState ∧ (0 : Int) ≤ 3 ∧
    ∃ m, Checked.findBestMove initialState 3 initialTurns = some m ∧
      M3.findBestMove initialState 3 initialTurns = some m :=
  ⟨by decide, by decide,
    (search_in_bounds initialState 3 initialTurns (by decide) (by decide)).2.1⟩

/-! ## Values recorded in the trace -/

theorem foldl_max_shift : ∀ (ws : List Int) (a b : Int),
    ws.foldl max (max a b) = max a (ws.foldl max b) := by
  intro ws
  induction ws with
  | nil => intro a b; rfl
  | cons w ws ih =>
    intro a b
    rw [List.foldl_cons, List.foldl_cons, max_assoc, ih]

theorem foldl_min_shift : ∀ (ws : List Int) (a b : Int),
    ws.foldl min (min a b) = min a (ws.foldl min b) := by
  intro ws
  induction ws with
  | nil => intro a b; rfl
  | cons w ws ih =>
    intro a b
    rw [List.foldl_cons, List.foldl_cons, min_assoc, ih]

theorem foldl_max_listMax : ∀ (ws : List Int) (c : Int), ws.foldl max c = listMax c ws := by
  intro ws
  induction ws with
  | nil => intro c; rfl
  | cons w ws ih =>
    intro c
    rw [List.foldl_cons, foldl_max_shift, ih, listMax]

theorem foldl_min_listMin : ∀ (ws : List Int) (c : Int), ws.foldl min c = listMin c ws := by
  intro ws
  induction ws with
  | nil => intro c; rfl
  | cons w ws ih =>
    intro c
    rw [List.foldl_cons, foldl_min_shift, ih, listMin]

theorem foldl_max_sentinel (b c : Int) (cs : List Int) (h : b ≤ c) :
    (c :: cs).foldl max b = listMax c cs := by
  rw [List.foldl_cons, max_eq_right h, foldl_max_listMax]

theorem foldl_min_sentinel (b c : Int) (cs : List Int) (h : c ≤ b) :
    (c :: cs).foldl min b = listMin c cs := by
  rw [List.foldl_cons, min_eq_right h, foldl_min_listMin]

theorem foldl_max_of_le : ∀ (ws : List Int) (b : Int), (∀ w ∈ ws, w ≤ b) →
    ws.foldl max b = b := by
  intro ws
  induction ws with
  | nil => intro b _; rfl
  | cons w ws ih =>
    intro b h
    rw [List.foldl_cons, max_eq_left (h w (List.mem_cons_self _ _))]
    exact ih b (fun x hx => h x (List.mem_cons_of_mem _ hx))

theorem Tree_childrenOf_nil (l : List Tree.LogNode) (p : Int)
    (h : ∀ n ∈ l, n.parentId ≠ p) : Tree.childrenOf l p = [] := by
  unfold Tree.childrenOf
  rw [List.filter_eq_nil_iff]
  intro n hn
  simp only [decide_eq_true_eq]
  exact h n hn

theorem Tree_childrenOf_append (l1 l2 : List Tree.LogNode) (p : Int) :
    Tree.childrenOf (l1 ++ l2) p = Tree.childrenOf l1 p ++ Tree.childrenOf l2 p := by
  unfold Tree.childrenOf
  exact List.filter_append _ _

theorem Tree_childrenOf_cons_pos (n : Tree.LogNode) (l : List Tree.LogNode) (p : Int)
    (h : n.parentId = p) : Tree.childrenOf (n :: l) p = n :: Tree.childrenOf l p := by
  unfold Tree.childrenOf
  rw [List.filter_cons_of_pos]
  simp only [decide_eq_true_eq]
  exact h

theorem Tree_childrenOf_cons_neg (n : Tree.LogNode) (l : List Tree.LogNode) (p : Int)
    (h : n.parentId ≠ p) : Tree.childrenOf (n :: l) p = Tree.childrenOf l p := by
  unfold Tree.childrenOf
  rw [List.filter_cons_of_neg]
  simp only [decide_eq_true_eq]
  exact h

theorem Tree_childrenOf_subset (l : List Tree.LogNode) (p : Int) :
    ∀ c ∈ Tree.childrenOf l p, c ∈ l := by
  intro c hc
  unfold Tree.childrenOf at hc
  exact (List.mem_filter.1 hc).1

theorem Tree_recorded_range {k : Nat} {pid d : Int} {ts : List State} {vals : List Int}
    {seg : List Tree.LogNode} (h : Tree.Recorded k pid d ts vals seg) :
    ∀ n ∈ seg, (k : Int) ≤ n.id ∧ n.id < (k : Int) + seg.length ∧
      (n.parentId = pid ∨ ((k : Int) ≤ n.parentId ∧ n.parentId < n.id)) := by
  intro n hn
  obtain ⟨i, hi⟩ := List.mem_iff_getElem?.1 hn
  have hlt : i < seg.length := by
    by_contra hge
    rw [List.getElem?_eq_none (by omega)] at hi
    exact Option.noConfusion hi
  have hN := h.nodes i n hi
  obtain ⟨hid, hpar⟩ := hN
  refine ⟨by rw [hid]; push_cast; omega, by rw [hid]; push_cast; omega, ?_⟩
  rcases hpar with ⟨hp, _⟩ | ⟨j, m, hj, _, hp, _⟩
  · exact Or.inl hp
  · right
    rw [hp, hid]
    push_cast
    omega

theorem Tree_NodeOk_congr {nodes nodes2 : List Tree.LogNode} {st st2 : Int → State}
    {n : Tree.LogNode}
    (hch : Tree.childrenOf nodes n.id = Tree.childrenOf nodes2 n.id)
    (hst : st n.id = st2 n.id)
    (hcs : ∀ c ∈ Tree.childrenOf nodes2 n.id, st c.id = st2 c.id)
    (h : Tree.NodeOk nodes2 st2 n) : Tree.NodeOk nodes st n := by
  unfold Tree.NodeOk at *
  have hm : (Tree.childrenOf nodes2 n.id).map (fun c => st c.id)
      = (Tree.childrenOf nodes2 n.id).map (fun c => st2 c.id) :=
    List.map_congr_left hcs
  rw [hch, hst, hm]
  exact h

theorem Tree_tag_max {t : State} (h : Tree.tag t = "MAX") : t.isMaxTurn = true := by
  unfold Tree.tag at h
  cases hb : t.isMaxTurn with
  | true => rfl
  | false =>
    rw [hb] at h
    exact absurd h (by decide)

theorem Tree_tag_min {t : State} (h : Tree.tag t = "MIN") : t.isMaxTurn = false := by
  unfold Tree.tag at h
  cases hb : t.isMaxTurn with
  | false => rfl
  | true =>
    rw [hb] at h
    exact absurd h (by decide)

theorem wellFormed_successors {t : State} (h : WellFormed t) {cs : List State}
    (hp : cs <+: (generateAllMoves t).map (applyMove t)) : ∀ c ∈ cs, WellFormed c := by
  intro c hc
  have := hp.subset hc
  rw [List.mem_map] at this
  obtain ⟨m, hm, rfl⟩ := this
  exact wellFormed_applyMove h hm

theorem Tree_childrenOf_split_parent (node : Tree.LogNode) (seg1 seg2 : List Tree.LogNode)
    (p : Int) (h0 : node.parentId = p) (h1 : ∀ n ∈ seg1, n.parentId ≠ p) :
    Tree.childrenOf (node :: (seg1 ++ seg2)) p = node :: Tree.childrenOf seg2 p := by
  rw [Tree_childrenOf_cons_pos _ _ _ h0, Tree_childrenOf_append, Tree_childrenOf_nil seg1 p h1,
    List.nil_append]

theorem Tree_childrenOf_split_left (node : Tree.LogNode) (seg1 seg2 : List Tree.LogNode)
    (p : Int) (h0 : node.parentId ≠ p) (h2 : ∀ n ∈ seg2, n.parentId ≠ p) :
    Tree.childrenOf (node :: (seg1 ++ seg2)) p = Tree.childrenOf seg1 p := by
  rw [Tree_childrenOf_cons_neg _ _ _ h0, Tree_childrenOf_append, Tree_childrenOf_nil seg2 p h2,
    List.append_nil]

theorem Tree_childrenOf_split_right (node : Tree.LogNode) (seg1 seg2 : List Tree.LogNode)
    (p : Int) (h0 : node.parentId ≠ p) (h1 : ∀ n ∈ seg1, n.parentId ≠ p) :
    Tree.childrenOf (node :: (seg1 ++ seg2)) p = Tree.childrenOf seg2 p := by
  rw [Tree_childrenOf_cons_neg _ _ _ h0, Tree_childrenOf_append, Tree_childrenOf_nil seg1 p h1,
    List.nil_append]

theorem Tree_recorded_values {k : Nat} {pid d : Int} {ts : List State} {vals : List Int}
    {seg : List Tree.LogNode} (h : Tree.Recorded k pid d ts vals seg) :
    pid < (k : Int) → (∀ t ∈ ts, WellFormed t) →
    ∃ st : Int → State,
      (Tree.childrenOf seg pid).map (fun c => c.score) = vals ∧
      (Tree.childrenOf seg pid).map (fun c => st c.id) = ts ∧
      (∀ v ∈ vals, -1000000 ≤ v ∧ v ≤ 1000000) ∧
      ∀ n ∈ seg, Tree.NodeOk seg st n := by
  induction h with
  | nil k pid d =>
    intro _ _
    exact ⟨fun _ => initialState, rfl, rfl, fun v hv => absurd hv (List.not_mem_nil _),
      fun n hn => absurd hn (List.not_mem_nil _)⟩
  | leaf k pid d t ts vals seg2 v info he hi hf hrest ih =>
    intro hpid hwf
    have hwt : WellFormed t := hwf t (List.mem_cons_self _ _)
    have hterm : d = 0 ∨ hasNoMoves t = true := by
      by_contra hcon
      have hg := hf hcon
      have hnm : hasNoMoves t = false := by
        cases hb : hasNoMoves t with
        | false => rfl
        | true => exact absurd (Or.inr hb) hcon
      obtain ⟨m0, ms, e⟩ := generateAllMoves_ne_nil hwt hnm
      rw [hg] at e
      exact List.noConfusion e
    rw [if_pos hterm] at hi
    subst hi
    obtain ⟨st2, a1, a2, a3, a4⟩ :=
      ih (by omega) (fun x hx => hwf x (List.mem_cons_of_mem _ hx))
    have hr2 := Tree_recorded_range hrest
    obtain ⟨v0, hv0, hvb⟩ := M2_evalBounded 0 t 0 hwt le_rfl le_rfl
    have hsame : v0 = v := by
      have hv1 : M2.eval t = some v0 := hv0
      rw [he] at hv1
      exact (Option.some.inj hv1).symm
    obtain ⟨st, hst⟩ : ∃ st : Int → State, ∀ q, st q = if q = (k : Int) then t else st2 q :=
      ⟨_, fun _ => rfl⟩
    have hstk : st k = t := by rw [hst, if_pos rfl]
    have hst2 : ∀ q : Int, (k : Int) + 1 ≤ q → st q = st2 q := by
      intro q hq
      rw [hst, if_neg (by omega)]
    refine ⟨st, ?_, ?_, ?_, ?_⟩
    · rw [Tree_childrenOf_cons_pos _ _ _ rfl, List.map_cons, a1]
    · rw [Tree_childrenOf_cons_pos _ _ _ rfl, List.map_cons]
      dsimp only
      rw [hstk, ← a2]
      congr 1
      apply List.map_congr_left
      intro c hc
      have := (hr2 c (Tree_childrenOf_subset _ _ c hc)).1
      exact hst2 c.id (by omega)
    · intro x hx
      rcases List.mem_cons.1 hx with rfl | hx
      · omega
      · exact a3 x hx
    · intro n hn
      rcases List.mem_cons.1 hn with rfl | hn
      · have hch : Tree.childrenOf
            (Tree.LogNode.mk k pid v (Tree.DEPTH_LIMIT - d) (Tree.tag t) "Leaf" :: seg2) k = [] := by
          rw [Tree_childrenOf_cons_neg _ _ _ (by show pid ≠ (k : Int); omega)]
          apply Tree_childrenOf_nil
          intro c hc
          have := hr2 c hc
          omega
        unfold Tree.NodeOk
        dsimp only
        rw [hch, hstk]
        exact ⟨hwt, rfl, List.nil_prefix, fun _ => ⟨rfl, he⟩, fun hne => absurd rfl hne,
          fun hne => absurd rfl hne⟩
      · have hr := hr2 n hn
        refine Tree_NodeOk_congr ?_ ?_ ?_ (a4 n hn)
        · exact Tree_childrenOf_cons_neg _ _ _ (by show pid ≠ n.id; omega)
        · exact hst2 n.id (by omega)
        · intro c hc
          have := (hr2 c (Tree_childrenOf_subset _ _ c hc)).1
          exact hst2 c.id (by omega)
  | inner k pid d t ts vals seg2 cs cvals seg1 info hn hc hp hr hi hrest ih1 ih2 =>
    intro hpid hwf
    have hwt : WellFormed t := hwf t (List.mem_cons_self _ _)
    obtain ⟨st1, b1, b2, b3, b4⟩ := ih1 (by omega) (wellFormed_successors hwt hp)
    obtain ⟨st2, a1, a2, a3, a4⟩ :=
      ih2 (by omega) (fun x hx => hwf x (List.mem_cons_of_mem _ hx))
    have hr1 := Tree_recorded_range hr
    have hr2 := Tree_recorded_range hrest
    obtain ⟨c, cs2, hcv⟩ : ∃ c cs2, cvals = c :: cs2 := by
      cases hcv : cvals with
      | cons c cs2 => exact ⟨c, cs2, rfl⟩
      | nil =>
        rw [hcv] at b1
        have hnil : Tree.childrenOf seg1 k = [] := List.map_eq_nil_iff.1 b1
        rw [hnil] at b2
        exact absurd b2.symm hc
    have hcb := b3 c (by rw [hcv]; exact List.mem_cons_self _ _)
    have hcsb : ∀ w ∈ cs2, -1000000 ≤ w ∧ w ≤ 1000000 :=
      fun w hw => b3 w (by rw [hcv]; exact List.mem_cons_of_mem _ hw)
    have hmax : cvals.foldl max (-1000000000) = listMax c cs2 := by
      rw [hcv]; exact foldl_max_sentinel _ _ _ (by omega)
    have hmin : cvals.foldl min 1000000000 = listMin c cs2 := by
      rw [hcv]; exact foldl_min_sentinel _ _ _ (by omega)
    have hMb := listMax_bounds 1000000 cs2 c hcb.1 hcb.2 hcsb
    have hmb := listMin_bounds 1000000 cs2 c hcb.1 hcb.2 hcsb
    have hinfo : info ≠ "Leaf" := by
      rcases hi with rfl | rfl
      · decide
      · split_ifs <;> decide
    obtain ⟨st, hst⟩ : ∃ st : Int → State, ∀ q, st q =
        if q = (k : Int) then t
        else if q < (k : Int) + 1 + seg1.length then st1 q else st2 q :=
      ⟨_, fun _ => rfl⟩
    have hstk : st k = t := by rw [hst, if_pos rfl]
    have hst1 : ∀ q : Int, (k : Int) + 1 ≤ q → q < (k : Int) + 1 + seg1.length →
        st q = st1 q := by
      intro q hq1 hq2
      rw [hst, if_neg (by omega), if_pos hq2]
    have hst2 : ∀ q : Int, (k : Int) + 1 + seg1.length ≤ q → st q = st2 q := by
      intro q hq
      rw [hst, if_neg (by omega), if_neg (by omega)]
    have hp1 : ∀ n ∈ seg1, n.parentId ≠ pid := by
      intro n hn1
      have := hr1 n hn1
      omega
    have hp2 : ∀ n ∈ seg2, n.parentId ≠ (k : Int) := by
      intro n hn2
      have := hr2 n hn2
      omega
    refine ⟨st, ?_, ?_, ?_, ?_⟩
    · rw [Tree_childrenOf_split_parent _ _ _ _ rfl hp1, List.map_cons, a1]
    · rw [Tree_childrenOf_split_parent _ _ _ _ rfl hp1, List.map_cons]
      dsimp only
      rw [hstk, ← a2]
      congr 1
      apply List.map_congr_left
      intro x hx
      have := (hr2 x (Tree_childrenOf_subset _ _ x hx)).1
      exact hst2 x.id (by omega)
    · intro x hx
      rcases List.mem_cons.1 hx with rfl | hx
      · split_ifs
        · rw [hmax]; exact hMb
        · rw [hmin]; exact hmb
      · exact a3 x hx
    · intro n hnn
      rcases List.mem_cons.1 hnn with rfl | hnn
      · unfold Tree.NodeOk
        dsimp only
        rw [Tree_childrenOf_split_left _ _ _ _ (by show pid ≠ (k : Int); omega) hp2, hstk]
        refine ⟨hwt, rfl, ?_, fun hl => absurd hl hinfo, ?_, ?_⟩
        · have hm : (Tree.childrenOf seg1 k).map (fun x => st x.id) = cs := by
            rw [← b2]
            apply List.map_congr_left
            intro x hx
            have := hr1 x (Tree_childrenOf_subset _ _ x hx)
            exact hst1 x.id (by omega) (by omega)
          rw [hm]
          exact hp
        · intro _ htag
          have hmx := Tree_tag_max htag
          refine ⟨c, cs2, by rw [b1, hcv], ?_⟩
          rw [if_pos hmx]
          exact hmax
        · intro _ htag
          have hmn := Tree_tag_min htag
          refine ⟨c, cs2, by rw [b1, hcv], ?_⟩
          simp only [hmn, Bool.false_eq_true, if_false]
          exact hmin
      · rcases List.mem_append.1 hnn with hn1 | hn2
        · have r := hr1 n hn1
          refine Tree_NodeOk_congr ?_ ?_ ?_ (b4 n hn1)
          · apply Tree_childrenOf_split_left
            · show pid ≠ n.id
              omega
            · intro m hm
              have := hr2 m hm
              omega
          · exact hst1 n.id (by omega) (by omega)
          · intro x hx
            have := hr1 x (Tree_childrenOf_subset _ _ x hx)
            exact hst1 x.id (by omega) (by omega)
        · have r := hr2 n hn2
          refine Tree_NodeOk_congr ?_ ?_ ?_ (a4 n hn2)
          · apply Tree_childrenOf_split_right
            · show pid ≠ n.id
              omega
            · intro m hm
              have := hr1 m hm
              omega
          · exact hst2 n.id (by omega)
          · intro x hx
            have := hr2 x (Tree_childrenOf_subset _ _ x hx)
            exact hst2 x.id (by omega)

theorem Tree_bestLoop_recorded_move (fuel : Nat) (s : State) (d pid : Int)
    (IH : ∀ (t : State) (a b : Int) (ns : List Tree.LogNode) (v : Int)
      (ns2 : List Tree.LogNode),
      Tree.minimax fuel t d a b pid ns = some (v, ns2) →
      ∃ seg, ns2 = ns ++ seg ∧ Tree.Recorded ns.length pid d [t] [v] seg) :
    ∀ (ms : List Move) (nodes : List Tree.LogNode) (best : Move) (bestVal alpha beta : Int)
      (bm : Move) (bv : Int) (nodes2 : List Tree.LogNode),
      Tree.bestLoop (fun child a b ns => Tree.minimax fuel child d a b pid ns)
        s ms best bestVal alpha beta nodes = some (bm, bv, nodes2) →
      ∃ (vals : List Int) (seg : List Tree.LogNode),
        nodes2 = nodes ++ seg ∧
        Tree.Recorded nodes.length pid d (ms.map (applyMove s)) vals seg ∧
        bv = vals.foldl max bestVal ∧
        ((bm = best ∧ ∀ v ∈ vals, v ≤ bestVal) ∨
          ∃ j : Nat, ms[j]? = some bm ∧ vals[j]? = some bv) := by
  intro ms
  induction ms with
  | nil =>
    intro nodes best bestVal alpha beta bm bv nodes2 h
    simp only [Tree.bestLoop, Option.some.injEq, Prod.mk.injEq] at h
    refine ⟨[], [], ?_, Tree.Recorded.nil _ _ _, ?_, ?_⟩
    · rw [← h.2.2]; simp
    · rw [← h.2.1]; rfl
    · exact Or.inl ⟨h.1.symm, fun v hv => absurd hv (List.not_mem_nil _)⟩
  | cons m ms ih =>
    intro nodes best bestVal alpha beta bm bv nodes2 h
    simp only [Tree.bestLoop] at h
    cases hsr : Tree.minimax fuel (applyMove s m) d alpha beta pid nodes with
    | none => rw [hsr] at h; exact Option.noConfusion h
    | some res =>
      obtain ⟨val, nodes1⟩ := res
      rw [hsr] at h
      dsimp only at h
      obtain ⟨seg1, hn1, hrec1⟩ := IH _ _ _ _ _ _ hsr
      obtain ⟨vals, seg, e1, hrec, e2, e3⟩ := ih _ _ _ _ _ _ _ _ h
      refine ⟨val :: vals, seg1 ++ seg, ?_, ?_, ?_, ?_⟩
      · rw [e1, hn1]; simp
      · simp only [List.map_cons]
        refine Tree.Recorded.cons_append hrec1 (hrec.cast ?_)
        rw [hn1]; simp
      · rw [e2, List.foldl_cons]
        congr 1
        split_ifs <;> omega
      · rcases e3 with ⟨hb, hle⟩ | ⟨j, hj1, hj2⟩
        · by_cases hgt : val > bestVal
          · right
            rw [if_pos hgt] at hb hle
            rw [if_pos hgt] at e2
            refine ⟨0, ?_, ?_⟩
            · rw [hb]; simp
            · rw [e2, foldl_max_of_le vals val hle]; simp
          · left
            rw [if_neg hgt] at hb hle
            refine ⟨hb, ?_⟩
            intro v hv
            rcases List.mem_cons.1 hv with rfl | hv
            · omega
            · exact hle v hv
        · right
          exact ⟨j + 1, by simpa using hj1, by simpa using hj2⟩

theorem Tree_findBestMove_recorded_move (s : State) (depth : Int) (tr : Tree.Trace) (m : Move)
    (tr2 : Tree.Trace) (h : Tree.findBestMove s depth tr = some (m, tr2)) :
    ∃ (vals : List Int) (seg : List Tree.LogNode),
      tr2.currentTurnNodes
        = Tree.LogNode.mk 0 (-1) (vals.foldl max (-1000000000)) 0 "ROOT" "Start" :: seg ∧
      Tree.Recorded 1 0 (depth - 1) ((generateAllMoves s).map (applyMove s)) vals seg ∧
      ((m = Move.mk 0 0 0 0 ∧ ∀ v ∈ vals, v ≤ -1000000000) ∨
        ∃ j : Nat, (generateAllMoves s)[j]? = some m ∧
          vals[j]? = some (vals.foldl max (-1000000000))) := by
  unfold Tree.findBestMove at h
  dsimp only at h
  cases hl : Tree.bestLoop
      (fun child a b ns => Tree.minimax searchFuel child (depth - 1) a b 0 ns) s
      (generateAllMoves s) (Move.mk 0 0 0 0) (-1000000000) (-1000000000) 1000000000
      ([] ++ [Tree.LogNode.mk 0 (-1) 0 0 "ROOT" "Start"]) with
  | none => rw [hl] at h; exact Option.noConfusion h
  | some res =>
    obtain ⟨bm, bv, nodes1⟩ := res
    rw [hl] at h
    simp only [Option.some.injEq, Prod.mk.injEq] at h
    obtain ⟨rfl, rfl⟩ := h
    obtain ⟨vals, seg, e1, hrec, e2, e3⟩ := Tree_bestLoop_recorded_move searchFuel s (depth - 1) 0
      (fun t a b ns v ns2 hh => Tree_minimax_recorded searchFuel t (depth - 1) a b 0 ns v ns2 hh)
      _ _ _ _ _ _ _ _ _ hl
    have hnodes : (if (!nodes1.isEmpty) = true then Tree.setScore nodes1 0 bv else nodes1)
        = Tree.LogNode.mk 0 (-1) (vals.foldl max (-1000000000)) 0 "ROOT" "Start" :: seg := by
      rw [e1, e2]
      simp [Tree.setScore]
    refine ⟨vals, seg, hnodes, by simpa using hrec, ?_⟩
    rw [← e2]
    exact e3

/-- C31: the values recorded by `findBestMove` of `tree.cpp` on a well-formed
non-terminal state are consistent with the recorded tree.  The call returns a move
and a node list `root :: seg`; with `st` giving the state each node id was created
for (the root for `s`, the recorded children of a node for an initial part of the
successors of the node's state, in generation order; for the root, all of them),
every node annotated `Leaf` has no recorded child and its score is `eval` of its
state; every other `MAX` node's score is the maximum of its recorded children's
scores and every other `MIN` node's score their minimum; the root's score is the
maximum of its children's scores, and it is the score of the child recorded for
the returned move. -/
theorem trace_values_consistent (s : State) (depth : Int) (tr : Tree.Trace)
    (h : WellFormed s) (hnt : hasNoMoves s = false) :
    ∃ (m : Move) (tr2 : Tree.Trace) (st : Int → State) (root : Tree.LogNode)
      (seg : List Tree.LogNode),
      Tree.findBestMove s depth tr = some (m, tr2) ∧
      tr2.currentTurnNodes = root :: seg ∧
      root.id = 0 ∧ root.type = "ROOT" ∧ st 0 = s ∧
      (Tree.childrenOf tr2.currentTurnNodes 0).map (fun c => st c.id)
        = (generateAllMoves s).map (applyMove s) ∧
      (∀ n ∈ seg,
        WellFormed (st n.id) ∧ n.type = Tree.tag (st n.id) ∧
        (Tree.childrenOf tr2.currentTurnNodes n.id).map (fun c => st c.id) <+:
          (generateAllMoves (st n.id)).map (applyMove (st n.id)) ∧
        (n.info = "Leaf" →
          Tree.childrenOf tr2.currentTurnNodes n.id = [] ∧
          M2.eval (st n.id) = some n.score) ∧
        (n.info ≠ "Leaf" → n.type = "MAX" →
          ∃ c cs, (Tree.childrenOf tr2.currentTurnNodes n.id).map (fun c => c.score) = c :: cs ∧
            n.score = listMax c cs) ∧
        (n.info ≠ "Leaf" → n.type = "MIN" →
          ∃ c cs, (Tree.childrenOf tr2.currentTurnNodes n.id).map (fun c => c.score) = c :: cs ∧
            n.score = listMin c cs)) ∧
      (∃ c cs, (Tree.childrenOf tr2.currentTurnNodes 0).map (fun c => c.score) = c :: cs ∧
        root.score = listMax c cs) ∧
      (∃ (j : Nat) (child : Tree.LogNode),
        (generateAllMoves s)[j]? = some m ∧
        (Tree.childrenOf tr2.currentTurnNodes 0)[j]? = some child ∧
        st child.id = applyMove s m ∧ child.score = root.score) := by
  obtain ⟨m, tr2, hf⟩ := Tree_findBestMove_total s depth tr h
  obtain ⟨vals, seg, e1, hrec, hmove⟩ := Tree_findBestMove_recorded_move s depth tr m tr2 hf
  have hwf : ∀ t ∈ (generateAllMoves s).map (applyMove s), WellFormed t :=
    wellFormed_successors h (List.prefix_refl _)
  obtain ⟨st1, a1, a2, a3, a4⟩ := Tree_recorded_values hrec (by decide) hwf
  have hr := Tree_recorded_range hrec
  obtain ⟨st, hst⟩ : ∃ st : Int → State, ∀ q, st q = if q = 0 then s else st1 q :=
    ⟨_, fun _ => rfl⟩
  have hst0 : st 0 = s := by rw [hst, if_pos rfl]
  have hst1 : ∀ q : Int, 1 ≤ q → st q = st1 q := by
    intro q hq
    rw [hst, if_neg (by omega)]
  have hch : ∀ p : Int, p ≠ -1 →
      Tree.childrenOf tr2.currentTurnNodes p = Tree.childrenOf seg p := by
    intro p hp
    rw [e1]
    exact Tree_childrenOf_cons_neg _ _ _ (fun e => hp e.symm)
  have hstates : (Tree.childrenOf seg 0).map (fun c => st c.id)
      = (generateAllMoves s).map (applyMove s) := by
    rw [← a2]
    apply List.map_congr_left
    intro c hc
    have := hr c (Tree_childrenOf_subset _ _ c hc)
    exact hst1 c.id (by omega)
  obtain ⟨m0, ms, hgen⟩ := generateAllMoves_ne_nil h hnt
  obtain ⟨c, cs, hvals⟩ : ∃ c cs, vals = c :: cs := by
    cases hv : vals with
    | cons c cs => exact ⟨c, cs, rfl⟩
    | nil =>
      rw [hv] at a1
      have hnil : Tree.childrenOf seg 0 = [] := List.map_eq_nil_iff.1 a1
      rw [hnil, hgen] at a2
      exact List.noConfusion a2
  have hcb := a3 c (by rw [hvals]; exact List.mem_cons_self _ _)
  have hroot : vals.foldl max (-1000000000) = listMax c cs := by
    rw [hvals]; exact foldl_max_sentinel _ _ _ (by omega)
  refine ⟨m, tr2, st, Tree.LogNode.mk 0 (-1) (vals.foldl max (-1000000000)) 0 "ROOT" "Start",
    seg, hf, e1, rfl, rfl, hst0, ?_, ?_, ?_, ?_⟩
  · rw [hch 0 (by decide)]
    exact hstates
  · intro n hn
    have r := hr n hn
    have hok : Tree.NodeOk tr2.currentTurnNodes st n := by
      refine Tree_NodeOk_congr ?_ ?_ ?_ (a4 n hn)
      · exact hch n.id (by omega)
      · exact hst1 n.id (by omega)
      · intro x hx
        have := hr x (Tree_childrenOf_subset _ _ x hx)
        exact hst1 x.id (by omega)
    exact hok
  · refine ⟨c, cs, ?_, hroot⟩
    rw [hch 0 (by decide), a1, hvals]
  · rcases hmove with ⟨_, hle⟩ | ⟨j, hj1, hj2⟩
    · have := hle c (by rw [hvals]; exact List.mem_cons_self _ _)
      omega
    · rw [← a1, List.getElem?_map] at hj2
      cases hcj : (Tree.childrenOf seg 0)[j]? with
      | none => rw [hcj] at hj2; exact Option.noConfusion hj2
      | some child =>
        rw [hcj] at hj2
        refine ⟨j, child, hj1, by rw [hch 0 (by decide)]; exact hcj, ?_, ?_⟩
        · have e : ((Tree.childrenOf seg 0).map (fun c => st c.id))[j]? = some (st child.id) := by
            rw [List.getElem?_map, hcj]; rfl
          rw [hstates, List.getElem?_map, hj1] at e
          exact (Option.some.inj e).symm
        · have := Option.some.inj hj2
          rw [← a1]
          exact this

theorem trace_values_consistent_witness :
    WellFormed initialState ∧ hasNoMoves initialState = false ∧
    ∃ (m : Move) (tr2 : Tree.Trace) (root : Tree.LogNode) (seg : List Tree.LogNode),
      Tree.findBestMove initialState 3 (Tree.Trace.mk [] []) = some (m, tr2) ∧
      tr2.currentTurnNodes = root :: seg ∧
      ∃ c cs, (Tree.childrenOf tr2.currentTurnNodes 0).map (fun c => c.score) = c :: cs ∧
        root.score = listMax c cs := by
  refine ⟨by decide, by decide, ?_⟩
  obtain ⟨m, tr2, _, root, seg, h1, h2, _, _, _, _, _, h3, _⟩ :=
    trace_values_consistent initialState 3 (Tree.Trace.mk [] []) (by decide) (by decide)
  exact ⟨m, tr2, root, seg, h1, h2, h3⟩

/-! ## The game log -/

/-- C32: each `findBestMove(s, depth)` call of `tree.cpp` discards the nodes of the
previous call (its result does not depend on the old `currentTurnNodes`) and
appends exactly one turn record to `gameLog`, leaving the earlier records
unchanged.  The new record has `turnNumber` equal to the previous log length
plus one, `boardState` equal to `s.board`, as `nodes` the nodes created
during this call, which begin with the `ROOT` node and continue with the record
of the invocations on the children of `s`, and `bestMoveScore` equal to the
score of the root node. -/
theorem findBestMove_appends_turn (s : State) (depth : Int) (tr : Tree.Trace)
    (h : WellFormed s) :
    ∃ (m : Move) (tr2 : Tree.Trace) (turnLog : Tree.LogTurn) (root : Tree.LogNode)
      (seg : List Tree.LogNode) (vals : List Int),
      Tree.findBestMove s depth tr = some (m, tr2) ∧
      (∀ old : List Tree.LogNode,
        Tree.findBestMove s depth { tr with currentTurnNodes := old }
          = Tree.findBestMove s depth tr) ∧
      tr2.gameLog = tr.gameLog ++ [turnLog] ∧
      turnLog.turnNumber = (tr.gameLog.length : Int) + 1 ∧
      turnLog.boardState = s.board ∧
      turnLog.nodes = tr2.currentTurnNodes ∧
      tr2.currentTurnNodes = root :: seg ∧
      root.id = 0 ∧ root.parentId = -1 ∧ root.type = "ROOT" ∧ root.info = "Start" ∧
      Tree.Recorded 1 0 (depth - 1) ((generateAllMoves s).map (applyMove s)) vals seg ∧
      turnLog.bestMoveScore = root.score := by
  obtain ⟨m, tr2, hf⟩ := Tree_findBestMove_total s depth tr h
  obtain ⟨vals, seg, e1, hrec, e2⟩ := Tree_findBestMove_recorded s depth tr m tr2 hf
  exact ⟨m, tr2, _, _, seg, vals, hf, fun _ => rfl, e2, rfl, rfl, rfl, e1, rfl, rfl, rfl, rfl,
    hrec, rfl⟩

theorem findBestMove_appends_turn_witness :
    WellFormed initialState ∧
    ∃ (m : Move) (tr2 : Tree.Trace) (turnLog : Tree.LogTurn) (root : Tree.LogNode)
      (seg : List Tree.LogNode) (vals : List Int),
      Tree.findBestMove initialState 3 (Tree.Trace.mk [] []) = some (m, tr2) ∧
      (∀ old : List Tree.LogNode,
        Tree.findBestMove initialState 3
            { (Tree.Trace.mk [] []) with currentTurnNodes := old }
          = Tree.findBestMove initialState 3 (Tree.Trace.mk [] [])) ∧
      tr2.gameLog = (Tree.Trace.mk [] []).gameLog ++ [turnLog] ∧
      turnLog.turnNumber = (((Tree.Trace.mk [] []).gameLog.length : Nat) : Int) + 1 ∧
      turnLog.boardState = initialState.board ∧
      turnLog.nodes = tr2.currentTurnNodes ∧
      tr2.currentTurnNodes = root :: seg ∧
      root.id = 0 ∧ root.parentId = -1 ∧ root.type = "ROOT" ∧ root.info = "Start" ∧
      Tree.Recorded 1 0 (3 - 1) ((generateAllMoves initialState).map (applyMove initialState))
        vals seg ∧
      turnLog.bestMoveScore = root.score :=
  ⟨by decide, findBestMove_appends_turn initialState 3 (Tree.Trace.mk [] []) (by decide)⟩

/-! ## Exchanging the players -/

theorem swapCell_blocked (v : Int) : swapCell v = BLOCKED ↔ v = BLOCKED := by
  unfold swapCell
  split_ifs with h1 h2
  · subst h1; decide
  · subst h2; decide
  · rfl

theorem swapCell_ai (v : Int) : swapCell v = AI_PAWN ↔ v = HU_PAWN := by
  unfold swapCell
  split_ifs with h1 h2
  · subst h1; decide
  · subst h2; decide
  · constructor
    · intro h; exact absurd h h1
    · intro h; exact absurd h h2

theorem swapCell_hu (v : Int) : swapCell v = HU_PAWN ↔ v = AI_PAWN := by
  unfold swapCell
  split_ifs with h1 h2
  · subst h1; decide
  · subst h2; decide
  · constructor
    · intro h; exact absurd h h2
    · intro h; exact absurd h h1

theorem wellFormed_swapPlayers {s : State} (h : WellFormed s) : WellFormed (swapPlayers s) := by
  obtain ⟨h1, h2, h3, h4⟩ := h
  refine ⟨h2, h1, ?_, ?_⟩
  · intro c hc
    show swapCell (s.board c.1 c.2) = AI_PAWN ↔ c = (s.huX, s.huY)
    rw [swapCell_ai]
    exact h4 c hc
  · intro c hc
    show swapCell (s.board c.1 c.2) = HU_PAWN ↔ c = (s.aiX, s.aiY)
    rw [swapCell_hu]
    exact h3 c hc

theorem isLegitMove_congr (s t : State)
    (hb : ∀ i j : Int, (t.board i j = BLOCKED ↔ s.board i j = BLOCKED) ∧
      ((t.board i j = AI_PAWN ∨ t.board i j = HU_PAWN) ↔
        (s.board i j = AI_PAWN ∨ s.board i j = HU_PAWN)))
    (fx fy tx ty : Int) : isLegitMove t fx fy tx ty = isLegitMove s fx fy tx ty := by
  unfold isLegitMove
  simp only [(hb tx ty).1, (hb tx ty).2]

theorem swap_board_rel (s : State) (b : Bool) (i j : Int) :
    (({ swapPlayers s with isMaxTurn := b } : State).board i j = BLOCKED ↔
      s.board i j = BLOCKED) ∧
    ((({ swapPlayers s with isMaxTurn := b } : State).board i j = AI_PAWN ∨
        ({ swapPlayers s with isMaxTurn := b } : State).board i j = HU_PAWN) ↔
      (s.board i j = AI_PAWN ∨ s.board i j = HU_PAWN)) := by
  show (swapCell (s.board i j) = BLOCKED ↔ _) ∧
    ((swapCell (s.board i j) = AI_PAWN ∨ swapCell (s.board i j) = HU_PAWN) ↔ _)
  rw [swapCell_blocked, swapCell_ai, swapCell_hu]
  exact ⟨Iff.rfl, Or.comm⟩

theorem getLegalStepMoves_swap (s : State) (b : Bool) :
    getLegalStepMoves { swapPlayers s with isMaxTurn := b }
      = getLegalStepMoves { s with isMaxTurn := !b } := by
  have hpos : getCurrentPlayerPos { swapPlayers s with isMaxTurn := b }
      = getCurrentPlayerPos { s with isMaxTurn := !b } := by
    cases b <;> rfl
  unfold getLegalStepMoves
  dsimp only
  rw [hpos]
  apply List.filter_congr
  intro t _
  exact isLegitMove_congr _ _
    (fun i j => by
      have := swap_board_rel s b i j
      exact this) _ _ _ _

theorem getLegalStepMoves_swapPlayers (s : State) :
    getLegalStepMoves (swapPlayers s) = getLegalStepMoves s := by
  have h := getLegalStepMoves_swap s (!s.isMaxTurn)
  rw [Bool.not_not] at h
  exact h

theorem hasNoMoves_swapPlayers (s : State) : hasNoMoves (swapPlayers s) = hasNoMoves s := by
  unfold hasNoMoves
  rw [getLegalStepMoves_swapPlayers]

theorem countMovesForPlayer_swap (s : State) (b : Bool) :
    countMovesForPlayer (swapPlayers s) b = countMovesForPlayer s (!b) := by
  unfold countMovesForPlayer
  dsimp only
  rw [getLegalStepMoves_swap]

theorem calculateMobility_swap (s : State) :
    calculateMobility (swapPlayers s) = - calculateMobility s := by
  unfold calculateMobility
  dsimp only
  rw [countMovesForPlayer_swap, countMovesForPlayer_swap]
  simp only [Bool.not_true, Bool.not_false]
  omega

theorem blockedAround_swap (s : State) (x y : Int) :
    blockedAround (swapPlayers s) x y = blockedAround s x y := by
  unfold blockedAround
  congr 2
  funext c
  show (inBounds c.1 c.2 && decide (swapCell (s.board c.1 c.2) = BLOCKED)) = _
  simp only [swapCell_blocked]

theorem calculateBarriers_swap (s : State) :
    calculateBarriers (swapPlayers s) = - calculateBarriers s := by
  unfold calculateBarriers
  dsimp only
  rw [blockedAround_swap, blockedAround_swap]
  show blockedAround s s.aiX s.aiY - blockedAround s s.huX s.huY
    = -(blockedAround s s.huX s.huY - blockedAround s s.aiX s.aiY)
  omega

theorem M2_visitNeighbours_swap (s : State) (ox oy x y : Int) (vis : Int → Int → Bool)
    (q : List (Int × Int)) :
    M2.visitNeighbours (swapPlayers s) ox oy x y vis q = M2.visitNeighbours s ox oy x y vis q := by
  unfold M2.visitNeighbours
  congr 1
  funext acc c
  show (if (!inBounds c.1 c.2) = true then acc
    else if acc.1 c.1 c.2 = true then acc
    else if swapCell (s.board c.1 c.2) = BLOCKED then acc
    else if c.1 = ox ∧ c.2 = oy then acc
    else (setCell acc.1 c.1 c.2 true, acc.2 ++ [c])) = _
  simp only [swapCell_blocked]

theorem M2_countReachableLoop_swap (s : State) (ox oy : Int) :
    ∀ (fuel : Nat) (q : List (Int × Int)) (qi : Nat) (vis : Int → Int → Bool) (cnt : Int),
      M2.countReachableLoop (swapPlayers s) ox oy fuel q qi vis cnt
        = M2.countReachableLoop s ox oy fuel q qi vis cnt := by
  intro fuel
  induction fuel with
  | zero => intro q qi vis cnt; rfl
  | succ fuel ih =>
    intro q qi vis cnt
    unfold M2.countReachableLoop
    cases q[qi]? with
    | none => rfl
    | some c =>
      dsimp only
      rw [M2_visitNeighbours_swap]
      exact ih _ _ _ _

theorem M2_countReachable_swap (s : State) (b : Bool) :
    M2.countReachable (swapPlayers s) b = M2.countReachable s (!b) := by
  unfold M2.countReachable
  dsimp only
  rw [M2_countReachableLoop_swap]
  cases b <;> rfl

theorem M2_calculateAreaControl_swap (s : State) (h : WellFormed s) :
    ∃ c, M2.calculateAreaControl s = some c ∧
      M2.calculateAreaControl (swapPlayers s) = some (-c) := by
  obtain ⟨a, ha, _⟩ := M2_countReachable_bounds s h true
  obtain ⟨b, hb, _⟩ := M2_countReachable_bounds s h false
  refine ⟨a - b, ?_, ?_⟩
  · simp only [M2.calculateAreaControl, ha, hb, Option.bind_eq_bind, Option.some_bind,
      Option.pure_def]
  · simp only [M2.calculateAreaControl, M2_countReachable_swap, Bool.not_true, Bool.not_false,
      ha, hb, Option.bind_eq_bind, Option.some_bind, Option.pure_def, Option.some.injEq]
    omega

theorem M2_eval_swap (s : State) (h : WellFormed s) :
    ∃ v, M2.eval s = some v ∧ M2.eval (swapPlayers s) = some (-v) := by
  cases ht : hasNoMoves s with
  | true =>
    cases hm : s.isMaxTurn with
    | true =>
      refine ⟨M2.LOSE_SCORE, by simp only [M2.eval, ht, hm, if_true], ?_⟩
      simp only [M2.eval, hasNoMoves_swapPlayers, ht, if_true]
      show some (if (!s.isMaxTurn) = true then M2.LOSE_SCORE else M2.WIN_SCORE) = _
      rw [hm]
      rfl
    | false =>
      refine ⟨M2.WIN_SCORE,
        by simp only [M2.eval, ht, hm, if_true, Bool.false_eq_true, if_false], ?_⟩
      simp only [M2.eval, hasNoMoves_swapPlayers, ht, if_true]
      show some (if (!s.isMaxTurn) = true then M2.LOSE_SCORE else M2.WIN_SCORE) = _
      rw [hm]
      rfl
  | false =>
    obtain ⟨c, hc, hc2⟩ := M2_calculateAreaControl_swap s h
    refine ⟨calculateMobility s * 5 + calculateBarriers s * 2 + c * 10, ?_, ?_⟩
    · simp only [M2.eval, ht, Bool.false_eq_true, if_false, hc, Option.bind_eq_bind,
        Option.some_bind, Option.pure_def]
    · simp only [M2.eval, hasNoMoves_swapPlayers, ht, Bool.false_eq_true, if_false, hc2,
        calculateMobility_swap, calculateBarriers_swap, Option.bind_eq_bind,
        Option.some_bind, Option.pure_def, Option.some.injEq]
      omega

/-- C33: the 3-term evaluator is antisymmetric under exchanging the players.  With
`swapPlayers s` the state in which the `AI_PAWN` and `HU_PAWN` cells and the
stored coordinates are exchanged and `isMaxTurn` is negated (`BLOCKED` cells
unchanged), on a well-formed state `eval (swapPlayers s) = -eval s`, and
`calculateMobility`, `calculateBarriers` and `calculateAreaControl` each change
sign. -/
theorem eval_antisymmetric (s : State) (h : WellFormed s) :
    WellFormed (swapPlayers s) ∧
    (∀ i j : Int, ((swapPlayers s).board i j = BLOCKED ↔ s.board i j = BLOCKED) ∧
      ((swapPlayers s).board i j = AI_PAWN ↔ s.board i j = HU_PAWN) ∧
      ((swapPlayers s).board i j = HU_PAWN ↔ s.board i j = AI_PAWN)) ∧
    calculateMobility (swapPlayers s) = - calculateMobility s ∧
    calculateBarriers (swapPlayers s) = - calculateBarriers s ∧
    (∃ c, M2.calculateAreaControl s = some c ∧
      M2.calculateAreaControl (swapPlayers s) = some (-c)) ∧
    (∃ v, M2.eval s = some v ∧ M2.eval (swapPlayers s) = some (-v)) :=
  ⟨wellFormed_swapPlayers h,
    fun _ _ => ⟨swapCell_blocked _, swapCell_ai _, swapCell_hu _⟩,
    calculateMobility_swap s, calculateBarriers_swap s,
    M2_calculateAreaControl_swap s h, M2_eval_swap s h⟩

theorem eval_antisymmetric_witness :
    WellFormed initialState ∧
    ∃ v, M2.eval initialState = some v ∧ M2.eval (swapPlayers initialState) = some (-v) :=
  ⟨by decide, (eval_antisymmetric initialState (by decide)).2.2.2.2.2⟩

/-! ## The reachable area -/

theorem visitFold_inv (s : State) (sx sy ox oy : Int) (c : Int × Int)
    (hc : AreaReach s sx sy ox oy c) :
    ∀ (ns : List (Int × Int)) (vis : Int → Int → Bool) (q : List (Int × Int)),
      (∀ n ∈ ns, n ∈ neighbours c.1 c.2) → AreaInv s sx sy ox oy q vis →
      ∃ ext, (ns.foldl (fun acc n =>
          if !inBounds n.1 n.2 then acc
          else if acc.1 n.1 n.2 then acc
          else if s.board n.1 n.2 = BLOCKED then acc
          else if n.1 = ox ∧ n.2 = oy then acc
          else (setCell acc.1 n.1 n.2 true, acc.2 ++ [n])) (vis, q)).2 = q ++ ext ∧
        AreaInv s sx sy ox oy (q ++ ext) (ns.foldl (fun acc n =>
          if !inBounds n.1 n.2 then acc
          else if acc.1 n.1 n.2 then acc
          else if s.board n.1 n.2 = BLOCKED then acc
          else if n.1 = ox ∧ n.2 = oy then acc
          else (setCell acc.1 n.1 n.2 true, acc.2 ++ [n])) (vis, q)).1 ∧
        (∀ n ∈ ns, inBounds n.1 n.2 = true → s.board n.1 n.2 ≠ BLOCKED →
          ¬ (n.1 = ox ∧ n.2 = oy) → n ∈ q ++ ext) := by
  intro ns
  induction ns with
  | nil =>
    intro vis q _ hinv
    exact ⟨[], by simp, by simpa using hinv, fun n hn => absurd hn (List.not_mem_nil _)⟩
  | cons a ns ih =>
    intro vis q hsub hinv
    have hrest : ∀ n ∈ ns, n ∈ neighbours c.1 c.2 :=
      fun n hn => hsub n (List.mem_cons_of_mem _ hn)
    rw [List.foldl_cons]
    have keep : ∀ (hskip : a ∈ q ∨ ¬ (inBounds a.1 a.2 = true ∧ s.board a.1 a.2 ≠ BLOCKED ∧
        ¬ (a.1 = ox ∧ a.2 = oy))),
        ∃ ext, (ns.foldl (fun acc n =>
          if !inBounds n.1 n.2 then acc
          else if acc.1 n.1 n.2 then acc
          else if s.board n.1 n.2 = BLOCKED then acc
          else if n.1 = ox ∧ n.2 = oy then acc
          else (setCell acc.1 n.1 n.2 true, acc.2 ++ [n])) (vis, q)).2 = q ++ ext ∧
        AreaInv s sx sy ox oy (q ++ ext) (ns.foldl (fun acc n =>
          if !inBounds n.1 n.2 then acc
          else if acc.1 n.1 n.2 then acc
          else if s.board n.1 n.2 = BLOCKED then acc
          else if n.1 = ox ∧ n.2 = oy then acc
          else (setCell acc.1 n.1 n.2 true, acc.2 ++ [n])) (vis, q)).1 ∧
        (∀ n ∈ a :: ns, inBounds n.1 n.2 = true → s.board n.1 n.2 ≠ BLOCKED →
          ¬ (n.1 = ox ∧ n.2 = oy) → n ∈ q ++ ext) := by
      intro hskip
      obtain ⟨ext, e1, e2, e3⟩ := ih vis q hrest hinv
      refine ⟨ext, e1, e2, ?_⟩
      intro n hn hb hnb hno
      rw [List.mem_cons] at hn
      rcases hn with rfl | hn
      · rcases hskip with hq | hnot
        · exact List.mem_append_left _ hq
        · exact absurd ⟨hb, hnb, hno⟩ hnot
      · exact e3 n hn hb hnb hno
    by_cases h1 : inBounds a.1 a.2 = true
    · by_cases h2 : vis a.1 a.2 = true
      · simp only [h1, h2, Bool.not_true, Bool.false_eq_true, if_false, if_true]
        exact keep (Or.inl ((hinv.seen a).1 h2))
      · by_cases h3 : s.board a.1 a.2 = BLOCKED
        · simp only [h1, h2, h3, Bool.not_true, Bool.false_eq_true, if_false, if_true]
          exact keep (Or.inr (fun hh => hh.2.1 h3))
        · by_cases h4 : a.1 = ox ∧ a.2 = oy
          · have hk := keep (Or.inr (fun hh => hh.2.2 h4))
            obtain ⟨h4a, h4b⟩ := h4
            subst h4a h4b
            simp only [h1, h2, h3, and_self, Bool.not_true, Bool.false_eq_true, if_false,
              if_true]
            exact hk
          · simp only [h1, h2, h3, h4, Bool.not_true, Bool.false_eq_true, if_false]
            have hnq : a ∉ q := fun hq => h2 ((hinv.seen a).2 hq)
            have hinv2 : AreaInv s sx sy ox oy (q ++ [a]) (setCell vis a.1 a.2 true) := by
              constructor
              · exact List.Nodup.append hinv.nodup (List.nodup_singleton _)
                  (by rw [List.disjoint_singleton]; exact hnq)
              · exact List.mem_append_left _ hinv.hasStart
              · intro x
                rw [List.mem_append, List.mem_singleton, setCell_apply]
                by_cases hx : x.1 = a.1 ∧ x.2 = a.2
                · rw [if_pos hx]
                  exact ⟨fun _ => Or.inr (Prod.ext hx.1 hx.2), fun _ => rfl⟩
                · rw [if_neg hx, hinv.seen x]
                  constructor
                  · exact Or.inl
                  · rintro (hq | rfl)
                    · exact hq
                    · exact absurd ⟨rfl, rfl⟩ hx
              · intro x hx
                rw [List.mem_append, List.mem_singleton] at hx
                rcases hx with hx | rfl
                · exact hinv.reach x hx
                · exact AreaReach.step hc (hsub _ (List.mem_cons_self _ _)) h1 h3 h4
            obtain ⟨ext, e1, e2, e3⟩ := ih (setCell vis a.1 a.2 true) (q ++ [a]) hrest hinv2
            refine ⟨a :: ext, by rw [e1]; simp, by simpa using e2, ?_⟩
            intro n hn hb hnb hno
            rw [List.mem_cons] at hn
            rcases hn with rfl | hn
            · simp
            · have := e3 n hn hb hnb hno
              simpa using this
    · simp only [h1, Bool.not_false, if_true]
      exact keep (Or.inr (fun hh => h1 hh.1))

theorem M2_visitNeighbours_inv (s : State) (sx sy ox oy : Int) (c : Int × Int)
    (hc : AreaReach s sx sy ox oy c) (vis : Int → Int → Bool) (q : List (Int × Int))
    (hinv : AreaInv s sx sy ox oy q vis) :
    ∃ ext, (M2.visitNeighbours s ox oy c.1 c.2 vis q).2 = q ++ ext ∧
      AreaInv s sx sy ox oy (q ++ ext) (M2.visitNeighbours s ox oy c.1 c.2 vis q).1 ∧
      (∀ n ∈ neighbours c.1 c.2, inBounds n.1 n.2 = true → s.board n.1 n.2 ≠ BLOCKED →
        ¬ (n.1 = ox ∧ n.2 = oy) → n ∈ q ++ ext) :=
  visitFold_inv s sx sy ox oy c hc (neighbours c.1 c.2) vis q (fun _ h => h) hinv

theorem AreaInv.complete {s : State} {sx sy ox oy : Int} {q : List (Int × Int)}
    {vis : Int → Int → Bool} (hinv : AreaInv s sx sy ox oy q vis)
    (hclosed : ∀ c ∈ q, ∀ n ∈ neighbours c.1 c.2, inBounds n.1 n.2 = true →
      s.board n.1 n.2 ≠ BLOCKED → ¬ (n.1 = ox ∧ n.2 = oy) → n ∈ q) :
    ∀ c : Int × Int, c ∈ q ↔ AreaReach s sx sy ox oy c := by
  intro c
  constructor
  · exact hinv.reach c
  · intro hr
    induction hr with
    | start => exact hinv.hasStart
    | step _ hn hb hnb hno ih => exact hclosed _ ih _ hn hb hnb hno

theorem M2_countReachableLoop_spec (s : State) (sx sy ox oy : Int) :
    ∀ (fuel : Nat) (q : List (Int × Int)) (qi : Nat) (vis : Int → Int → Bool) (cnt r : Int),
      AreaInv s sx sy ox oy q vis → qi ≤ q.length →
      (∀ c ∈ q.take qi, ∀ n ∈ neighbours c.1 c.2, inBounds n.1 n.2 = true →
        s.board n.1 n.2 ≠ BLOCKED → ¬ (n.1 = ox ∧ n.2 = oy) → n ∈ q) →
      M2.countReachableLoop s ox oy fuel q qi vis cnt = some r →
      ∃ qf : List (Int × Int), qf.Nodup ∧ (∀ c, c ∈ qf ↔ AreaReach s sx sy ox oy c) ∧
        r + (qi : Int) = cnt + (qf.length : Int) := by
  intro fuel
  induction fuel with
  | zero =>
    intro q qi vis cnt r _ _ _ h
    simp only [M2.countReachableLoop] at h
    exact Option.noConfusion h
  | succ fuel ih =>
    intro q qi vis cnt r hinv hqi hclosed h
    unfold M2.countReachableLoop at h
    cases hc : q[qi]? with
    | none =>
      rw [hc] at h
      simp only [Option.some.injEq] at h
      have hge : q.length ≤ qi := by
        by_contra hlt
        rw [List.getElem?_eq_getElem (by omega)] at hc
        exact Option.noConfusion hc
      have hq : q.take qi = q := List.take_of_length_le hge
      rw [hq] at hclosed
      refine ⟨q, hinv.nodup, hinv.complete hclosed, ?_⟩
      have : qi = q.length := by omega
      rw [← h, this]
    | some c =>
      rw [hc] at h
      dsimp only at h
      have hlt : qi < q.length := by
        by_contra hge
        rw [List.getElem?_eq_none (by omega)] at hc
        exact Option.noConfusion hc
      have hcq : c ∈ q := List.getElem?_mem hc
      obtain ⟨ext, e1, e2, e3⟩ := M2_visitNeighbours_inv s sx sy ox oy c (hinv.reach c hcq)
        vis q hinv
      rw [e1] at h
      have htake : (q ++ ext).take (qi + 1) = q.take qi ++ [c] := by
        rw [List.take_append_of_le_length (by omega)]
        rw [List.take_succ, hc]
        rfl
      have hclosed2 : ∀ x ∈ (q ++ ext).take (qi + 1), ∀ n ∈ neighbours x.1 x.2,
          inBounds n.1 n.2 = true → s.board n.1 n.2 ≠ BLOCKED → ¬ (n.1 = ox ∧ n.2 = oy) →
          n ∈ q ++ ext := by
        intro x hx n hn hb hnb hno
        rw [htake, List.mem_append, List.mem_singleton] at hx
        rcases hx with hx | rfl
        · exact List.mem_append_left _ (hclosed x hx n hn hb hnb hno)
        · exact e3 n hn hb hnb hno
      obtain ⟨qf, f1, f2, f3⟩ := ih (q ++ ext) (qi + 1) _ (cnt + 1) r e2
        (by rw [List.length_append]; omega) hclosed2 h
      refine ⟨qf, f1, f2, ?_⟩
      push_cast at f3
      omega

theorem AreaInv.atStart (s : State) (sx sy ox oy : Int) :
    AreaInv s sx sy ox oy [(sx, sy)] (setCell (fun _ _ => false) sx sy true) := by
  constructor
  · exact List.nodup_singleton _
  · exact List.mem_singleton_self _
  · intro c
    rw [List.mem_singleton, setCell_apply]
    by_cases hx : c.1 = sx ∧ c.2 = sy
    · rw [if_pos hx]
      exact ⟨fun _ => Prod.ext hx.1 hx.2, fun _ => rfl⟩
    · rw [if_neg hx]
      constructor
      · intro hf; exact absurd hf (by decide)
      · intro hcs; rw [hcs] at hx; exact absurd ⟨rfl, rfl⟩ hx
  · intro c hc
    rw [List.mem_singleton] at hc
    rw [hc]
    exact AreaReach.start

theorem AreaReach.facts {s : State} {sx sy ox oy : Int} (hs : inBounds sx sy = true)
    (hne : ¬ (sx = ox ∧ sy = oy)) {c : Int × Int} (h : AreaReach s sx sy ox oy c) :
    inBounds c.1 c.2 = true ∧ ¬ (c.1 = ox ∧ c.2 = oy) := by
  induction h with
  | start => exact ⟨hs, hne⟩
  | step _ _ hb _ hno _ => exact ⟨hb, hno⟩

theorem M2_countReachable_spec (s : State) (h : WellFormed s) (forAI : Bool) :
    ∃ (r : Int) (qf : List (Int × Int)),
      M2.countReachable s forAI = some r ∧ qf.Nodup ∧
      (∀ c, c ∈ qf ↔ AreaReach s (if forAI then s.aiX else s.huX) (if forAI then s.aiY else s.huY)
        (if forAI then s.huX else s.aiX) (if forAI then s.huY else s.aiY) c) ∧
      r = (qf.length : Int) := by
  obtain ⟨r, hr, _⟩ := M2_countReachable_bounds s h forAI
  have hr2 := hr
  unfold M2.countReachable at hr2
  dsimp only at hr2
  obtain ⟨qf, f1, f2, f3⟩ := M2_countReachableLoop_spec s _ _ _ _ _ _ 0 _ 0 r
    (AreaInv.atStart s _ _ _ _) (Nat.zero_le _)
    (fun c hc => absurd hc (by simp)) hr2
  refine ⟨r, qf, hr, f1, f2, ?_⟩
  push_cast at f3
  omega

theorem areaReach_count (s : State) (sx sy ox oy : Int) (hs : inBounds sx sy = true)
    (ho : inBounds ox oy = true) (hne : ¬ (sx = ox ∧ sy = oy))
    (L qf : List (Int × Int)) (hL : L.Nodup)
    (hLm : ∀ n : Int × Int, n ∈ L ↔ n ∈ neighbours sx sy ∧ inBounds n.1 n.2 = true ∧
      s.board n.1 n.2 ≠ BLOCKED ∧ ¬ (n.1 = ox ∧ n.2 = oy))
    (hq : qf.Nodup) (hqm : ∀ c, c ∈ qf ↔ AreaReach s sx sy ox oy c) :
    1 + L.length ≤ qf.length ∧ qf.length ≤ 48 ∧ (qf.length = 1 ↔ L.length = 0) := by
  have hstart : (sx, sy) ∈ qf := (hqm _).2 AreaReach.start
  have hlow : 1 + L.length ≤ qf.length := by
    have hnd : ((sx, sy) :: L).Nodup := by
      rw [List.nodup_cons]
      refine ⟨fun hin => ?_, hL⟩
      exact not_self_mem_neighbours (sx, sy) ((hLm _).1 hin).1
    have hsub : ((sx, sy) :: L) ⊆ qf := by
      intro c hc
      rw [List.mem_cons] at hc
      rcases hc with rfl | hc
      · exact hstart
      · obtain ⟨h1, h2, h3, h4⟩ := (hLm c).1 hc
        exact (hqm c).2 (AreaReach.step AreaReach.start h1 h2 h3 h4)
    have := (List.Nodup.subperm hnd hsub).length_le
    rw [List.length_cons] at this
    omega
  have hup : qf.length ≤ 48 := by
    have hnd : ((ox, oy) :: qf).Nodup := by
      rw [List.nodup_cons]
      refine ⟨fun hin => ?_, hq⟩
      exact (AreaReach.facts hs hne ((hqm _).1 hin)).2 ⟨rfl, rfl⟩
    have hsub : ((ox, oy) :: qf) ⊆ allCells := by
      intro c hc
      rw [List.mem_cons] at hc
      rcases hc with rfl | hc
      · exact (mem_allCells _ _).2 ho
      · exact (mem_allCells c.1 c.2).2 (AreaReach.facts hs hne ((hqm _).1 hc)).1
    have := (List.Nodup.subperm hnd hsub).length_le
    rw [List.length_cons, length_allCells] at this
    omega
  refine ⟨hlow, hup, ?_, ?_⟩
  · intro h1
    omega
  · intro h0
    have hnil : L = [] := List.length_eq_zero.1 h0
    have honly : ∀ c, AreaReach s sx sy ox oy c → c = (sx, sy) := by
      intro c hc
      induction hc with
      | start => rfl
      | step _ hn hb hnb hno ih =>
        rw [ih] at hn
        have := (hLm _).2 ⟨hn, hb, hnb, hno⟩
        rw [hnil] at this
        exact absurd this (List.not_mem_nil _)
    have hsub : qf ⊆ [(sx, sy)] := by
      intro c hc
      rw [List.mem_singleton]
      exact honly c ((hqm c).1 hc)
    have := (List.Nodup.subperm hq hsub).length_le
    rw [List.length_singleton] at this
    omega

theorem legalSteps_eligible (s : State) (h : WellFormed s) (forAI : Bool) (n : Int × Int) :
    n ∈ getLegalStepMoves { s with isMaxTurn := forAI } ↔
      n ∈ neighbours (if forAI then s.aiX else s.huX) (if forAI then s.aiY else s.huY) ∧
      inBounds n.1 n.2 = true ∧ s.board n.1 n.2 ≠ BLOCKED ∧
      ¬ (n.1 = (if forAI then s.huX else s.aiX) ∧ n.2 = (if forAI then s.huY else s.aiY)) := by
  obtain ⟨h1, h2, h3, h4⟩ := h
  obtain ⟨x, y⟩ := n
  rw [mem_getLegalStepMoves, mem_neighbours]
  have hai : ∀ hb : inBounds x y = true, s.board x y = AI_PAWN ↔ (x, y) = (s.aiX, s.aiY) :=
    fun hb => h3 (x, y) ((mem_allCells x y).2 hb)
  have hhu : ∀ hb : inBounds x y = true, s.board x y = HU_PAWN ↔ (x, y) = (s.huX, s.huY) :=
    fun hb => h4 (x, y) ((mem_allCells x y).2 hb)
  cases forAI
  · simp only [getCurrentPlayerPos, Bool.false_eq_true, if_false, ne_eq, Prod.mk.injEq]
    constructor
    · rintro ⟨hb, hd, hns, hnb, hna, _⟩
      refine ⟨⟨hd, hns⟩, hb, hnb, fun hh => hna ((hai hb).2 ?_)⟩
      rw [hh.1, hh.2]
    · rintro ⟨⟨hd, hns⟩, hb, hnb, hno⟩
      refine ⟨hb, hd, hns, hnb, fun hh => hno ?_, fun hh => hns ?_⟩
      · have := (hai hb).1 hh
        simpa using this
      · have := (hhu hb).1 hh
        simpa using this
  · simp only [getCurrentPlayerPos, if_true, ne_eq, Prod.mk.injEq]
    constructor
    · rintro ⟨hb, hd, hns, hnb, _, hnh⟩
      refine ⟨⟨hd, hns⟩, hb, hnb, fun hh => hnh ((hhu hb).2 ?_)⟩
      rw [hh.1, hh.2]
    · rintro ⟨⟨hd, hns⟩, hb, hnb, hno⟩
      refine ⟨hb, hd, hns, hnb, fun hh => hns ?_, fun hh => hno ?_⟩
      · have := (hai hb).1 hh
        simpa using this
      · have := (hhu hb).1 hh
        simpa using this

theorem pawns_apart (s : State) (h : WellFormed s) (forAI : Bool) :
    ¬ ((if forAI then s.aiX else s.huX) = (if forAI then s.huX else s.aiX) ∧
       (if forAI then s.aiY else s.huY) = (if forAI then s.huY else s.aiY)) := by
  obtain ⟨h1, h2, h3, h4⟩ := h
  have hne : ¬ (s.aiX = s.huX ∧ s.aiY = s.huY) := by
    rintro ⟨e1, e2⟩
    have a := (h3 (s.aiX, s.aiY) ((mem_allCells _ _).2 h1)).2 rfl
    have b := (h4 (s.aiX, s.aiY) ((mem_allCells _ _).2 h1)).2 (by rw [e1, e2])
    rw [a] at b
    exact absurd b (by decide)
  cases forAI
  · simp only [Bool.false_eq_true, if_false]
    exact fun hh => hne ⟨hh.1.symm, hh.2.symm⟩
  · simp only [if_true]
    exact hne

/-- C34: on a well-formed state and for either player, `countReachable` returns the
number of cells of the set made of the player's own cell and every cell reachable
from it by 8-directional steps through in-bounds cells that are neither `BLOCKED`
nor the other pawn's cell; hence `1 + countMovesForPlayer ≤ countReachable ≤ 48`,
and `countReachable = 1` exactly when `countMovesForPlayer = 0`. -/
theorem countReachable_counts_area (s : State) (h : WellFormed s) (forAI : Bool) :
    ∃ (r : Int) (cells : List (Int × Int)),
      M2.countReachable s forAI = some r ∧ cells.Nodup ∧
      (∀ c, c ∈ cells ↔
        AreaReach s (if forAI then s.aiX else s.huX) (if forAI then s.aiY else s.huY)
          (if forAI then s.huX else s.aiX) (if forAI then s.huY else s.aiY) c) ∧
      r = (cells.length : Int) ∧
      1 + countMovesForPlayer s forAI ≤ r ∧ r ≤ 48 ∧
      (r = 1 ↔ countMovesForPlayer s forAI = 0) := by
  obtain ⟨r, qf, hr, hnd, hm, hlen⟩ := M2_countReachable_spec s h forAI
  have hs : inBounds (if forAI then s.aiX else s.huX) (if forAI then s.aiY else s.huY) = true := by
    cases forAI
    · exact h.2.1
    · exact h.1
  have ho : inBounds (if forAI then s.huX else s.aiX) (if forAI then s.huY else s.aiY) = true := by
    cases forAI
    · exact h.1
    · exact h.2.1
  obtain ⟨c1, c2, c3⟩ := areaReach_count s _ _ _ _ hs ho (pawns_apart s h forAI)
    (getLegalStepMoves { s with isMaxTurn := forAI }) qf (nodup_getLegalStepMoves _)
    (legalSteps_eligible s h forAI) hnd hm
  refine ⟨r, qf, hr, hnd, hm, hlen, ?_, ?_, ?_⟩
  · show 1 + ((getLegalStepMoves { s with isMaxTurn := forAI }).length : Int) ≤ r
    omega
  · omega
  · show r = 1 ↔ ((getLegalStepMoves { s with isMaxTurn := forAI }).length : Int) = 0
    omega

theorem countReachable_counts_area_witness :
    WellFormed initialState ∧
    ∃ (r : Int) (cells : List (Int × Int)),
      M2.countReachable initialState true = some r ∧ cells.Nodup ∧
      (∀ c, c ∈ cells ↔
        AreaReach initialState (if true then initialState.aiX else initialState.huX)
          (if true then initialState.aiY else initialState.huY)
          (if true then initialState.huX else initialState.aiX)
          (if true then initialState.huY else initialState.aiY) c) ∧
      r = (cells.length : Int) ∧
      1 + countMovesForPlayer initialState true ≤ r ∧ r ≤ 48 ∧
      (r = 1 ↔ countMovesForPlayer initialState true = 0) :=
  ⟨by decide, countReachable_counts_area initialState (by decide) true⟩
